import Mathlib

/-!
# The gobasic tokenizer

A shallow embedding of `tokenizer/tokenizer.go` and the properties of its
token stream.

Conventions of the embedding:

* a Go `rune` taken from `[]rune(string)` is a Unicode scalar value, so it is a
  `Char`; `rune(0)` is `Char.ofNat 0`;
* a Go `string` is a `String`, and `string(ch)` is `String.singleton ch`; an
  input that need not be valid UTF-8 is given by its bytes, and `NewBytes` is
  `New` on such an input (`NewBytes_bytesOf`: on the bytes of a `String` it is
  `New` on the `String`);
* `position` and `readPosition` are `Nat` (the Go `int` never overflows on the
  inputs considered: it grows by at most a few units per call);
* the methods mutate the receiver, here every function returns the new state;
* the `for` loops of `skipWhitespace`, `readNumber` and `readIdentifier` are
  structural recursions on a fuel that is computed from the state and proved
  to be enough (`skipWhitespace_ch`, `scanLoop_spec`);
* the `for` loop of `readString` has no exit at the end of the buffer;
  `readString` returns `none` when the loop never exits
  (`readStringLoop_adequate` shows the fuel of `readString` is enough whenever
  some fuel is), and `NextToken` returns `none` exactly then.
-/

namespace Gobasic

/-- Modelled from the spec: the package `token` (the type `token.Type`, its
constants and the keyword table) is not among the sources. The kinds are the
closed vocabulary the tokenizer names (`token.ASSIGN` ... `token.LINENO`), an
identifier/keyword family (`IDENT`, `KEYWORD name`), and `UNSET`, the zero value
of `token.Type` that a token holds before a kind is assigned to it. -/
inductive TokenType
  | UNSET
  | ASSIGN | COMMA | PLUS | MINUS | SLASH | MOD | ASTERISK | LBRACKET | RBRACKET
  | LT | GT | LT_EQUALS | GT_EQUALS | NOT_EQUALS
  | STRING | NEWLINE | EOF | INT | LINENO
  | IDENT
  | KEYWORD (name : String)
  deriving DecidableEq, Repr

/-- The `token.Token` value: its `Type` (here `Kind`, `Type` being reserved in
Lean) and the literal text. -/
structure Token where
  Kind : TokenType
  Literal : String
  deriving DecidableEq, Repr

/-- The state of the tokenizer (`type Tokenizer struct`). -/
structure Tokenizer where
  position : Nat
  readPosition : Nat
  ch : Char
  characters : List Char
  prevToken : Token
  deriving DecidableEq, Repr

/-- The sentinel `rune(0)`. -/
def NUL : Char := Char.ofNat 0

/-- `readChar`: read one forward character. -/
def readChar (l : Tokenizer) : Tokenizer :=
  let ch := if h : l.readPosition ≥ l.characters.length then NUL
            else l.characters.get ⟨l.readPosition, Nat.lt_of_not_ge h⟩
  { l with ch := ch, position := l.readPosition, readPosition := l.readPosition + 1 }

/-- `New`: a tokenizer over the input prefixed with a newline. -/
def New (input : String) : Tokenizer :=
  readChar { position := 0, readPosition := 0, ch := NUL,
             characters := '\n' :: input.data,
             prevToken := ⟨TokenType.UNSET, ""⟩ }

/-- `peekChar`: the next character available for consumption. -/
def peekChar (l : Tokenizer) : Char :=
  if h : l.readPosition ≥ l.characters.length then NUL
  else l.characters.get ⟨l.readPosition, Nat.lt_of_not_ge h⟩

/-- `isWhitespace`: a newline is not whitespace. -/
def isWhitespace (ch : Char) : Bool :=
  ch == ' ' || ch == '\t' || ch == '\r'

/-- `isOperator`. -/
def isOperator (ch : Char) : Bool :=
  ch == '+' || ch == '-' || ch == '/' || ch == '*'

/-- `isComparison`. -/
def isComparison (ch : Char) : Bool :=
  ch == '=' || ch == '!' || ch == '>' || ch == '<'

/-- `isCompound`. -/
def isCompound (ch : Char) : Bool :=
  ch == ',' || ch == ':' || ch == '"' || ch == ';'

/-- `isBrace`. -/
def isBrace (ch : Char) : Bool :=
  ch == '\x7b' || ch == '\x7d'

/-- `isBracket`. -/
def isBracket (ch : Char) : Bool :=
  ch == '[' || ch == ']'

/-- `isParen`. -/
def isParen (ch : Char) : Bool :=
  ch == '(' || ch == ')'

/-- `isEmpty`. -/
def isEmpty (ch : Char) : Bool :=
  NUL == ch

/-- `isDigit`. -/
def isDigit (ch : Char) : Bool :=
  decide ('0' ≤ ch) && decide (ch ≤ '9')

/-- `isIdentifier`: allow-by-exclusion. -/
def isIdentifier (ch : Char) : Bool :=
  !isDigit ch && !isWhitespace ch && !isBrace ch && !isOperator ch && !isComparison ch &&
    !isCompound ch && !isBrace ch && !isParen ch && !isBracket ch && !isEmpty ch && (ch != '\n')

/-- `newToken`: a token whose text is one character. -/
def newToken (tokenType : TokenType) (ch : Char) : Token :=
  ⟨tokenType, String.singleton ch⟩

/-- The loop of `skipWhitespace`, on a fuel. -/
def skipWhitespaceLoop : Nat → Tokenizer → Tokenizer
  | 0, l => l
  | n + 1, l => if isWhitespace l.ch then skipWhitespaceLoop n (readChar l) else l

/-- `skipWhitespace`: every iteration but the last reads inside the buffer, so
`length - readPosition + 1` iterations are enough. -/
def skipWhitespace (l : Tokenizer) : Tokenizer :=
  skipWhitespaceLoop (l.characters.length - l.readPosition + 1) l

/-- The loop of `readNumber`, on a fuel: the state and the text read so far. -/
def readNumberLoop : Nat → Tokenizer → String → Tokenizer × String
  | 0, l, str => (l, str)
  | n + 1, l, str =>
    if isDigit (peekChar l) then readNumberLoop n (readChar l) (str ++ String.singleton l.ch)
    else (l, str)

/-- `readNumber`: the loop runs only while `readPosition` is inside the buffer. -/
def readNumber (l : Tokenizer) : String × Tokenizer :=
  let r := readNumberLoop (l.characters.length - l.readPosition) l ""
  (r.2 ++ String.singleton r.1.ch, r.1)

/-- The loop of `readIdentifier`, on a fuel. -/
def readIdentifierLoop : Nat → Tokenizer → String → Tokenizer × String
  | 0, l, id => (l, id)
  | n + 1, l, id =>
    if isIdentifier (peekChar l) then
      readIdentifierLoop n (readChar l) (id ++ String.singleton l.ch)
    else (l, id)

/-- `readIdentifier`. -/
def readIdentifier (l : Tokenizer) : String × Tokenizer :=
  let r := readIdentifierLoop (l.characters.length - l.readPosition) l ""
  (r.2 ++ String.singleton r.1.ch, r.1)

/-- The escape decoding inside `readString` (`Handle \n, \r, \t, \", etc.`):
five successive tests on `l.ch`, each overwriting it. -/
def unescape (l : Tokenizer) : Tokenizer :=
  let l := if l.ch = 'n' then { l with ch := '\n' } else l
  let l := if l.ch = 'r' then { l with ch := '\r' } else l
  let l := if l.ch = 't' then { l with ch := '\t' } else l
  let l := if l.ch = '"' then { l with ch := '"' } else l
  let l := if l.ch = '\\' then { l with ch := '\\' } else l
  l

/-- The loop of `readString`, on a fuel; `none` when the fuel runs out. The
decoded character is stored in `l.ch`, as the source does. -/
def readStringLoop : Nat → Tokenizer → String → Option (String × Tokenizer)
  | 0, _, _ => none
  | n + 1, l, out =>
    let l := readChar l
    if l.ch = '"' then some (out, l)
    else
      let l := if l.ch = '\\' then unescape (readChar l) else l
      readStringLoop n l (out ++ String.singleton l.ch)

/-- `readString`: `none` when the loop does not exit. -/
def readString (l : Tokenizer) : Option (String × Tokenizer) :=
  readStringLoop (l.characters.length - l.readPosition) l ""

/-- The `switch` of `NextToken`, after `skipWhitespace`: the token and the
state before the final `readChar`. The keyword table `token.LookupIdentifier`
is the parameter `lookup`. -/
def dispatch (lookup : String → TokenType) (l : Tokenizer) : Option (Token × Tokenizer) :=
  if l.ch = '=' then some (newToken TokenType.ASSIGN l.ch, l)
  else if l.ch = ',' then some (newToken TokenType.COMMA l.ch, l)
  else if l.ch = '+' then some (newToken TokenType.PLUS l.ch, l)
  else if l.ch = '-' then some (newToken TokenType.MINUS l.ch, l)
  else if l.ch = '/' then some (newToken TokenType.SLASH l.ch, l)
  else if l.ch = '%' then some (newToken TokenType.MOD l.ch, l)
  else if l.ch = '*' then some (newToken TokenType.ASTERISK l.ch, l)
  else if l.ch = '(' then some (newToken TokenType.LBRACKET l.ch, l)
  else if l.ch = ')' then some (newToken TokenType.RBRACKET l.ch, l)
  else if l.ch = '<' then
    if peekChar l = '>' then
      let ch := l.ch
      let l := readChar l
      some (⟨TokenType.NOT_EQUALS, String.singleton ch ++ String.singleton l.ch⟩, l)
    else if peekChar l = '=' then
      let ch := l.ch
      let l := readChar l
      some (⟨TokenType.LT_EQUALS, String.singleton ch ++ String.singleton l.ch⟩, l)
    else some (newToken TokenType.LT l.ch, l)
  else if l.ch = '>' then
    if peekChar l = '=' then
      let ch := l.ch
      let l := readChar l
      some (⟨TokenType.GT_EQUALS, String.singleton ch ++ String.singleton l.ch⟩, l)
    else some (newToken TokenType.GT l.ch, l)
  else if l.ch = '"' then
    match readString l with
    | none => none
    | some (s, l) => some (⟨TokenType.STRING, s⟩, l)
  else if l.ch = '\n' then some (newToken TokenType.NEWLINE 'N', l)
  else if l.ch = NUL then some (⟨TokenType.EOF, ""⟩, l)
  else if isDigit l.ch then
    let r := readNumber l
    some (⟨TokenType.INT, r.1⟩, r.2)
  else
    let r := readIdentifier l
    some (⟨lookup r.1, r.1⟩, r.2)

/-- The line-number rule of `NextToken` (`A number that follows a newline is a
line-number, not an integer`): the token as it is returned after `prev`. -/
def lineNumberRule (prev : Token) (tok : Token) : Token :=
  if prev.Kind = TokenType.NEWLINE ∧ tok.Kind = TokenType.INT then
    { tok with Kind := TokenType.LINENO }
  else tok

/-- `NextToken`: skip the white space, read the next token, advance, apply the
line-number rule and store the token; `none` when the call does not return. -/
def NextToken (lookup : String → TokenType) (l : Tokenizer) : Option (Token × Tokenizer) :=
  match dispatch lookup (skipWhitespace l) with
  | none => none
  | some (tok, l) =>
    let l := readChar l
    let tok := lineNumberRule l.prevToken tok
    some (tok, { l with prevToken := tok })

/-- The tokens of `n` successive calls of `NextToken` and the state they
leave; `none` when one of the calls does not return. -/
def nextTokens (lookup : String → TokenType) : Nat → Tokenizer → Option (List Token × Tokenizer)
  | 0, l => some ([], l)
  | n + 1, l =>
    match NextToken lookup l with
    | none => none
    | some (tok, l) =>
      match nextTokens lookup n l with
      | none => none
      | some (toks, l) => some (tok :: toks, l)

/-! ## Definitions of the specification

What follows is not in the source: the vocabulary the properties are stated
with. -/

/-- The character of the buffer at an index, the sentinel past the end. -/
def charAt (cs : List Char) (i : Nat) : Char := cs.getD i NUL

/-- The shape shared by the loops of `readNumber` and `readIdentifier`: while
the next character satisfies `p`, append the current one and advance. -/
def scanLoop (p : Char → Bool) : Nat → Tokenizer → String → Tokenizer × String
  | 0, l, s => (l, s)
  | n + 1, l, s =>
    if p (peekChar l) then scanLoop p n (readChar l) (s ++ String.singleton l.ch) else (l, s)

/-- The cursor invariant kept by `readChar`. -/
def Aligned (l : Tokenizer) : Prop := l.readPosition = l.position + 1

/-- The maximal run of characters satisfying `p` that starts at `readPosition`. -/
def runFrom (p : Char → Bool) (l : Tokenizer) : List Char :=
  (l.characters.drop l.readPosition).takeWhile p

/-- The character an escape stands for, in the words of the spec: `n` is a
newline, `r` a carriage return, `t` a tab, a quote and a backslash are
themselves, and any other character is emitted verbatim. -/
def decodeEscape (c : Char) : Char :=
  if c = 'n' then '\n' else if c = 'r' then '\r' else if c = 't' then '\t' else c

/-- The characters the `switch` of `NextToken` names in a `case`. -/
def isDispatched (c : Char) : Bool :=
  c == '=' || c == ',' || c == '+' || c == '-' || c == '/' || c == '%' || c == '*' ||
    c == '(' || c == ')' || c == '<' || c == '>' || c == '"' || c == '\n' || c == NUL

/-- A keyword table without keywords: every word is a plain identifier. -/
def identLookup : String → TokenType := fun _ => TokenType.IDENT

/-- The invariant of the states `New` and `NextToken` produce: the cursor is
aligned and `ch` is the character under it, the sentinel past the end. -/
def WellFormed (l : Tokenizer) : Prop :=
  l.readPosition = l.position + 1 ∧ l.ch = charAt l.characters l.position

/-- The tokens of the program `10 X=1` / `20 Y=2` under `identLookup`. -/
def twoLineTokens : List Token :=
  [⟨TokenType.NEWLINE, "N"⟩, ⟨TokenType.LINENO, "10"⟩, ⟨TokenType.IDENT, "X"⟩,
   ⟨TokenType.ASSIGN, "="⟩, ⟨TokenType.INT, "1"⟩, ⟨TokenType.NEWLINE, "N"⟩,
   ⟨TokenType.LINENO, "20"⟩, ⟨TokenType.IDENT, "Y"⟩, ⟨TokenType.ASSIGN, "="⟩,
   ⟨TokenType.INT, "2"⟩, ⟨TokenType.EOF, ""⟩]

/-- A unit of the body of a string literal as it is written in the source
text: a character that is neither a quote nor a backslash, or a backslash
followed by any character. -/
inductive Piece
  | plain (c : Char)
  | escape (c : Char)
  deriving DecidableEq, Repr

/-- The characters a piece is written with. -/
def Piece.source : Piece → List Char
  | Piece.plain c => [c]
  | Piece.escape c => ['\\', c]

/-- The reference decoding of a piece: a plain character is copied, an escape
stands for the character `decodeEscape` gives. -/
def Piece.value : Piece → Char
  | Piece.plain c => c
  | Piece.escape c => decodeEscape c

/-- A plain character is neither the quote, which closes the literal, nor the
backslash, which starts an escape. -/
def Piece.ok : Piece → Bool
  | Piece.plain c => c != '"' && c != '\\'
  | Piece.escape _ => true

/-- The source text of a body. -/
def bodySource (pieces : List Piece) : List Char := pieces.flatMap Piece.source

/-- The reference decoding of a body. -/
def bodyValue (pieces : List Piece) : List Char := pieces.map Piece.value

/-- The characters the identifier sub-scan stops on, as the spec lists them:
digit, white space, brace, operator, comparison character, compound
punctuation, bracket, parenthesis, the sentinel and the newline. -/
def isClaimed (c : Char) : Bool :=
  isDigit c || c == ' ' || c == '\t' || c == '\r' || c == '\x7b' || c == '\x7d' ||
    c == '+' || c == '-' || c == '/' || c == '*' ||
    c == '=' || c == '!' || c == '>' || c == '<' ||
    c == ',' || c == ':' || c == '"' || c == ';' ||
    c == '[' || c == ']' || c == '(' || c == ')' || c == NUL || c == '\n'

/-- The state `NextToken` leaves with the cursor at index `i` of the buffer
`cs` and `prev` as previous token. -/
def stateAt (cs : List Char) (i : Nat) (prev : Token) : Tokenizer :=
  { position := i, readPosition := i + 1, ch := charAt cs i, characters := cs, prevToken := prev }

/-- A state on a blank before the text `:x%1`, after a NEWLINE. -/
def colonState : Tokenizer :=
  stateAt ['\n', ' ', ':', 'x', '%', '1'] 1 ⟨TokenType.NEWLINE, "N"⟩

/-- A state on a blank before the digits `20`, after a NEWLINE. -/
def digitState : Tokenizer :=
  stateAt ['\n', '\n', ' ', '2', '0'] 2 ⟨TokenType.NEWLINE, "N"⟩

/-- The state after the first call on the input made of the literal
`"a\tb\n\"c\""`, written with its backslashes. -/
def literalState : Tokenizer :=
  stateAt ('\n' :: "\"a\\tb\\n\\\"c\\\"\"".data) 1 ⟨TokenType.NEWLINE, "N"⟩

/-- The state after the first call on the input made of the literal `"a\qb"`,
written with its backslash. -/
def escapeState : Tokenizer :=
  stateAt ('\n' :: "\"a\\qb\"".data) 1 ⟨TokenType.NEWLINE, "N"⟩

/-- Two states the tokenizer cannot tell apart: the same current character,
the same previous token and the same characters left to read. -/
def SameView (l l2 : Tokenizer) : Prop :=
  l.ch = l2.ch ∧ l.prevToken = l2.prevToken ∧
    l.characters.drop l.readPosition = l2.characters.drop l2.readPosition

/-! ## Inputs as bytes

A Go string is a sequence of bytes that need not be valid UTF-8, which a
`String` cannot hold. The definitions below give the conversions of the Go
language between bytes and runes, with a byte as a `Nat` below 256, and `New`
on an input given by its bytes. -/

/-- The rune `utf8.RuneError`, U+FFFD, that stands for an invalid byte. -/
def RuneError : Char := Char.ofNat 0xFFFD

/-- The lowest second byte the first byte `s0` of a sequence accepts. -/
def acceptLo (s0 : Nat) : Nat :=
  if s0 = 0xE0 then 0xA0 else if s0 = 0xF0 then 0x90 else 0x80

/-- The highest second byte the first byte `s0` of a sequence accepts. -/
def acceptHi (s0 : Nat) : Nat :=
  if s0 = 0xED then 0x9F else if s0 = 0xF4 then 0x8F else 0xBF

/-- The first rune of a string of bytes and the number of bytes it takes, as
`for range` and `[]rune(s)` decode it: an ASCII byte is itself; the first bytes
C2..DF, E0..EF and F0..F4 start a sequence of 2, 3 and 4 bytes whose second
byte lies in the range the first one accepts and whose other bytes lie in
80..BF; anything else is `RuneError` and takes one byte. -/
def decodeRune : List Nat → Char × Nat
  | [] => (RuneError, 0)
  | s0 :: rest =>
    if s0 < 0x80 then (Char.ofNat s0, 1)
    else if s0 < 0xC2 ∨ 0xF4 < s0 then (RuneError, 1)
    else
      match rest with
      | [] => (RuneError, 1)
      | s1 :: rest1 =>
        if s1 < acceptLo s0 ∨ acceptHi s0 < s1 then (RuneError, 1)
        else if s0 < 0xE0 then (Char.ofNat (s0 % 32 * 64 + s1 % 64), 2)
        else
          match rest1 with
          | [] => (RuneError, 1)
          | s2 :: rest2 =>
            if s2 < 0x80 ∨ 0xBF < s2 then (RuneError, 1)
            else if s0 < 0xF0 then
              (Char.ofNat (s0 % 16 * 4096 + s1 % 64 * 64 + s2 % 64), 3)
            else
              match rest2 with
              | [] => (RuneError, 1)
              | s3 :: _ =>
                if s3 < 0x80 ∨ 0xBF < s3 then (RuneError, 1)
                else
                  (Char.ofNat (s0 % 8 * 262144 + s1 % 64 * 4096 + s2 % 64 * 64 + s3 % 64), 4)

/-- The loop of `[]rune(s)`, on a fuel: every round takes at least one byte. -/
def runesLoop : Nat → List Nat → List Char
  | 0, _ => []
  | _ + 1, [] => []
  | n + 1, b :: s =>
    (decodeRune (b :: s)).1 :: runesLoop n ((b :: s).drop (decodeRune (b :: s)).2)

/-- The conversion `[]rune(s)` of a string given by its bytes. -/
def runesOf (s : List Nat) : List Char := runesLoop s.length s

/-- The conversion `string(ch)` of a rune, as bytes: its UTF-8 encoding. -/
def encodeRune (c : Char) : List Nat :=
  if c.toNat < 0x80 then [c.toNat]
  else if c.toNat < 0x800 then [0xC0 + c.toNat / 64, 0x80 + c.toNat % 64]
  else if c.toNat < 0x10000 then
    [0xE0 + c.toNat / 4096, 0x80 + c.toNat / 64 % 64, 0x80 + c.toNat % 64]
  else
    [0xF0 + c.toNat / 262144, 0x80 + c.toNat / 4096 % 64, 0x80 + c.toNat / 64 % 64,
     0x80 + c.toNat % 64]

/-- The bytes of a sequence of runes. -/
def encodeRunes (cs : List Char) : List Nat := cs.flatMap encodeRune

/-- The bytes of a string of the model. -/
def bytesOf (s : String) : List Nat := encodeRunes s.data

/-- A string of bytes is valid UTF-8 when decoding it loses nothing: encoding
its runes gives the bytes back (`validUTF8_iff`: the valid strings of bytes are
the encodings of the values of `String`). -/
def validUTF8 (s : List Nat) : Bool := encodeRunes (runesOf s) == s

/-- A string of bytes without its space, tab and carriage-return bytes. -/
def removeBlanks (s : List Nat) : List Nat :=
  s.filter (fun b => b != 0x20 && b != 0x09 && b != 0x0D)

/-- The function `New` on an input given by its bytes: the buffer is `[]rune("\n" + input)`,
in which every byte that is not part of a valid sequence is `RuneError`. -/
def NewBytes (input : List Nat) : Tokenizer :=
  readChar { position := 0, readPosition := 0, ch := NUL,
             characters := runesOf (0x0A :: input),
             prevToken := ⟨TokenType.UNSET, ""⟩ }

/-! ## The cursor and the buffer -/

theorem peekChar_eq (l : Tokenizer) : peekChar l = charAt l.characters l.readPosition := by
  unfold peekChar charAt
  split
  · rename_i h
    simp [List.getD_eq_getElem?_getD, List.getElem?_eq_none h]
  · rename_i h
    have h2 : l.readPosition < l.characters.length := Nat.lt_of_not_ge h
    simp [List.getD_eq_getElem?_getD, List.getElem?_eq_getElem h2]

theorem readChar_eq (l : Tokenizer) :
    readChar l = { l with ch := charAt l.characters l.readPosition, position := l.readPosition,
                          readPosition := l.readPosition + 1 } := by
  have := peekChar_eq l
  unfold peekChar at this
  simp only [readChar, this]

@[simp] theorem readChar_ch (l : Tokenizer) :
    (readChar l).ch = charAt l.characters l.readPosition := by rw [readChar_eq]
@[simp] theorem readChar_position (l : Tokenizer) :
    (readChar l).position = l.readPosition := by rw [readChar_eq]
@[simp] theorem readChar_readPosition (l : Tokenizer) :
    (readChar l).readPosition = l.readPosition + 1 := by rw [readChar_eq]
@[simp] theorem readChar_characters (l : Tokenizer) :
    (readChar l).characters = l.characters := by rw [readChar_eq]
@[simp] theorem readChar_prevToken (l : Tokenizer) :
    (readChar l).prevToken = l.prevToken := by rw [readChar_eq]

theorem charAt_of_ge {cs : List Char} {i : Nat} (h : cs.length ≤ i) : charAt cs i = NUL := by
  simp [charAt, List.getD_eq_getElem?_getD, List.getElem?_eq_none h]

theorem drop_eq_charAt_cons {cs : List Char} {i : Nat} (h : i < cs.length) :
    cs.drop i = charAt cs i :: cs.drop (i + 1) := by
  rw [List.drop_eq_getElem_cons h]
  simp [charAt, List.getD_eq_getElem?_getD, List.getElem?_eq_getElem h]

theorem charAt_eq_headD (cs : List Char) (i : Nat) : charAt cs i = (cs.drop i).headD NUL := by
  by_cases h : i < cs.length
  · rw [drop_eq_charAt_cons h]; rfl
  · have h2 : cs.length ≤ i := Nat.le_of_not_lt h
    rw [charAt_of_ge h2, List.drop_eq_nil_of_le h2]; rfl
/-! ## The scanning loops -/

theorem readNumberLoop_eq (n : Nat) (l : Tokenizer) (s : String) :
    readNumberLoop n l s = scanLoop isDigit n l s := by
  induction n generalizing l s with
  | zero => rfl
  | succ n ih => simp only [readNumberLoop, scanLoop, ih]

theorem readIdentifierLoop_eq (n : Nat) (l : Tokenizer) (s : String) :
    readIdentifierLoop n l s = scanLoop isIdentifier n l s := by
  induction n generalizing l s with
  | zero => rfl
  | succ n ih => simp only [readIdentifierLoop, scanLoop, ih]

/-- The characters a scanning loop runs over: the maximal run satisfying `p`
that starts at `readPosition`. -/
theorem scanLoop_spec (p : Char → Bool) (hp : p NUL = false) (n : Nat) (l : Tokenizer) (s : String)
    (hn : l.characters.length - l.readPosition ≤ n) :
    (scanLoop p n l s).1.characters = l.characters ∧
    (scanLoop p n l s).1.prevToken = l.prevToken ∧
    (scanLoop p n l s).1.readPosition =
      l.readPosition + ((l.characters.drop l.readPosition).takeWhile p).length ∧
    ((scanLoop p n l s).2 ++ String.singleton (scanLoop p n l s).1.ch).data =
      s.data ++ l.ch :: (l.characters.drop l.readPosition).takeWhile p := by
  induction n generalizing l s with
  | zero =>
    have h : l.characters.length ≤ l.readPosition := by omega
    simp [scanLoop, List.drop_eq_nil_of_le h, String.singleton]
  | succ n ih =>
    by_cases hlt : l.readPosition < l.characters.length
    · rw [drop_eq_charAt_cons hlt]
      by_cases hc : p (charAt l.characters l.readPosition) = true
      · have ih2 := ih (readChar l) (s ++ String.singleton l.ch) (by simp; omega)
        simp only [scanLoop, peekChar_eq, hc, if_true, List.takeWhile_cons_of_pos hc]
        obtain ⟨h1, h2, h3, h4⟩ := ih2
        refine ⟨by simpa using h1, by simpa using h2, ?_, ?_⟩
        · rw [h3]; simp; omega
        · rw [h4]; simp [String.singleton]
      · simp [scanLoop, peekChar_eq, hc, String.singleton]
    · have h : l.characters.length ≤ l.readPosition := by omega
      simp [scanLoop, peekChar_eq, charAt_of_ge h, hp, List.drop_eq_nil_of_le h, String.singleton]

theorem scanLoop_aligned (p : Char → Bool) (n : Nat) (l : Tokenizer) (s : String)
    (h : Aligned l) : Aligned (scanLoop p n l s).1 := by
  induction n generalizing l s with
  | zero => exact h
  | succ n ih =>
    simp only [scanLoop]
    split
    · exact ih _ _ (by simp [Aligned])
    · exact h

/-! ## Skipping white space -/

theorem skipWhitespaceLoop_characters (n : Nat) (l : Tokenizer) :
    (skipWhitespaceLoop n l).characters = l.characters ∧
    (skipWhitespaceLoop n l).prevToken = l.prevToken ∧
    l.readPosition ≤ (skipWhitespaceLoop n l).readPosition ∧
    (Aligned l → Aligned (skipWhitespaceLoop n l)) := by
  induction n generalizing l with
  | zero => simp [skipWhitespaceLoop]
  | succ n ih =>
    simp only [skipWhitespaceLoop]
    split
    · obtain ⟨h1, h2, h3, h5⟩ := ih (readChar l)
      simp at h1 h2 h3
      refine ⟨h1, h2, by omega, ?_⟩
      intro _; exact h5 (by simp [Aligned])
    · simp

theorem isWhitespace_NUL : isWhitespace NUL = false := by decide

/-- The fuel of `skipWhitespace` is enough: the loop ends on a character that
is not white space. -/
theorem skipWhitespaceLoop_ch (n : Nat) (l : Tokenizer)
    (hn : l.characters.length - l.readPosition < n) :
    isWhitespace (skipWhitespaceLoop n l).ch = false := by
  induction n generalizing l with
  | zero => omega
  | succ n ih =>
    simp only [skipWhitespaceLoop]
    split
    · by_cases hlt : l.readPosition < l.characters.length
      · exact ih _ (by simp; omega)
      · have h : l.characters.length ≤ l.readPosition := by omega
        cases n with
        | zero => simp [skipWhitespaceLoop, charAt_of_ge h, isWhitespace_NUL]
        | succ m => simp [skipWhitespaceLoop, charAt_of_ge h, isWhitespace_NUL]
    · simpa using ‹¬ isWhitespace l.ch = true›

theorem skipWhitespace_frame (l : Tokenizer) :
    (skipWhitespace l).characters = l.characters ∧
    (skipWhitespace l).prevToken = l.prevToken ∧
    l.readPosition ≤ (skipWhitespace l).readPosition ∧
    (Aligned l → Aligned (skipWhitespace l)) :=
  skipWhitespaceLoop_characters _ l

theorem skipWhitespace_ch (l : Tokenizer) : isWhitespace (skipWhitespace l).ch = false :=
  skipWhitespaceLoop_ch _ l (by omega)

theorem skipWhitespace_of_not (l : Tokenizer) (h : isWhitespace l.ch = false) :
    skipWhitespace l = l := by
  simp [skipWhitespace, skipWhitespaceLoop, h]

/-! ## The number and identifier sub-scans -/

theorem isDigit_NUL : isDigit NUL = false := by decide

theorem isIdentifier_NUL : isIdentifier NUL = false := by decide

theorem scan_text (p : Char → Bool) (hp : p NUL = false) (l : Tokenizer) :
    (scanLoop p (l.characters.length - l.readPosition) l "").2 ++
        String.singleton (scanLoop p (l.characters.length - l.readPosition) l "").1.ch =
      String.mk (l.ch :: runFrom p l) := by
  apply String.ext
  rw [(scanLoop_spec p hp _ l "" (Nat.le_refl _)).2.2.2]
  simp [runFrom]

theorem readNumber_spec (l : Tokenizer) :
    (readNumber l).1 = String.mk (l.ch :: runFrom isDigit l) ∧
    (readNumber l).2.characters = l.characters ∧
    (readNumber l).2.prevToken = l.prevToken ∧
    (readNumber l).2.readPosition = l.readPosition + (runFrom isDigit l).length ∧
    (Aligned l → Aligned (readNumber l).2) := by
  have h := scanLoop_spec isDigit isDigit_NUL _ l "" (Nat.le_refl _)
  simp only [readNumber, readNumberLoop_eq]
  exact ⟨scan_text isDigit isDigit_NUL l, h.1, h.2.1, h.2.2.1, scanLoop_aligned _ _ _ _⟩

theorem readIdentifier_spec (l : Tokenizer) :
    (readIdentifier l).1 = String.mk (l.ch :: runFrom isIdentifier l) ∧
    (readIdentifier l).2.characters = l.characters ∧
    (readIdentifier l).2.prevToken = l.prevToken ∧
    (readIdentifier l).2.readPosition = l.readPosition + (runFrom isIdentifier l).length ∧
    (Aligned l → Aligned (readIdentifier l).2) := by
  have h := scanLoop_spec isIdentifier isIdentifier_NUL _ l "" (Nat.le_refl _)
  simp only [readIdentifier, readIdentifierLoop_eq]
  exact ⟨scan_text isIdentifier isIdentifier_NUL l, h.1, h.2.1, h.2.2.1, scanLoop_aligned _ _ _ _⟩

/-! ## The string sub-scan -/

theorem unescape_eq (l : Tokenizer) : unescape l = { l with ch := decodeEscape l.ch } := by
  obtain ⟨pos, rp, ch, cs, prev⟩ := l
  simp only [unescape, decodeEscape]
  by_cases h1 : ch = 'n'
  · subst h1; simp
  · by_cases h2 : ch = 'r'
    · subst h2; simp
    · by_cases h3 : ch = 't'
      · subst h3; simp
      · simp [h1, h2, h3]
        split <;> split <;> simp_all

/-- The state after the escape test of one round of the loop of `readString`. -/
theorem escapeStep_frame (l : Tokenizer) :
    (if l.ch = '\\' then unescape (readChar l) else l).characters = l.characters ∧
    (if l.ch = '\\' then unescape (readChar l) else l).prevToken = l.prevToken ∧
    l.readPosition ≤ (if l.ch = '\\' then unescape (readChar l) else l).readPosition := by
  split <;> simp [unescape_eq]

theorem readStringLoop_frame (n : Nat) (l : Tokenizer) (out : String) (s : String)
    (l2 : Tokenizer) (h : readStringLoop n l out = some (s, l2)) :
    l2.characters = l.characters ∧ l2.prevToken = l.prevToken ∧
    l.readPosition < l2.readPosition ∧ Aligned l2 ∧ l2.ch = '"' ∧
    l2.readPosition ≤ l2.characters.length := by
  induction n generalizing l out with
  | zero => simp [readStringLoop] at h
  | succ n ih =>
    simp only [readStringLoop] at h
    split at h
    · rename_i hq
      simp only [Option.some.injEq, Prod.mk.injEq] at h
      obtain ⟨-, rfl⟩ := h
      refine ⟨by simp, by simp, by simp, by simp [Aligned], hq, ?_⟩
      by_contra hcon
      simp at hcon hq
      rw [charAt_of_ge (by omega)] at hq
      revert hq; decide
    · obtain ⟨h1, h2, h3, h4, h5, h6⟩ := ih _ _ h
      obtain ⟨e1, e2, e3⟩ := escapeStep_frame (readChar l)
      simp only [readChar_characters, readChar_prevToken, readChar_readPosition] at e1 e2 e3
      exact ⟨h1.trans e1, h2.trans e2, by omega, h4, h5, h6⟩

/-- More fuel does not change a result of the loop of `readString`. -/
theorem readStringLoop_mono (n m : Nat) (l : Tokenizer) (out : String) (r : String × Tokenizer)
    (h : readStringLoop n l out = some r) (hm : n ≤ m) : readStringLoop m l out = some r := by
  induction n generalizing m l out with
  | zero => simp [readStringLoop] at h
  | succ n ih =>
    obtain ⟨m, rfl⟩ : ∃ k, m = k + 1 := ⟨m - 1, by omega⟩
    simp only [readStringLoop] at h ⊢
    by_cases hq : (readChar l).ch = '"'
    · rw [if_pos hq] at h ⊢; exact h
    · rw [if_neg hq] at h ⊢
      exact ih _ _ _ h (by omega)

/-- The fuel of `readString` is enough: when the loop exits on some fuel, it
exits on the fuel `readString` gives it, with the same result. So `readString`
is `none` only when the loop never exits. -/
theorem readStringLoop_adequate (n : Nat) (l : Tokenizer) (out : String) (r : String × Tokenizer)
    (h : readStringLoop n l out = some r) :
    readStringLoop (l.characters.length - l.readPosition) l out = some r := by
  induction n generalizing l out with
  | zero => simp [readStringLoop] at h
  | succ n ih =>
    have hfr := readStringLoop_frame _ _ _ _ _ h
    obtain ⟨k, hk⟩ : ∃ k, l.characters.length - l.readPosition = k + 1 :=
      ⟨l.characters.length - l.readPosition - 1, by have := hfr.2.2.1; have := hfr.2.2.2.2.2; rw [hfr.1] at this; omega⟩
    rw [hk]
    simp only [readStringLoop] at h ⊢
    by_cases hq : (readChar l).ch = '"'
    · rw [if_pos hq] at h ⊢; exact h
    · rw [if_neg hq] at h ⊢
      have h2 := ih _ _ h
      refine readStringLoop_mono _ _ _ _ _ h2 ?_
      obtain ⟨e1, e2, e3⟩ := escapeStep_frame (readChar l)
      simp only [readChar_characters, readChar_readPosition] at e1 e3
      rw [e1]; omega

theorem readString_none_iff (l : Tokenizer) :
    readString l = none ↔ ∀ n, readStringLoop n l "" = none := by
  constructor
  · intro h n
    cases hn : readStringLoop n l "" with
    | none => rfl
    | some r => rw [readString, readStringLoop_adequate n l "" r hn] at h; cases h
  · intro h; exact h _
/-! ## The switch and `NextToken` -/

theorem NUL_eq : NUL = '\x00' := by decide

/-- The `default` branch of the switch. -/
theorem dispatch_default (lookup : String → TokenType) (l : Tokenizer)
    (h : isDispatched l.ch = false) :
    dispatch lookup l =
      if isDigit l.ch then some (⟨TokenType.INT, (readNumber l).1⟩, (readNumber l).2)
      else some (⟨lookup (readIdentifier l).1, (readIdentifier l).1⟩, (readIdentifier l).2) := by
  simp only [isDispatched, Bool.or_eq_false_iff, beq_eq_false_iff_ne, ne_eq] at h
  obtain ⟨⟨⟨⟨⟨⟨⟨⟨⟨⟨⟨⟨⟨h1, h2⟩, h3⟩, h4⟩, h5⟩, h6⟩, h7⟩, h8⟩, h9⟩, h10⟩, h11⟩, h12⟩, h13⟩, h14⟩ := h
  simp only [dispatch, if_neg h1, if_neg h2, if_neg h3, if_neg h4, if_neg h5, if_neg h6,
    if_neg h7, if_neg h8, if_neg h9, if_neg h10, if_neg h11, if_neg h12, if_neg h13, if_neg h14]

/-- The kinds the switch assigns without consulting the keyword table or the
sub-scans of numbers and strings. -/
theorem dispatch_cases (lookup : String → TokenType) (l : Tokenizer) :
    (∃ k t l2, dispatch lookup l = some (⟨k, t⟩, l2) ∧ (l2 = l ∨ l2 = readChar l) ∧
        k ≠ TokenType.LINENO ∧ k ≠ TokenType.EOF ∧ k ≠ TokenType.INT) ∨
    (l.ch = '"' ∧ dispatch lookup l =
        match readString l with
        | none => none
        | some (s, l) => some (⟨TokenType.STRING, s⟩, l)) ∨
    (l.ch = NUL ∧ dispatch lookup l = some (⟨TokenType.EOF, ""⟩, l)) ∨
    (isDispatched l.ch = false ∧ isDigit l.ch = true ∧
      dispatch lookup l = some (⟨TokenType.INT, (readNumber l).1⟩, (readNumber l).2)) ∨
    (isDispatched l.ch = false ∧ isDigit l.ch = false ∧
      dispatch lookup l =
        some (⟨lookup (readIdentifier l).1, (readIdentifier l).1⟩, (readIdentifier l).2)) := by
  by_cases hd : isDispatched l.ch = false
  · rw [dispatch_default lookup l hd]
    by_cases hg : isDigit l.ch = true
    · right; right; right; left; exact ⟨hd, hg, by simp [hg]⟩
    · right; right; right; right; exact ⟨hd, by simpa using hg, by simp [hg]⟩
  · rw [Bool.not_eq_false] at hd
    simp only [isDispatched, Bool.or_eq_true, beq_iff_eq] at hd
    rcases hd with ((((((((((((h | h) | h) | h) | h) | h) | h) | h) | h) | h) | h) | h) | h) | h
    · left; exact ⟨TokenType.ASSIGN, String.singleton l.ch, l, by simp [dispatch, h, newToken], Or.inl rfl, by simp⟩
    · left; exact ⟨TokenType.COMMA, String.singleton l.ch, l, by simp [dispatch, h, newToken], Or.inl rfl, by simp⟩
    · left; exact ⟨TokenType.PLUS, String.singleton l.ch, l, by simp [dispatch, h, newToken], Or.inl rfl, by simp⟩
    · left; exact ⟨TokenType.MINUS, String.singleton l.ch, l, by simp [dispatch, h, newToken], Or.inl rfl, by simp⟩
    · left; exact ⟨TokenType.SLASH, String.singleton l.ch, l, by simp [dispatch, h, newToken], Or.inl rfl, by simp⟩
    · left; exact ⟨TokenType.MOD, String.singleton l.ch, l, by simp [dispatch, h, newToken], Or.inl rfl, by simp⟩
    · left; exact ⟨TokenType.ASTERISK, String.singleton l.ch, l, by simp [dispatch, h, newToken], Or.inl rfl, by simp⟩
    · left; exact ⟨TokenType.LBRACKET, String.singleton l.ch, l, by simp [dispatch, h, newToken], Or.inl rfl, by simp⟩
    · left; exact ⟨TokenType.RBRACKET, String.singleton l.ch, l, by simp [dispatch, h, newToken], Or.inl rfl, by simp⟩
    · left
      by_cases p1 : peekChar l = '>'
      · exact ⟨TokenType.NOT_EQUALS, String.singleton l.ch ++ String.singleton (readChar l).ch, readChar l,
          by simp [dispatch, h, p1], Or.inr rfl, by simp⟩
      · by_cases p2 : peekChar l = '='
        · exact ⟨TokenType.LT_EQUALS, String.singleton l.ch ++ String.singleton (readChar l).ch, readChar l,
          by simp [dispatch, h, p2], Or.inr rfl, by simp⟩
        · exact ⟨TokenType.LT, String.singleton l.ch, l, by simp [dispatch, h, p1, p2, newToken],
            Or.inl rfl, by simp⟩
    · left
      by_cases p2 : peekChar l = '='
      · exact ⟨TokenType.GT_EQUALS, String.singleton l.ch ++ String.singleton (readChar l).ch, readChar l,
          by simp [dispatch, h, p2], Or.inr rfl, by simp⟩
      · exact ⟨TokenType.GT, String.singleton l.ch, l, by simp [dispatch, h, p2, newToken],
          Or.inl rfl, by simp⟩
    · right; left; exact ⟨h, by simp [dispatch, h]⟩
    · left; exact ⟨TokenType.NEWLINE, String.singleton 'N', l, by simp [dispatch, h, newToken], Or.inl rfl, by simp⟩
    · right; right; left; exact ⟨h, by simp [dispatch, h, NUL_eq]⟩

theorem dispatch_frame (lookup : String → TokenType) (l : Tokenizer) (tok : Token)
    (l2 : Tokenizer) (h : dispatch lookup l = some (tok, l2)) :
    l2.characters = l.characters ∧ l2.prevToken = l.prevToken ∧
    l.readPosition ≤ l2.readPosition ∧ (Aligned l → Aligned l2) := by
  rcases dispatch_cases lookup l with ⟨k, t, l3, hd, hl, -⟩ | ⟨-, hd⟩ | ⟨-, hd⟩ | ⟨-, -, hd⟩ |
      ⟨-, -, hd⟩ <;> rw [hd] at h
  · simp only [Option.some.injEq, Prod.mk.injEq] at h
    obtain ⟨-, rfl⟩ := h
    rcases hl with rfl | rfl
    · exact ⟨rfl, rfl, Nat.le_refl _, id⟩
    · exact ⟨by simp, by simp, by simp, fun _ => by simp [Aligned]⟩
  · split at h
    · cases h
    · rename_i s l3 hs
      simp only [Option.some.injEq, Prod.mk.injEq] at h
      obtain ⟨-, rfl⟩ := h
      have := readStringLoop_frame _ _ _ _ _ hs
      exact ⟨this.1, this.2.1, Nat.le_of_lt this.2.2.1, fun _ => this.2.2.2.1⟩
  · simp only [Option.some.injEq, Prod.mk.injEq] at h
    obtain ⟨-, rfl⟩ := h
    exact ⟨rfl, rfl, Nat.le_refl _, id⟩
  · simp only [Option.some.injEq, Prod.mk.injEq] at h
    obtain ⟨-, rfl⟩ := h
    exact ⟨(readNumber_spec l).2.1, (readNumber_spec l).2.2.1,
      by rw [(readNumber_spec l).2.2.2.1]; omega, (readNumber_spec l).2.2.2.2⟩
  · simp only [Option.some.injEq, Prod.mk.injEq] at h
    obtain ⟨-, rfl⟩ := h
    exact ⟨(readIdentifier_spec l).2.1, (readIdentifier_spec l).2.2.1,
      by rw [(readIdentifier_spec l).2.2.2.1]; omega, (readIdentifier_spec l).2.2.2.2⟩

theorem dispatch_kind (lookup : String → TokenType) (l : Tokenizer) (tok : Token)
    (l2 : Tokenizer) (h : dispatch lookup l = some (tok, l2)) :
    (tok.Kind = TokenType.LINENO → ∃ s, lookup s = TokenType.LINENO) ∧
    (tok.Kind = TokenType.EOF →
      (l.ch = NUL ∧ tok.Literal = "" ∧ l2 = l) ∨ ∃ s, lookup s = TokenType.EOF) := by
  rcases dispatch_cases lookup l with ⟨k, t, l3, hd, hl, k1, k2, k3⟩ | ⟨-, hd⟩ | ⟨hc, hd⟩ |
      ⟨-, -, hd⟩ | ⟨-, -, hd⟩ <;> rw [hd] at h
  · simp only [Option.some.injEq, Prod.mk.injEq] at h
    obtain ⟨rfl, rfl⟩ := h
    exact ⟨fun hk => absurd hk k1, fun hk => absurd hk k2⟩
  · split at h
    · cases h
    · simp only [Option.some.injEq, Prod.mk.injEq] at h
      obtain ⟨rfl, rfl⟩ := h
      constructor <;> intro hk <;> simp at hk
  · simp only [Option.some.injEq, Prod.mk.injEq] at h
    obtain ⟨rfl, rfl⟩ := h
    exact ⟨fun hk => by simp at hk, fun _ => Or.inl ⟨hc, rfl, rfl⟩⟩
  · simp only [Option.some.injEq, Prod.mk.injEq] at h
    obtain ⟨rfl, rfl⟩ := h
    constructor <;> intro hk <;> simp at hk
  · simp only [Option.some.injEq, Prod.mk.injEq] at h
    obtain ⟨rfl, rfl⟩ := h
    exact ⟨fun hk => ⟨_, hk⟩, fun hk => Or.inr ⟨_, hk⟩⟩

/-- The state `NextToken` leaves: the cursor is aligned on a character of the
buffer (or the sentinel past its end), the buffer is untouched and `prevToken`
is the token returned. -/
theorem NextToken_frame (lookup : String → TokenType) (l : Tokenizer) (tok : Token)
    (l2 : Tokenizer) (h : NextToken lookup l = some (tok, l2)) :
    l2.characters = l.characters ∧ l2.prevToken = tok ∧ Aligned l2 ∧
    l2.ch = charAt l2.characters l2.position ∧ l.readPosition ≤ l2.position := by
  unfold NextToken at h
  split at h
  · cases h
  · rename_i t l1 hd
    simp only [Option.some.injEq, Prod.mk.injEq] at h
    obtain ⟨rfl, rfl⟩ := h
    obtain ⟨d1, d2, d3, -⟩ := dispatch_frame _ _ _ _ hd
    obtain ⟨s1, s2, s3, -⟩ := skipWhitespace_frame l
    refine ⟨by simp [d1, s1], by simp, by simp [Aligned], by simp, ?_⟩
    simp; omega

/-- The line-number rule on one call: after a NEWLINE no INT is returned, and
a LINENO is returned only after a NEWLINE or when the keyword table yields it. -/
theorem NextToken_rule (lookup : String → TokenType) (l : Tokenizer) (tok : Token)
    (l2 : Tokenizer) (h : NextToken lookup l = some (tok, l2)) :
    (l.prevToken.Kind = TokenType.NEWLINE → tok.Kind ≠ TokenType.INT) ∧
    (tok.Kind = TokenType.LINENO →
      l.prevToken.Kind = TokenType.NEWLINE ∨ ∃ s, lookup s = TokenType.LINENO) := by
  unfold NextToken at h
  split at h
  · cases h
  · rename_i t l1 hd
    simp only [Option.some.injEq, Prod.mk.injEq] at h
    obtain ⟨rfl, rfl⟩ := h
    obtain ⟨-, d2, -, -⟩ := dispatch_frame _ _ _ _ hd
    obtain ⟨-, s2, -, -⟩ := skipWhitespace_frame l
    have hp : (readChar l1).prevToken = l.prevToken := by simp [d2, s2]
    rw [hp]
    unfold lineNumberRule
    by_cases hn : l.prevToken.Kind = TokenType.NEWLINE
    · by_cases hi : t.Kind = TokenType.INT
      · simp [hn, hi]
      · simp [hn, hi]
    · simp only [hn, false_and, if_false, false_or, false_implies, true_and]
      exact (dispatch_kind _ _ _ _ hd).1

/-- `NextToken` from the result of the switch. -/
theorem NextToken_of_dispatch (lookup : String → TokenType) (l : Tokenizer) (tok : Token)
    (l2 : Tokenizer) (h : dispatch lookup (skipWhitespace l) = some (tok, l2)) :
    NextToken lookup l = some (lineNumberRule l.prevToken tok,
      { readChar l2 with prevToken := lineNumberRule l.prevToken tok }) := by
  obtain ⟨-, d2, -, -⟩ := dispatch_frame _ _ _ _ h
  obtain ⟨-, s2, -, -⟩ := skipWhitespace_frame l
  simp only [NextToken, h, readChar_prevToken, d2, s2]

theorem NextToken_none_iff (lookup : String → TokenType) (l : Tokenizer) :
    NextToken lookup l = none ↔ dispatch lookup (skipWhitespace l) = none := by
  unfold NextToken
  split <;> simp_all
/-! ## Digits and line numbers -/

theorem isDispatched_of_isDigit {c : Char} (h : isDigit c = true) : isDispatched c = false := by
  cases hd : isDispatched c with
  | false => rfl
  | true =>
    simp only [isDispatched, Bool.or_eq_true, beq_iff_eq] at hd
    rcases hd with ((((((((((((h1 | h1) | h1) | h1) | h1) | h1) | h1) | h1) | h1) | h1) | h1) |
      h1) | h1) | h1 <;> (subst h1; revert h; decide)

theorem isWhitespace_of_isDigit {c : Char} (h : isDigit c = true) : isWhitespace c = false := by
  cases hd : isWhitespace c with
  | false => rfl
  | true =>
    simp only [isWhitespace, Bool.or_eq_true, beq_iff_eq] at hd
    rcases hd with (h1 | h1) | h1 <;> (subst h1; revert h; decide)

theorem dispatch_digit (lookup : String → TokenType) (l : Tokenizer) (h : isDigit l.ch = true) :
    dispatch lookup l =
      some (⟨TokenType.INT, String.mk (l.ch :: runFrom isDigit l)⟩, (readNumber l).2) := by
  rw [dispatch_default lookup l (isDispatched_of_isDigit h), if_pos h, (readNumber_spec l).1]

theorem lineNumberRule_INT (prev : Token) (s : String) :
    lineNumberRule prev ⟨TokenType.INT, s⟩ =
      ⟨if prev.Kind = TokenType.NEWLINE then TokenType.LINENO else TokenType.INT, s⟩ := by
  unfold lineNumberRule
  by_cases h : prev.Kind = TokenType.NEWLINE <;> simp [h]

theorem lineNumberRule_of_ne (prev tok : Token) (h : tok.Kind ≠ TokenType.INT) :
    lineNumberRule prev tok = tok := by
  simp [lineNumberRule, h]

theorem NextToken_digit (lookup : String → TokenType) (l : Tokenizer)
    (hd : isDigit (skipWhitespace l).ch = true) :
    NextToken lookup l =
      some (⟨if l.prevToken.Kind = TokenType.NEWLINE then TokenType.LINENO else TokenType.INT,
              String.mk ((skipWhitespace l).ch :: runFrom isDigit (skipWhitespace l))⟩,
            { readChar (readNumber (skipWhitespace l)).2 with
              prevToken :=
                ⟨if l.prevToken.Kind = TokenType.NEWLINE then TokenType.LINENO
                  else TokenType.INT,
                 String.mk ((skipWhitespace l).ch :: runFrom isDigit (skipWhitespace l))⟩ }) := by
  rw [NextToken_of_dispatch lookup l _ _ (dispatch_digit lookup _ hd), lineNumberRule_INT]

theorem NextToken_newline (lookup : String → TokenType) (l : Tokenizer) (h : l.ch = '\n') :
    NextToken lookup l =
      some (⟨TokenType.NEWLINE, "N"⟩, { readChar l with prevToken := ⟨TokenType.NEWLINE, "N"⟩ }) := by
  have hw : isWhitespace l.ch = false := by rw [h]; decide
  have hd : dispatch lookup (skipWhitespace l) = some (⟨TokenType.NEWLINE, "N"⟩, l) := by
    rw [skipWhitespace_of_not l hw]
    simp [dispatch, h, newToken]; rfl
  rw [NextToken_of_dispatch lookup l _ _ hd, lineNumberRule_of_ne _ _ (by simp)]

theorem New_eq (input : String) :
    New input = { position := 0, readPosition := 1, ch := '\n',
                  characters := '\n' :: input.data, prevToken := ⟨TokenType.UNSET, ""⟩ } := by
  simp [New, readChar_eq, charAt]

/-- The first call on `New input` returns the NEWLINE of the prefixed newline
and leaves the cursor on the first character of the input. -/
theorem NextToken_New (lookup : String → TokenType) (input : String) :
    NextToken lookup (New input) =
      some (⟨TokenType.NEWLINE, "N"⟩,
        { position := 1, readPosition := 2, ch := charAt ('\n' :: input.data) 1,
          characters := '\n' :: input.data, prevToken := ⟨TokenType.NEWLINE, "N"⟩ }) := by
  rw [NextToken_newline lookup _ (by rw [New_eq]), New_eq, readChar_eq]

/-- C2: in every state whose current character, once space, tab and carriage
return are skipped, is a decimal digit, `NextToken` returns LINENO when the
previous token was a NEWLINE and INT otherwise; the text is in both cases the
current digit followed by the digits that follow it in the buffer, and the token
returned is stored in `prevToken` with the kind it was returned with. -/
theorem lineNumber_rule_step (lookup : String → TokenType) (l : Tokenizer)
    (hd : isDigit (skipWhitespace l).ch = true) :
    ∃ tok l2, NextToken lookup l = some (tok, l2) ∧
      tok.Kind = (if l.prevToken.Kind = TokenType.NEWLINE then TokenType.LINENO
                  else TokenType.INT) ∧
      tok.Literal = String.mk ((skipWhitespace l).ch ::
        ((skipWhitespace l).characters.drop (skipWhitespace l).readPosition).takeWhile isDigit) ∧
      (∀ c ∈ tok.Literal.data, isDigit c = true) ∧
      l2.prevToken = tok := by
  refine ⟨_, _, NextToken_digit lookup l hd, rfl, rfl, ?_, rfl⟩
  intro c hc
  simp only [List.mem_cons] at hc
  rcases hc with rfl | hc
  · exact hd
  · exact (List.mem_takeWhile_imp hc)

theorem lineNumber_rule_step_witness :
    isDigit (skipWhitespace digitState).ch = true ∧
    ∃ tok l2, NextToken identLookup digitState = some (tok, l2) ∧
      tok.Kind = TokenType.LINENO ∧ tok.Literal = "20" ∧
      (∀ c ∈ tok.Literal.data, isDigit c = true) ∧ l2.prevToken = tok :=
  ⟨by decide, lineNumber_rule_step identLookup digitState (by decide)⟩

theorem nextTokens_two (lookup : String → TokenType) (l l1 l2 : Tokenizer) (t1 t2 : Token)
    (h1 : NextToken lookup l = some (t1, l1)) (h2 : NextToken lookup l1 = some (t2, l2)) :
    nextTokens lookup 2 l = some ([t1, t2], l2) := by
  simp [nextTokens, h1, h2]

/-- C1, as stated, fails: the first token `NextToken` returns on
`New "10 PRINT 5"` is the NEWLINE of the prefixed newline, not LINENO "10". -/
theorem first_token_counterexample :
    (NextToken identLookup (New "10 PRINT 5")).map Prod.fst = some ⟨TokenType.NEWLINE, "N"⟩ ∧
    (NextToken identLookup (New "10 PRINT 5")).map Prod.fst ≠ some ⟨TokenType.LINENO, "10"⟩ := by
  decide

/-- C1, amended: for every input whose first character is a decimal digit, the
first token returned on `New input` is the NEWLINE of the prefixed newline and
the second one is LINENO, not INT, whose text is the leading maximal digit run
of the input. -/
theorem first_line_number (lookup : String → TokenType) (input : String) (c : Char)
    (rest : List Char) (hin : input.data = c :: rest) (hc : isDigit c = true) :
    ∃ l, nextTokens lookup 2 (New input) =
      some ([⟨TokenType.NEWLINE, "N"⟩,
             ⟨TokenType.LINENO, String.mk (input.data.takeWhile isDigit)⟩], l) := by
  have hw : isWhitespace c = false := isWhitespace_of_isDigit hc
  have hch : charAt ('\n' :: input.data) 1 = c := by simp [hin, charAt]
  have h1 := NextToken_New lookup input
  rw [hch] at h1
  have hsk := skipWhitespace_of_not
    { position := 1, readPosition := 2, ch := c,
      characters := '\n' :: input.data, prevToken := ⟨TokenType.NEWLINE, "N"⟩ } hw
  have h2 := NextToken_digit lookup
    { position := 1, readPosition := 2, ch := c,
      characters := '\n' :: input.data, prevToken := ⟨TokenType.NEWLINE, "N"⟩ }
    (by rw [hsk]; exact hc)
  rw [hsk] at h2
  simp only [runFrom, hin, List.drop_succ_cons, List.drop_zero, if_true] at h2
  rw [← hin] at h2
  have ht : input.data.takeWhile isDigit = c :: rest.takeWhile isDigit := by
    rw [hin, List.takeWhile_cons_of_pos hc]
  rw [ht]
  exact ⟨_, nextTokens_two lookup _ _ _ _ _ h1 h2⟩

theorem first_line_number_witness :
    "10 PRINT 5".data = '1' :: "0 PRINT 5".data ∧ isDigit '1' = true ∧
    ∃ l, nextTokens identLookup 2 (New "10 PRINT 5") =
      some ([⟨TokenType.NEWLINE, "N"⟩, ⟨TokenType.LINENO, "10"⟩], l) :=
  ⟨rfl, by decide, first_line_number identLookup "10 PRINT 5" '1' "0 PRINT 5".data rfl (by decide)⟩
/-! ## Successive calls -/

theorem nextTokens_succ (lookup : String → TokenType) (n : Nat) (l l2 : Tokenizer)
    (toks : List Token) :
    nextTokens lookup (n + 1) l = some (toks, l2) ↔
      ∃ tok l1 rest, NextToken lookup l = some (tok, l1) ∧
        nextTokens lookup n l1 = some (rest, l2) ∧ toks = tok :: rest := by
  simp only [nextTokens]
  constructor
  · intro h
    split at h
    · cases h
    · rename_i tok l1 h1
      split at h
      · cases h
      · rename_i rest l3 h3
        simp only [Option.some.injEq, Prod.mk.injEq] at h
        obtain ⟨rfl, rfl⟩ := h
        exact ⟨tok, l1, rest, h1, h3, rfl⟩
  · rintro ⟨tok, l1, rest, h1, h2, rfl⟩
    simp [h1, h2]

theorem nextTokens_length (lookup : String → TokenType) (n : Nat) (l l2 : Tokenizer)
    (toks : List Token) (h : nextTokens lookup n l = some (toks, l2)) : toks.length = n := by
  induction n generalizing l toks with
  | zero => simp [nextTokens] at h; simp [h.1]
  | succ n ih =>
    obtain ⟨tok, l1, rest, -, h2, rfl⟩ := (nextTokens_succ _ _ _ _ _).1 h
    simp [ih _ _ h2]

/-- The calls split: `a + b` calls are `a` calls followed by `b` calls. -/
theorem nextTokens_add (lookup : String → TokenType) (a b : Nat) (l l2 : Tokenizer)
    (toks : List Token) :
    nextTokens lookup (a + b) l = some (toks, l2) ↔
      ∃ ta l1 tb, nextTokens lookup a l = some (ta, l1) ∧
        nextTokens lookup b l1 = some (tb, l2) ∧ toks = ta ++ tb := by
  induction a generalizing l toks with
  | zero =>
    simp only [Nat.zero_add, nextTokens, Option.some.injEq, Prod.mk.injEq]
    constructor
    · intro h; exact ⟨[], l, toks, ⟨rfl, rfl⟩, h, rfl⟩
    · rintro ⟨ta, l1, tb, ⟨rfl, rfl⟩, h, rfl⟩; exact h
  | succ a ih =>
    rw [Nat.add_right_comm, nextTokens_succ]
    constructor
    · rintro ⟨tok, l1, rest, h1, h2, rfl⟩
      obtain ⟨ta, l3, tb, h3, h4, rfl⟩ := (ih _ _).1 h2
      exact ⟨tok :: ta, l3, tb, (nextTokens_succ _ _ _ _ _).2 ⟨tok, l1, ta, h1, h3, rfl⟩, h4, rfl⟩
    · rintro ⟨ta, l3, tb, h3, h4, rfl⟩
      obtain ⟨tok, l1, rest, h1, h2, rfl⟩ := (nextTokens_succ _ _ _ _ _).1 h3
      exact ⟨tok, l1, rest ++ tb, h1, (ih _ _).2 ⟨rest, l3, tb, h2, h4, rfl⟩, rfl⟩

theorem nextTokens_prefix (lookup : String → TokenType) (a b : Nat) (l l2 : Tokenizer)
    (toks : List Token) (h : nextTokens lookup (a + b) l = some (toks, l2)) :
    ∃ l1, nextTokens lookup a l = some (toks.take a, l1) ∧
      nextTokens lookup b l1 = some (toks.drop a, l2) := by
  obtain ⟨ta, l1, tb, h1, h2, rfl⟩ := (nextTokens_add _ _ _ _ _ _).1 h
  have := nextTokens_length _ _ _ _ _ h1
  refine ⟨l1, ?_, ?_⟩
  · simpa [← this] using h1
  · simpa [← this] using h2

theorem WellFormed_New (input : String) : WellFormed (New input) := by
  rw [New_eq]; exact ⟨rfl, rfl⟩

theorem NextToken_wellFormed (lookup : String → TokenType) (l : Tokenizer) (tok : Token)
    (l2 : Tokenizer) (h : NextToken lookup l = some (tok, l2)) : WellFormed l2 :=
  ⟨(NextToken_frame _ _ _ _ h).2.2.1, (NextToken_frame _ _ _ _ h).2.2.2.1⟩

/-- What holds of the state after any number of calls on `New input`. -/
theorem nextTokens_reach (lookup : String → TokenType) (n : Nat) (l l2 : Tokenizer)
    (toks : List Token) (h : nextTokens lookup n l = some (toks, l2)) (hw : WellFormed l) :
    WellFormed l2 ∧ l2.characters = l.characters ∧ l.position + n ≤ l2.position := by
  induction n generalizing l toks with
  | zero =>
    simp only [nextTokens, Option.some.injEq, Prod.mk.injEq] at h
    obtain ⟨-, rfl⟩ := h
    exact ⟨hw, rfl, Nat.le_refl _⟩
  | succ n ih =>
    obtain ⟨tok, l1, rest, h1, h2, rfl⟩ := (nextTokens_succ _ _ _ _ _).1 h
    have hf := NextToken_frame _ _ _ _ h1
    obtain ⟨i1, i2, i3⟩ := ih _ _ h2 (NextToken_wellFormed _ _ _ _ h1)
    refine ⟨i1, i2.trans hf.1, ?_⟩
    have := hw.1
    omega

/-- The line-number rule along the stream, the token before the first one
being the `prevToken` of the starting state. -/
theorem nextTokens_adjacent (lookup : String → TokenType) (n : Nat) (l l2 : Tokenizer)
    (toks : List Token) (h : nextTokens lookup n l = some (toks, l2)) (i : Nat) (t t2 : Token)
    (h1 : (l.prevToken :: toks)[i]? = some t) (h2 : (l.prevToken :: toks)[i + 1]? = some t2) :
    (t.Kind = TokenType.NEWLINE → t2.Kind ≠ TokenType.INT) ∧
    (t2.Kind = TokenType.LINENO →
      t.Kind = TokenType.NEWLINE ∨ ∃ s, lookup s = TokenType.LINENO) := by
  induction n generalizing l toks i with
  | zero =>
    simp only [nextTokens, Option.some.injEq, Prod.mk.injEq] at h
    obtain ⟨rfl, -⟩ := h
    simp at h2
  | succ n ih =>
    obtain ⟨tok, l1, rest, hn, hr, rfl⟩ := (nextTokens_succ _ _ _ _ _).1 h
    have hp : l1.prevToken = tok := (NextToken_frame _ _ _ _ hn).2.1
    cases i with
    | zero =>
      simp only [List.getElem?_cons_zero, Option.some.injEq, Nat.zero_add,
        List.getElem?_cons_succ] at h1 h2
      subst h1; subst h2
      exact NextToken_rule _ _ _ _ hn
    | succ i =>
      simp only [List.getElem?_cons_succ] at h1 h2
      exact ih l1 rest hr i (by rw [hp]; exact h1) (by rw [hp]; simpa using h2)

/-! ## String literals -/

theorem drop_cons_inv {cs : List Char} {i : Nat} {a : Char} {r : List Char}
    (h : cs.drop i = a :: r) : i < cs.length ∧ charAt cs i = a ∧ cs.drop (i + 1) = r := by
  have hlt : i < cs.length := by
    by_contra hc
    rw [List.drop_eq_nil_of_le (Nat.le_of_not_lt hc)] at h
    cases h
  rw [drop_eq_charAt_cons hlt] at h
  simp only [List.cons.injEq] at h
  exact ⟨hlt, h.1, h.2⟩

theorem string_append_mk (out : String) (c : Char) (xs : List Char) :
    (out ++ String.singleton c) ++ String.mk xs = out ++ String.mk (c :: xs) := by
  apply String.ext
  simp [String.singleton]

theorem string_append_nil (out : String) : out ++ String.mk [] = out := by
  apply String.ext
  simp

/-- The loop of `readString` over a terminated literal: it exits on the closing
quote with the reference decoding of the body appended to `out`. -/
theorem readStringLoop_pieces (pieces : List Piece) (hok : ∀ p ∈ pieces, p.ok = true)
    (rest : List Char) (l : Tokenizer) (out : String) (n : Nat)
    (hbuf : l.characters.drop l.readPosition = bodySource pieces ++ '"' :: rest)
    (hn : pieces.length < n) :
    ∃ l2, readStringLoop n l out = some (out ++ String.mk (bodyValue pieces), l2) ∧
      l2.readPosition = l.readPosition + (bodySource pieces).length + 1 := by
  induction pieces generalizing l out n with
  | nil =>
    obtain ⟨m, rfl⟩ : ∃ m, n = m + 1 := ⟨n - 1, by simp at hn; omega⟩
    simp only [bodySource, List.flatMap_nil, List.nil_append] at hbuf
    obtain ⟨-, hc, -⟩ := drop_cons_inv hbuf
    refine ⟨readChar l, ?_, by simp [bodySource]⟩
    simp only [readStringLoop, readChar_ch, hc, if_true, bodyValue, List.map_nil,
      string_append_nil]
  | cons p ps ih =>
    obtain ⟨m, rfl⟩ : ∃ m, n = m + 1 := ⟨n - 1, by simp at hn; omega⟩
    have hok2 : ∀ q ∈ ps, q.ok = true := fun q hq => hok q (List.mem_cons_of_mem _ hq)
    have hp := hok p (List.mem_cons_self _ _)
    cases p with
    | plain c =>
      simp only [Piece.ok, Bool.and_eq_true, bne_iff_ne, ne_eq] at hp
      simp only [bodySource, List.flatMap_cons, Piece.source, List.cons_append,
        List.nil_append] at hbuf
      obtain ⟨-, hc, hd⟩ := drop_cons_inv hbuf
      obtain ⟨l2, h2, h3⟩ := ih hok2 (readChar l) (out ++ String.singleton c) m
        (by simpa [bodySource] using hd) (by simpa using hn)
      refine ⟨l2, ?_, ?_⟩
      · simp only [readStringLoop, readChar_ch, hc, if_neg hp.1, if_neg hp.2]
        rw [h2]
        simp only [bodyValue, List.map_cons, Piece.value, string_append_mk]
      · rw [h3]; simp [bodySource, Piece.source]; omega
    | escape c =>
      simp only [bodySource, List.flatMap_cons, Piece.source, List.cons_append,
        List.nil_append] at hbuf
      obtain ⟨-, hc, hd⟩ := drop_cons_inv hbuf
      obtain ⟨-, hc2, hd2⟩ := drop_cons_inv hd
      have hq : ¬ ('\\' = '"') := by decide
      obtain ⟨l2, h2, h3⟩ := ih hok2 (unescape (readChar (readChar l)))
        (out ++ String.singleton (decodeEscape c)) m
        (by simpa [unescape_eq, bodySource] using hd2) (by simpa using hn)
      refine ⟨l2, ?_, ?_⟩
      · simp only [readStringLoop, readChar_ch, hc, if_neg hq, if_true]
        have hch : (unescape (readChar (readChar l))).ch = decodeEscape c := by
          simp [unescape_eq, hc2]
        rw [hch, h2]
        simp only [bodyValue, List.map_cons, Piece.value, string_append_mk]
      · rw [h3]; simp [unescape_eq, bodySource, Piece.source]; omega

theorem dispatch_quote (lookup : String → TokenType) (l : Tokenizer) (h : l.ch = '"') :
    dispatch lookup l =
      match readString l with
      | none => none
      | some (s, l) => some (⟨TokenType.STRING, s⟩, l) := by
  simp [dispatch, h]

/-- C4: in every state whose current character, white space skipped, is a
quote followed in the buffer by a body (plain characters and escapes) and a
closing unescaped quote, `NextToken` returns one STRING token whose text is the
reference decoding of the body, without the quotes, and leaves the cursor just
past the closing quote. -/
theorem string_literal_decoded (lookup : String → TokenType) (l : Tokenizer)
    (pieces : List Piece) (rest : List Char)
    (hq : (skipWhitespace l).ch = '"')
    (hok : ∀ p ∈ pieces, p.ok = true)
    (hbuf : (skipWhitespace l).characters.drop (skipWhitespace l).readPosition =
      bodySource pieces ++ '"' :: rest) :
    ∃ l2, NextToken lookup l = some (⟨TokenType.STRING, String.mk (bodyValue pieces)⟩, l2) ∧
      l2.position = (skipWhitespace l).readPosition + (bodySource pieces).length + 1 ∧
      l2.readPosition = l2.position + 1 ∧
      l2.ch = rest.headD NUL ∧
      l2.characters = l.characters ∧
      l2.prevToken = ⟨TokenType.STRING, String.mk (bodyValue pieces)⟩ := by
  obtain ⟨l3, h3, hr⟩ := readStringLoop_pieces pieces hok rest (skipWhitespace l) ""
    (pieces.length + 1) hbuf (Nat.lt_succ_self _)
  have hrs : readString (skipWhitespace l) = some (String.mk (bodyValue pieces), l3) := by
    rw [readString, readStringLoop_adequate _ _ _ _ h3]
    have he : "" ++ String.mk (bodyValue pieces) = String.mk (bodyValue pieces) := by
      apply String.ext; simp
    rw [he]
  have hd : dispatch lookup (skipWhitespace l) =
      some (⟨TokenType.STRING, String.mk (bodyValue pieces)⟩, l3) := by
    rw [dispatch_quote lookup _ hq, hrs]
  have hfr := readStringLoop_frame _ _ _ _ _ h3
  have hsk := skipWhitespace_frame l
  rw [NextToken_of_dispatch lookup l _ _ hd, lineNumberRule_of_ne _ _ (by simp)]
  refine ⟨_, rfl, ?_, ?_, ?_, ?_, rfl⟩
  · simp [hr]
  · simp
  · simp only [readChar_ch]
    rw [charAt_eq_headD, hfr.1, hr, Nat.add_assoc, ← List.drop_drop, hbuf]
    simp
  · simp [hfr.1, hsk.1]

theorem string_literal_decoded_witness :
    (NextToken identLookup (New "\"a\\tb\\n\\\"c\\\"\"")).map Prod.snd = some literalState ∧
    (skipWhitespace literalState).ch = '"' ∧
    (∀ p ∈ [Piece.plain 'a', Piece.escape 't', Piece.plain 'b', Piece.escape 'n',
        Piece.escape '"', Piece.plain 'c', Piece.escape '"'], p.ok = true) ∧
    (skipWhitespace literalState).characters.drop (skipWhitespace literalState).readPosition =
      bodySource [Piece.plain 'a', Piece.escape 't', Piece.plain 'b', Piece.escape 'n',
        Piece.escape '"', Piece.plain 'c', Piece.escape '"'] ++ ['"'] ∧
    ∃ l2, NextToken identLookup literalState = some (⟨TokenType.STRING, "a\tb\n\"c\""⟩, l2) ∧
      l2.position = 2 + 11 + 1 ∧ l2.readPosition = l2.position + 1 ∧ l2.ch = NUL ∧
      l2.characters = literalState.characters ∧
      l2.prevToken = ⟨TokenType.STRING, "a\tb\n\"c\""⟩ :=
  ⟨by decide, by decide, by decide, by decide,
    string_literal_decoded identLookup literalState
      [Piece.plain 'a', Piece.escape 't', Piece.plain 'b', Piece.escape 'n',
        Piece.escape '"', Piece.plain 'c', Piece.escape '"'] [] (by decide) (by decide)
      (by decide)⟩

/-! ## Unterminated string literals -/

/-- Past the end of the buffer the loop of `readString` reads the sentinel for
ever: it exits on no fuel. -/
theorem readStringLoop_at_end (n : Nat) (l : Tokenizer) (out : String)
    (h : l.characters.length ≤ l.readPosition) : readStringLoop n l out = none := by
  induction n generalizing l out with
  | zero => rfl
  | succ n ih =>
    have hc : charAt l.characters l.readPosition = NUL := charAt_of_ge h
    have h1 : ¬ (NUL = '"') := by decide
    have h2 : ¬ (NUL = '\\') := by decide
    simp only [readStringLoop, readChar_ch, hc, if_neg h1, if_neg h2]
    exact ih _ _ (by simp; omega)

/-- The loop of `readString` over a literal that the buffer ends before a
closing quote, possibly on a dangling backslash: it exits on no fuel. -/
theorem readStringLoop_unterminated (pieces : List Piece) (hok : ∀ p ∈ pieces, p.ok = true)
    (tail : List Char) (htail : tail = [] ∨ tail = ['\\']) (l : Tokenizer) (out : String)
    (n : Nat) (hbuf : l.characters.drop l.readPosition = bodySource pieces ++ tail) :
    readStringLoop n l out = none := by
  induction pieces generalizing l out n with
  | nil =>
    simp only [bodySource, List.flatMap_nil, List.nil_append] at hbuf
    rcases htail with rfl | rfl
    · exact readStringLoop_at_end n l out (by
        by_contra hc
        rw [drop_eq_charAt_cons (Nat.lt_of_not_le hc)] at hbuf
        cases hbuf)
    · obtain ⟨hlt, hc, hd⟩ := drop_cons_inv hbuf
      have hlen : l.characters.length ≤ l.readPosition + 1 := by
        by_contra hcon
        rw [drop_eq_charAt_cons (Nat.lt_of_not_le hcon)] at hd
        cases hd
      cases n with
      | zero => rfl
      | succ n =>
        have hq : ¬ ('\\' = '"') := by decide
        simp only [readStringLoop, readChar_ch, hc, if_neg hq, if_true]
        exact readStringLoop_at_end n _ _ (by simp [unescape_eq]; omega)
  | cons p ps ih =>
    have hok2 : ∀ q ∈ ps, q.ok = true := fun q hq => hok q (List.mem_cons_of_mem _ hq)
    have hp := hok p (List.mem_cons_self _ _)
    cases n with
    | zero => rfl
    | succ n =>
      cases p with
      | plain c =>
        simp only [Piece.ok, Bool.and_eq_true, bne_iff_ne, ne_eq] at hp
        simp only [bodySource, List.flatMap_cons, Piece.source, List.cons_append,
          List.nil_append] at hbuf
        obtain ⟨-, hc, hd⟩ := drop_cons_inv hbuf
        simp only [readStringLoop, readChar_ch, hc, if_neg hp.1, if_neg hp.2]
        exact ih hok2 _ _ _ (by simpa [bodySource] using hd)
      | escape c =>
        simp only [bodySource, List.flatMap_cons, Piece.source, List.cons_append,
          List.nil_append] at hbuf
        obtain ⟨-, hc, hd⟩ := drop_cons_inv hbuf
        obtain ⟨-, hc2, hd2⟩ := drop_cons_inv hd
        have hq : ¬ ('\\' = '"') := by decide
        simp only [readStringLoop, readChar_ch, hc, if_neg hq, if_true]
        exact ih hok2 _ _ _ (by simpa [unescape_eq, bodySource] using hd2)

/-- C5: on an unterminated string literal the code returns nothing at all.
For the input made of one quote, and for the literal whose last quote is
escaped, the first call returns the NEWLINE of the prefixed newline and the
loop of `readString` in the second call exits on no fuel, so the second call
never returns: no token and no failure reaches the caller. -/
theorem unterminated_string_never_returns :
    (NextToken identLookup (New "\"")).map Prod.snd =
      some { position := 1, readPosition := 2, ch := '"', characters := ['\n', '"'],
             prevToken := ⟨TokenType.NEWLINE, "N"⟩ } ∧
    (∀ n out, readStringLoop n
      { position := 1, readPosition := 2, ch := '"', characters := ['\n', '"'],
        prevToken := ⟨TokenType.NEWLINE, "N"⟩ } out = none) ∧
    NextToken identLookup
      { position := 1, readPosition := 2, ch := '"', characters := ['\n', '"'],
        prevToken := ⟨TokenType.NEWLINE, "N"⟩ } = none ∧
    (NextToken identLookup (New "\"a\\\"")).map Prod.snd =
      some { position := 1, readPosition := 2, ch := '"',
             characters := ['\n', '"', 'a', '\\', '"'],
             prevToken := ⟨TokenType.NEWLINE, "N"⟩ } ∧
    (∀ n out, readStringLoop n
      { position := 1, readPosition := 2, ch := '"', characters := ['\n', '"', 'a', '\\', '"'],
        prevToken := ⟨TokenType.NEWLINE, "N"⟩ } out = none) ∧
    NextToken identLookup
      { position := 1, readPosition := 2, ch := '"', characters := ['\n', '"', 'a', '\\', '"'],
        prevToken := ⟨TokenType.NEWLINE, "N"⟩ } = none := by
  refine ⟨by decide, ?_, by decide, by decide, ?_, by decide⟩
  · intro n out
    exact readStringLoop_unterminated [] (by decide) [] (Or.inl rfl) _ out n (by decide)
  · intro n out
    exact readStringLoop_unterminated [Piece.plain 'a', Piece.escape '"'] (by decide) []
      (Or.inl rfl) _ out n (by decide)

/-! ## Totality and the end of the input -/

theorem readChar_wellFormed (l : Tokenizer) : WellFormed (readChar l) := by
  simp [WellFormed]

theorem skipWhitespaceLoop_wellFormed (n : Nat) (l : Tokenizer) (h : WellFormed l) :
    WellFormed (skipWhitespaceLoop n l) := by
  induction n generalizing l with
  | zero => exact h
  | succ n ih =>
    simp only [skipWhitespaceLoop]
    split
    · exact ih _ (readChar_wellFormed l)
    · exact h

theorem skipWhitespace_wellFormed (l : Tokenizer) (h : WellFormed l) :
    WellFormed (skipWhitespace l) :=
  skipWhitespaceLoop_wellFormed _ l h

theorem charAt_mem_of_lt {cs : List Char} {i : Nat} (h : i < cs.length) : charAt cs i ∈ cs := by
  have hm : charAt cs i ∈ cs.drop i := by
    rw [drop_eq_charAt_cons h]; exact List.mem_cons_self _ _
  exact List.mem_of_mem_drop hm

theorem charAt_mem (cs : List Char) (i : Nat) : charAt cs i = NUL ∨ charAt cs i ∈ cs := by
  by_cases h : i < cs.length
  · right; exact charAt_mem_of_lt h
  · left; exact charAt_of_ge (Nat.le_of_not_lt h)

/-- `NextToken` returns whenever the character it dispatches on is not a quote. -/
theorem NextToken_returns (lookup : String → TokenType) (l : Tokenizer)
    (h : (skipWhitespace l).ch ≠ '"') : ∃ r, NextToken lookup l = some r := by
  rcases dispatch_cases lookup (skipWhitespace l) with ⟨k, t, l4, hd, -, -⟩ | ⟨hc, -⟩ | ⟨-, hd⟩ |
      ⟨-, -, hd⟩ | ⟨-, -, hd⟩
  · exact ⟨_, NextToken_of_dispatch lookup l _ _ hd⟩
  · exact absurd hc h
  · exact ⟨_, NextToken_of_dispatch lookup l _ _ hd⟩
  · exact ⟨_, NextToken_of_dispatch lookup l _ _ hd⟩
  · exact ⟨_, NextToken_of_dispatch lookup l _ _ hd⟩

/-- On the sentinel `NextToken` returns EOF with an empty text, and advances. -/
theorem NextToken_NUL (lookup : String → TokenType) (l : Tokenizer) (h : l.ch = NUL) :
    NextToken lookup l =
      some (⟨TokenType.EOF, ""⟩, { readChar l with prevToken := ⟨TokenType.EOF, ""⟩ }) := by
  have hw : isWhitespace l.ch = false := by rw [h]; decide
  have hd : dispatch lookup (skipWhitespace l) = some (⟨TokenType.EOF, ""⟩, l) := by
    rw [skipWhitespace_of_not l hw]
    simp [dispatch, h, NUL_eq]
  rw [NextToken_of_dispatch lookup l _ _ hd, lineNumberRule_of_ne _ _ (by simp)]

theorem wellFormed_ch_of_ge (l : Tokenizer) (hw : WellFormed l)
    (h : l.characters.length ≤ l.position) : l.ch = NUL := by
  rw [hw.2, charAt_of_ge h]

theorem NextToken_returns_of_no_quote (lookup : String → TokenType) (l : Tokenizer)
    (hw : WellFormed l) (hq : '"' ∉ l.characters) : ∃ r, NextToken lookup l = some r := by
  apply NextToken_returns
  have hs := skipWhitespace_wellFormed l hw
  rw [hs.2]
  rcases charAt_mem (skipWhitespace l).characters (skipWhitespace l).position with h | h
  · rw [h]; decide
  · intro hc
    rw [hc, (skipWhitespace_frame l).1] at h
    exact hq h

theorem nextTokens_returns_of_no_quote (lookup : String → TokenType) (n : Nat) (l : Tokenizer)
    (hw : WellFormed l) (hq : '"' ∉ l.characters) :
    ∃ toks l2, nextTokens lookup n l = some (toks, l2) := by
  induction n generalizing l with
  | zero => exact ⟨[], l, rfl⟩
  | succ n ih =>
    obtain ⟨⟨tok, l1⟩, h1⟩ := NextToken_returns_of_no_quote lookup l hw hq
    have hf := NextToken_frame _ _ _ _ h1
    obtain ⟨toks, l2, h2⟩ := ih l1 (NextToken_wellFormed _ _ _ _ h1) (by rw [hf.1]; exact hq)
    exact ⟨tok :: toks, l2, (nextTokens_succ _ _ _ _ _).2 ⟨tok, l1, toks, h1, h2, rfl⟩⟩

theorem utf8ByteSize_go_ge (cs : List Char) : cs.length ≤ String.utf8ByteSize.go cs := by
  induction cs with
  | nil => simp [String.utf8ByteSize.go]
  | cons c cs ih =>
    have := Char.utf8Size_pos c
    simp only [String.utf8ByteSize.go, List.length_cons]
    omega

/-- The number of characters of a string is at most its number of bytes, the
`len` of Go. -/
theorem length_le_utf8ByteSize (s : String) : s.length ≤ s.utf8ByteSize := by
  obtain ⟨cs⟩ := s
  exact utf8ByteSize_go_ge cs

theorem quote_not_mem_New (input : String) (h : '"' ∉ input.data) :
    '"' ∉ (New input).characters := by
  rw [New_eq]
  simp only [List.mem_cons, not_or]
  exact ⟨by decide, h⟩

/-- The call that follows `input.length + 1` returned calls returns EOF. -/
theorem NextToken_after_all (lookup : String → TokenType) (input : String) (toks : List Token)
    (l : Tokenizer) (h : nextTokens lookup (input.length + 1) (New input) = some (toks, l)) :
    ∃ l2, NextToken lookup l = some (⟨TokenType.EOF, ""⟩, l2) := by
  obtain ⟨hw, hc, hp⟩ := nextTokens_reach _ _ _ _ _ h (WellFormed_New input)
  refine ⟨_, NextToken_NUL lookup l (wellFormed_ch_of_ge l hw ?_)⟩
  rw [hc, New_eq]
  simp only [List.length_cons]
  simp only [String.length] at hp
  omega

/-- A call fails to return only on a quote whose string sub-scan never exits. -/
theorem NextToken_none_only (lookup : String → TokenType) (l : Tokenizer)
    (h : NextToken lookup l = none) :
    (skipWhitespace l).ch = '"' ∧ ∀ n, readStringLoop n (skipWhitespace l) "" = none := by
  have hq : (skipWhitespace l).ch = '"' := by
    by_contra hc
    obtain ⟨r, hr⟩ := NextToken_returns lookup l hc
    rw [hr] at h
    cases h
  refine ⟨hq, (readString_none_iff _).1 ?_⟩
  have hd := (NextToken_none_iff lookup l).1 h
  rw [dispatch_quote lookup _ hq] at hd
  cases hr : readString (skipWhitespace l) with
  | none => rfl
  | some r => rw [hr] at hd; cases hd

/-- C6: totality. A call of `NextToken` fails to return only when the string
sub-scan it enters never exits. On the states reached from `New input`, a call
that returns strictly increases the cursor and leaves it aligned on a character
of the buffer or on the sentinel past its end (the buffer is only read through
the guarded `readChar` and `peekChar`); once `input.length + 1` calls have
returned, the next one returns EOF; and when the input holds no quote every
call returns, so that one of the first `len(input) + 2` calls returns EOF. -/
theorem totality (lookup : String → TokenType) (input : String) :
    (∀ l, NextToken lookup l = none →
      (skipWhitespace l).ch = '"' ∧ ∀ n, readStringLoop n (skipWhitespace l) "" = none) ∧
    (∀ n toks l tok l2, nextTokens lookup n (New input) = some (toks, l) →
      NextToken lookup l = some (tok, l2) →
        l.position < l2.position ∧ WellFormed l2 ∧ l2.characters = '\n' :: input.data) ∧
    (∀ toks l, nextTokens lookup (input.length + 1) (New input) = some (toks, l) →
      ∃ l2, NextToken lookup l = some (⟨TokenType.EOF, ""⟩, l2)) ∧
    ('"' ∉ input.data →
      (∀ n, ∃ toks l, nextTokens lookup n (New input) = some (toks, l)) ∧
      ∃ n toks l l2, n + 1 ≤ input.utf8ByteSize + 2 ∧
        nextTokens lookup n (New input) = some (toks, l) ∧
        NextToken lookup l = some (⟨TokenType.EOF, ""⟩, l2)) := by
  refine ⟨NextToken_none_only lookup, ?_, NextToken_after_all lookup input,
    fun hq => ⟨?_, ?_⟩⟩
  · intro n toks l tok l2 h hn
    obtain ⟨hw, hc, -⟩ := nextTokens_reach _ _ _ _ _ h (WellFormed_New input)
    have hf := NextToken_frame _ _ _ _ hn
    refine ⟨?_, NextToken_wellFormed _ _ _ _ hn, ?_⟩
    · have := hw.1
      have := hf.2.2.2.2
      omega
    · rw [hf.1, hc, New_eq]
  · intro n
    exact nextTokens_returns_of_no_quote lookup n _ (WellFormed_New input)
      (quote_not_mem_New input hq)
  · obtain ⟨toks, l, h⟩ := nextTokens_returns_of_no_quote lookup (input.length + 1) _
      (WellFormed_New input) (quote_not_mem_New input hq)
    obtain ⟨l2, h2⟩ := NextToken_after_all lookup input toks l h
    have := length_le_utf8ByteSize input
    exact ⟨input.length + 1, toks, l, l2, by omega, h, h2⟩

theorem totality_witness :
    '"' ∉ "10 PRINT 5".data ∧
    (nextTokens identLookup 5 (New "10 PRINT 5")).map Prod.fst =
      some [⟨TokenType.NEWLINE, "N"⟩, ⟨TokenType.LINENO, "10"⟩, ⟨TokenType.IDENT, "PRINT"⟩,
            ⟨TokenType.INT, "5"⟩, ⟨TokenType.EOF, ""⟩] ∧
    (∀ n, ∃ toks l, nextTokens identLookup n (New "10 PRINT 5") = some (toks, l)) ∧
    ∃ n toks l l2, n + 1 ≤ "10 PRINT 5".utf8ByteSize + 2 ∧
      nextTokens identLookup n (New "10 PRINT 5") = some (toks, l) ∧
      NextToken identLookup l = some (⟨TokenType.EOF, ""⟩, l2) :=
  ⟨by decide, by decide, (totality identLookup "10 PRINT 5").2.2.2 (by decide)⟩

/-! ## The end of the input, call after call -/

theorem NUL_not_mem_New (input : String) (h : NUL ∉ input.data) :
    NUL ∉ (New input).characters := by
  rw [New_eq]
  simp only [List.mem_cons, not_or]
  exact ⟨by decide, h⟩

/-- Past the end of the buffer `NextToken` returns EOF and stays past the end. -/
theorem NextToken_atEnd (lookup : String → TokenType) (l : Tokenizer) (hw : WellFormed l)
    (he : l.characters.length ≤ l.position) :
    ∃ l2, NextToken lookup l = some (⟨TokenType.EOF, ""⟩, l2) ∧ WellFormed l2 ∧
      l2.characters.length ≤ l2.position := by
  refine ⟨_, NextToken_NUL lookup l (wellFormed_ch_of_ge l hw he), ?_, ?_⟩
  · simp [WellFormed]
  · have := hw.1
    simp; omega

theorem nextTokens_atEnd (lookup : String → TokenType) (m : Nat) (l : Tokenizer)
    (hw : WellFormed l) (he : l.characters.length ≤ l.position) :
    ∃ l2, nextTokens lookup m l = some (List.replicate m ⟨TokenType.EOF, ""⟩, l2) := by
  induction m generalizing l with
  | zero => exact ⟨l, rfl⟩
  | succ m ih =>
    obtain ⟨l1, h1, hw1, he1⟩ := NextToken_atEnd lookup l hw he
    obtain ⟨l2, h2⟩ := ih l1 hw1 he1
    exact ⟨l2, (nextTokens_succ _ _ _ _ _).2 ⟨_, l1, _, h1, h2, rfl⟩⟩

theorem lineNumberRule_kind_EOF (prev tok : Token)
    (h : (lineNumberRule prev tok).Kind = TokenType.EOF) : lineNumberRule prev tok = tok := by
  unfold lineNumberRule at h ⊢
  split
  · rename_i hc; rw [if_pos hc] at h; simp at h
  · rfl

/-- When neither the buffer holds the sentinel character nor the keyword table
yields EOF, a call returns EOF only at the end of the buffer. -/
theorem NextToken_EOF_atEnd (lookup : String → TokenType) (hlk : ∀ s, lookup s ≠ TokenType.EOF)
    (l : Tokenizer) (hw : WellFormed l) (hnul : NUL ∉ l.characters) (tok : Token)
    (l2 : Tokenizer) (h : NextToken lookup l = some (tok, l2)) (hk : tok.Kind = TokenType.EOF) :
    tok = ⟨TokenType.EOF, ""⟩ ∧ WellFormed l2 ∧ l2.characters.length ≤ l2.position := by
  have hf := NextToken_frame _ _ _ _ h
  have hw2 := NextToken_wellFormed _ _ _ _ h
  cases hd : dispatch lookup (skipWhitespace l) with
  | none => rw [(NextToken_none_iff lookup l).2 hd] at h; cases h
  | some r =>
    obtain ⟨t, l1⟩ := r
    rw [NextToken_of_dispatch lookup l t l1 hd] at h
    simp only [Option.some.injEq, Prod.mk.injEq] at h
    obtain ⟨h1, h2⟩ := h
    rw [← h1] at hk
    have ht := lineNumberRule_kind_EOF _ _ hk
    rw [ht] at h1 hk
    rcases (dispatch_kind _ _ _ _ hd).2 hk with ⟨hc, hlit, hl1⟩ | ⟨s, hs⟩
    · refine ⟨?_, hw2, ?_⟩
      · rw [← h1]
        cases t
        simp only at hk hlit
        rw [hk, hlit]
      · have hs := skipWhitespace_wellFormed l hw
        have hge : (skipWhitespace l).characters.length ≤ (skipWhitespace l).position := by
          by_contra hcon
          have hm := charAt_mem_of_lt (Nat.lt_of_not_le hcon)
          rw [← hs.2, hc, (skipWhitespace_frame l).1] at hm
          exact hnul hm
        rw [← h2, hl1]
        have := hs.1
        simp [(skipWhitespace_frame l).1] at hge ⊢
        omega
    · exact absurd hs (hlk s)

/-- C7, as stated, fails: on the input made of the sentinel character followed
by `A`, the second call returns EOF and the third one returns the identifier
`A`, under a keyword table that never yields EOF. -/
theorem eof_idempotent_counterexample :
    (nextTokens identLookup 4 (New (String.mk [NUL, 'A']))).map Prod.fst =
      some [⟨TokenType.NEWLINE, "N"⟩, ⟨TokenType.EOF, ""⟩, ⟨TokenType.IDENT, "A"⟩,
            ⟨TokenType.EOF, ""⟩] := by
  decide

/-- C7, amended: for every input that does not hold the sentinel character,
under a keyword table that never yields EOF, once a call has returned a token
of kind EOF, every later token is EOF with an empty text, and any number of
further calls return and yield EOF with an empty text. -/
theorem eof_idempotent (lookup : String → TokenType) (hlk : ∀ s, lookup s ≠ TokenType.EOF)
    (input : String) (hnul : NUL ∉ input.data) (n : Nat) (toks : List Token) (l : Tokenizer)
    (h : nextTokens lookup n (New input) = some (toks, l)) (i : Nat) (t : Token)
    (hi : toks[i]? = some t) (hk : t.Kind = TokenType.EOF) :
    (∀ j t2, i ≤ j → toks[j]? = some t2 → t2 = ⟨TokenType.EOF, ""⟩) ∧
    ∀ m, ∃ l2, nextTokens lookup m l = some (List.replicate m ⟨TokenType.EOF, ""⟩, l2) := by
  have hlen := nextTokens_length _ _ _ _ _ h
  have hin : i < n := by
    rw [← hlen]
    exact (List.getElem?_eq_some_iff.1 hi).1
  obtain ⟨b, rfl⟩ : ∃ b, n = i + (b + 1) := ⟨n - i - 1, by omega⟩
  obtain ⟨ta, l1, tb, h1, h2, rfl⟩ := (nextTokens_add _ _ _ _ _ _).1 h
  obtain ⟨tok, l3, rest, h3, h4, rfl⟩ := (nextTokens_succ _ _ _ _ _).1 h2
  have hla := nextTokens_length _ _ _ _ _ h1
  obtain ⟨hw1, hc1, -⟩ := nextTokens_reach _ _ _ _ _ h1 (WellFormed_New input)
  have ht : tok = t := by
    have : (ta ++ tok :: rest)[i]? = some tok := by
      rw [List.getElem?_append_right (by omega)]
      simp [hla]
    rw [this] at hi
    exact Option.some.inj hi
  subst ht
  obtain ⟨e1, e2, e3⟩ := NextToken_EOF_atEnd lookup hlk l1 hw1
    (by rw [hc1]; exact NUL_not_mem_New input hnul) _ _ h3 hk
  obtain ⟨l4, h5⟩ := nextTokens_atEnd lookup b l3 e2 e3
  rw [h5] at h4
  simp only [Option.some.injEq, Prod.mk.injEq] at h4
  obtain ⟨hr, hl⟩ := h4
  subst hr
  constructor
  · intro j t2 hij hj
    rw [List.getElem?_append_right (by omega)] at hj
    rw [e1] at hj
    have : (⟨TokenType.EOF, ""⟩ :: List.replicate b (⟨TokenType.EOF, ""⟩ : Token)) =
        List.replicate (b + 1) ⟨TokenType.EOF, ""⟩ := rfl
    rw [this] at hj
    obtain ⟨hlt, he⟩ := List.getElem?_eq_some_iff.1 hj
    rw [← he]
    simp
  · intro m
    have hr := nextTokens_reach _ _ _ _ _ h5 e2
    subst hl
    exact nextTokens_atEnd lookup m l4 hr.1 (by rw [hr.2.1]; have := hr.2.2; omega)

theorem eof_idempotent_witness :
    (∀ s, identLookup s ≠ TokenType.EOF) ∧ NUL ∉ "A 1".data ∧
    nextTokens identLookup 5 (New "A 1") =
      some ([⟨TokenType.NEWLINE, "N"⟩, ⟨TokenType.IDENT, "A"⟩, ⟨TokenType.INT, "1"⟩,
             ⟨TokenType.EOF, ""⟩, ⟨TokenType.EOF, ""⟩],
            { position := 6, readPosition := 7, ch := NUL,
              characters := ['\n', 'A', ' ', '1'], prevToken := ⟨TokenType.EOF, ""⟩ }) ∧
    ((∀ j t2, 3 ≤ j →
        [(⟨TokenType.NEWLINE, "N"⟩ : Token), ⟨TokenType.IDENT, "A"⟩, ⟨TokenType.INT, "1"⟩,
          ⟨TokenType.EOF, ""⟩, ⟨TokenType.EOF, ""⟩][j]? = some t2 →
        t2 = ⟨TokenType.EOF, ""⟩) ∧
      ∀ m, ∃ l2, nextTokens identLookup m
          { position := 6, readPosition := 7, ch := NUL,
            characters := ['\n', 'A', ' ', '1'], prevToken := ⟨TokenType.EOF, ""⟩ } =
        some (List.replicate m ⟨TokenType.EOF, ""⟩, l2)) :=
  ⟨fun _ => by simp [identLookup], by decide, by decide,
    eof_idempotent identLookup (fun _ => by simp [identLookup]) "A 1" (by decide) 5 _ _
      (by decide) 3 ⟨TokenType.EOF, ""⟩ (by decide) rfl⟩

/-- C8, as stated, fails: after the first call on `New ""` the cursor is at 1
and the lookahead at 2; the next call returns EOF and leaves them at 2 and 3. -/
theorem eof_advances_counterexample :
    (NextToken identLookup (New "")).map Prod.snd =
      some { position := 1, readPosition := 2, ch := NUL, characters := ['\n'],
             prevToken := ⟨TokenType.NEWLINE, "N"⟩ } ∧
    NextToken identLookup
      { position := 1, readPosition := 2, ch := NUL, characters := ['\n'],
        prevToken := ⟨TokenType.NEWLINE, "N"⟩ } =
      some (⟨TokenType.EOF, ""⟩,
        { position := 2, readPosition := 3, ch := NUL, characters := ['\n'],
          prevToken := ⟨TokenType.EOF, ""⟩ }) := by
  decide

/-- C8, amended: a call that returns EOF does advance the scanner, `NextToken`
ending on an unconditional `readChar`. In every state with
`readPosition = position + 1`, a call that returns EOF leaves the cursor and the
lookahead strictly greater than before, still one apart, and the buffer
untouched; when the current character is the sentinel the call returns EOF with
an empty text and both are exactly one more than before, the current character
being the sentinel again when the cursor was at or past the end of the buffer. -/
theorem eof_advances (lookup : String → TokenType) (l : Tokenizer)
    (hal : l.readPosition = l.position + 1) :
    (∀ tok l2, NextToken lookup l = some (tok, l2) → tok.Kind = TokenType.EOF →
      l.position < l2.position ∧ l.readPosition < l2.readPosition ∧
      l2.readPosition = l2.position + 1 ∧ l2.characters = l.characters) ∧
    (l.ch = NUL →
      ∃ l2, NextToken lookup l = some (⟨TokenType.EOF, ""⟩, l2) ∧
        l2.position = l.position + 1 ∧ l2.readPosition = l.readPosition + 1 ∧
        l2.characters = l.characters ∧
        (l.characters.length ≤ l.position → l2.ch = NUL)) := by
  constructor
  · intro tok l2 h _
    have hf := NextToken_frame _ _ _ _ h
    have h1 := hf.2.2.1
    have h2 := hf.2.2.2.2
    unfold Aligned at h1
    exact ⟨by omega, by omega, h1, hf.1⟩
  · intro hc
    refine ⟨_, NextToken_NUL lookup l hc, by simp [hal], by simp, by simp, ?_⟩
    intro hge
    simp only [readChar_ch]
    exact charAt_of_ge (by omega)

theorem eof_advances_witness :
    (2 : Nat) = 1 + 1 ∧
    ∃ l2, NextToken identLookup
        { position := 1, readPosition := 2, ch := NUL, characters := ['\n'],
          prevToken := ⟨TokenType.NEWLINE, "N"⟩ } = some (⟨TokenType.EOF, ""⟩, l2) ∧
      l2.position = 1 + 1 ∧ l2.readPosition = 2 + 1 ∧ l2.characters = ['\n'] ∧
      (['\n'].length ≤ 1 → l2.ch = NUL) :=
  ⟨rfl, (eof_advances identLookup
    { position := 1, readPosition := 2, ch := NUL, characters := ['\n'],
      prevToken := ⟨TokenType.NEWLINE, "N"⟩ } rfl).2 rfl⟩

/-! ## Identifiers -/

theorem isIdentifier_eq (c : Char) : isIdentifier c = !isClaimed c := by
  rw [Bool.eq_iff_iff]
  simp only [isIdentifier, isClaimed, isWhitespace, isBrace, isOperator, isComparison,
    isCompound, isParen, isBracket, isEmpty, Bool.and_eq_true, Bool.not_eq_true',
    Bool.or_eq_false_iff, bne_iff_ne, beq_eq_false_iff_ne, ne_eq]
  have hn : (NUL = c) ↔ (c = NUL) := eq_comm
  rw [hn]
  tauto

theorem dropWhile_head (p : Char → Bool) (xs : List Char) (c : Char)
    (h : (xs.dropWhile p).head? = some c) : p c = false := by
  induction xs with
  | nil => simp at h
  | cons x xs ih =>
    by_cases hx : p x = true
    · rw [List.dropWhile_cons_of_pos hx] at h; exact ih h
    · rw [List.dropWhile_cons_of_neg hx] at h
      simp only [List.head?_cons, Option.some.injEq] at h
      rw [← h]; simpa using hx

theorem NextToken_identifier (lookup : String → TokenType) (l : Tokenizer)
    (hd : isDispatched (skipWhitespace l).ch = false)
    (hg : isDigit (skipWhitespace l).ch = false) :
    NextToken lookup l =
      some (lineNumberRule l.prevToken
              ⟨lookup (String.mk ((skipWhitespace l).ch :: runFrom isIdentifier (skipWhitespace l))),
               String.mk ((skipWhitespace l).ch :: runFrom isIdentifier (skipWhitespace l))⟩,
            { readChar (readIdentifier (skipWhitespace l)).2 with
              prevToken := lineNumberRule l.prevToken
                ⟨lookup (String.mk
                    ((skipWhitespace l).ch :: runFrom isIdentifier (skipWhitespace l))),
                 String.mk ((skipWhitespace l).ch :: runFrom isIdentifier (skipWhitespace l))⟩ }) := by
  have h : dispatch lookup (skipWhitespace l) =
      some (⟨lookup (String.mk ((skipWhitespace l).ch :: runFrom isIdentifier (skipWhitespace l))),
             String.mk ((skipWhitespace l).ch :: runFrom isIdentifier (skipWhitespace l))⟩,
            (readIdentifier (skipWhitespace l)).2) := by
    rw [dispatch_default lookup _ hd, hg, (readIdentifier_spec _).1]
    simp
  rw [NextToken_of_dispatch lookup l _ _ h]

theorem lineNumberRule_literal (prev tok : Token) :
    (lineNumberRule prev tok).Literal = tok.Literal := by
  unfold lineNumberRule
  split <;> rfl

/-- C10, as stated, fails: on the input `:` the identifier branch is taken (the
colon is neither dispatched by the switch nor a digit) and the text of the
token is the colon, one of the characters listed as excluded. -/
theorem identifier_text_counterexample :
    (nextTokens identLookup 2 (New ":")).map Prod.fst =
      some [⟨TokenType.NEWLINE, "N"⟩, ⟨TokenType.IDENT, ":"⟩] ∧
    isDispatched ':' = false ∧ isDigit ':' = false ∧ isClaimed ':' = true := by
  decide

/-- C10, amended: in every state in which `NextToken` takes the identifier
branch (the current character, white space skipped, is neither dispatched by
the switch nor a digit), the text passed to the keyword table and returned as
the token text is the current character, taken as it is, followed by a maximal
run of identifier characters: every character after the first is none of the
characters the spec lists, and the character that follows the run in the
buffer, if any, is one of them. -/
theorem identifier_text (lookup : String → TokenType) (l : Tokenizer)
    (hd : isDispatched (skipWhitespace l).ch = false)
    (hg : isDigit (skipWhitespace l).ch = false) :
    ∃ tok l2 run rest, NextToken lookup l = some (tok, l2) ∧
      tok.Literal = String.mk ((skipWhitespace l).ch :: run) ∧
      tok = lineNumberRule l.prevToken ⟨lookup tok.Literal, tok.Literal⟩ ∧
      isWhitespace (skipWhitespace l).ch = false ∧
      (∀ c ∈ run, isClaimed c = false) ∧
      (skipWhitespace l).characters.drop (skipWhitespace l).readPosition = run ++ rest ∧
      (∀ c, rest.head? = some c → isClaimed c = true) := by
  refine ⟨_, _, runFrom isIdentifier (skipWhitespace l),
    ((skipWhitespace l).characters.drop (skipWhitespace l).readPosition).dropWhile isIdentifier,
    NextToken_identifier lookup l hd hg, lineNumberRule_literal _ _, ?_, skipWhitespace_ch l,
    ?_, ?_, ?_⟩
  · rw [lineNumberRule_literal]
  · intro c hc
    have := List.mem_takeWhile_imp hc
    rw [isIdentifier_eq] at this
    simpa using this
  · exact (List.takeWhile_append_dropWhile _ _).symm
  · intro c hc
    have := dropWhile_head _ _ _ hc
    rw [isIdentifier_eq] at this
    simpa using this

theorem identifier_text_witness :
    isDispatched (skipWhitespace colonState).ch = false ∧
    isDigit (skipWhitespace colonState).ch = false ∧
    (NextToken identLookup colonState).map Prod.fst = some ⟨TokenType.IDENT, ":x%"⟩ ∧
    ∃ tok l2 run rest, NextToken identLookup colonState = some (tok, l2) ∧
      tok.Literal = String.mk ((skipWhitespace colonState).ch :: run) ∧
      tok = lineNumberRule colonState.prevToken ⟨identLookup tok.Literal, tok.Literal⟩ ∧
      isWhitespace (skipWhitespace colonState).ch = false ∧
      (∀ c ∈ run, isClaimed c = false) ∧
      (skipWhitespace colonState).characters.drop (skipWhitespace colonState).readPosition =
        run ++ rest ∧
      (∀ c, rest.head? = some c → isClaimed c = true) :=
  ⟨by decide, by decide, by decide,
    identifier_text identLookup colonState (by decide) (by decide)⟩

/-! ## Identifiers and digits -/

theorem stateAt_New (input : String) :
    New input = stateAt ('\n' :: input.data) 0 ⟨TokenType.UNSET, ""⟩ := by
  rw [New_eq]; rfl

/-- One call from a state `stateAt`, from the result of the switch. -/
theorem NextToken_stateAt (lookup : String → TokenType) (cs : List Char) (i j : Nat)
    (p tok : Token) (l2 : Tokenizer)
    (hd : dispatch lookup (skipWhitespace (stateAt cs i p)) = some (tok, l2))
    (hj : l2.readPosition = j) :
    NextToken lookup (stateAt cs i p) =
      some (lineNumberRule p tok, stateAt cs j (lineNumberRule p tok)) := by
  have hf := dispatch_frame _ _ _ _ hd
  have hs := skipWhitespace_frame (stateAt cs i p)
  rw [NextToken_of_dispatch lookup _ _ _ hd, readChar_eq, hf.1, hs.1, hj]
  rfl

theorem isIdentifier_not_whitespace {c : Char} (h : isIdentifier c = true) :
    isWhitespace c = false := by
  simp only [isIdentifier, Bool.and_eq_true, Bool.not_eq_true'] at h
  exact h.1.1.1.1.1.1.1.1.1.2

theorem isIdentifier_not_digit {c : Char} (h : isIdentifier c = true) : isDigit c = false := by
  simp only [isIdentifier, Bool.and_eq_true, Bool.not_eq_true'] at h
  exact h.1.1.1.1.1.1.1.1.1.1

theorem isIdentifier_not_dispatched {c : Char} (h : isIdentifier c = true) (hc : c ≠ '%') :
    isDispatched c = false := by
  rw [isIdentifier_eq] at h
  simp only [isClaimed, Bool.not_eq_true', Bool.or_eq_false_iff, beq_eq_false_iff_ne, ne_eq] at h
  simp only [isDispatched, Bool.or_eq_false_iff, beq_eq_false_iff_ne, ne_eq]
  tauto

theorem takeWhile_all (p : Char → Bool) (xs : List Char) (h : ∀ x ∈ xs, p x = true) :
    xs.takeWhile p = xs := by
  induction xs with
  | nil => rfl
  | cons x xs ih =>
    rw [List.takeWhile_cons_of_pos (h x (List.mem_cons_self _ _)),
      ih (fun y hy => h y (List.mem_cons_of_mem _ hy))]

/-- A run of identifier characters that fills the input is one token. -/
theorem nextTokens_identifier_input (lookup : String → TokenType) (input : String) (c : Char)
    (rest : List Char) (hin : input.data = c :: rest)
    (hall : ∀ x ∈ input.data, isIdentifier x = true) (hc : c ≠ '%')
    (hk : lookup input ≠ TokenType.INT) :
    ∃ l, nextTokens lookup 3 (New input) =
      some ([⟨TokenType.NEWLINE, "N"⟩, ⟨lookup input, input⟩, ⟨TokenType.EOF, ""⟩], l) := by
  have hci : isIdentifier c = true := hall c (by rw [hin]; exact List.mem_cons_self _ _)
  have hch : charAt ('\n' :: input.data) 1 = c := by simp [hin, charAt]
  have h1 := NextToken_New lookup input
  rw [hch] at h1
  have hsk := skipWhitespace_of_not
    { position := 1, readPosition := 2, ch := c,
      characters := '\n' :: input.data, prevToken := ⟨TokenType.NEWLINE, "N"⟩ }
    (isIdentifier_not_whitespace hci)
  have h2 := NextToken_identifier lookup
    { position := 1, readPosition := 2, ch := c,
      characters := '\n' :: input.data, prevToken := ⟨TokenType.NEWLINE, "N"⟩ }
    (by rw [hsk]; exact isIdentifier_not_dispatched hci hc)
    (by rw [hsk]; exact isIdentifier_not_digit hci)
  rw [hsk] at h2
  have hrun : runFrom isIdentifier
      { position := 1, readPosition := 2, ch := c,
        characters := '\n' :: input.data, prevToken := ⟨TokenType.NEWLINE, "N"⟩ } = rest := by
    simp only [runFrom, hin, List.drop_succ_cons, List.drop_zero]
    exact takeWhile_all _ _ (fun x hx => hall x (by rw [hin]; exact List.mem_cons_of_mem _ hx))
  have htext : String.mk (c :: rest) = input := by
    rw [← hin]
  have hlen : (readIdentifier
      { position := 1, readPosition := 2, ch := c,
        characters := '\n' :: input.data, prevToken := ⟨TokenType.NEWLINE, "N"⟩ }).2.readPosition =
      2 + rest.length := by
    rw [(readIdentifier_spec _).2.2.2.1, hrun]
  have hchars := (readIdentifier_spec
      { position := 1, readPosition := 2, ch := c,
        characters := '\n' :: input.data, prevToken := ⟨TokenType.NEWLINE, "N"⟩ }).2.1
  rw [hrun, htext, lineNumberRule_of_ne _ _ hk] at h2
  have hw := NextToken_wellFormed _ _ _ _ h2
  have hcl : (readIdentifier
      { position := 1, readPosition := 2, ch := c,
        characters := '\n' :: input.data, prevToken := ⟨TokenType.NEWLINE, "N"⟩ }).2.characters.length =
      rest.length + 2 := by
    rw [hchars]; simp [hin]
  obtain ⟨l3, h3, -⟩ := NextToken_atEnd lookup _ hw (by
    simp only [readChar_position, readChar_characters]
    omega)
  refine ⟨l3, ?_⟩
  simp only [nextTokens, h1, h2, h3]

theorem lineNumberRule_of_prev_ne (prev tok : Token) (h : prev.Kind ≠ TokenType.NEWLINE) :
    lineNumberRule prev tok = tok := by
  simp [lineNumberRule, h]

theorem lineNumberRule_INT_kind (prev : Token) (s : String) :
    (lineNumberRule prev ⟨TokenType.INT, s⟩).Kind ≠ TokenType.NEWLINE := by
  rw [lineNumberRule_INT]
  by_cases h : prev.Kind = TokenType.NEWLINE <;> simp [h]

/-- The input `X1?` is split at the digit, whatever the keyword table. -/
theorem nextTokens_X1 (lookup : String → TokenType) :
    ∃ l, nextTokens lookup 5 (New "X1?") =
      some ([⟨TokenType.NEWLINE, "N"⟩,
             lineNumberRule ⟨TokenType.NEWLINE, "N"⟩ ⟨lookup "X", "X"⟩,
             lineNumberRule (lineNumberRule ⟨TokenType.NEWLINE, "N"⟩ ⟨lookup "X", "X"⟩)
               ⟨TokenType.INT, "1"⟩,
             ⟨lookup "?", "?"⟩, ⟨TokenType.EOF, ""⟩], l) := by
  have s1 : NextToken lookup (stateAt ['\n', 'X', '1', '?'] 0 ⟨TokenType.UNSET, ""⟩) =
      some (⟨TokenType.NEWLINE, "N"⟩, stateAt ['\n', 'X', '1', '?'] 1 ⟨TokenType.NEWLINE, "N"⟩) :=
    NextToken_stateAt lookup _ 0 1 _ ⟨TokenType.NEWLINE, "N"⟩ _ rfl rfl
  have s2 := NextToken_stateAt lookup ['\n', 'X', '1', '?'] 1 2 ⟨TokenType.NEWLINE, "N"⟩
    ⟨lookup "X", "X"⟩ _ rfl rfl
  have s3 := NextToken_stateAt lookup ['\n', 'X', '1', '?'] 2 3
    (lineNumberRule ⟨TokenType.NEWLINE, "N"⟩ ⟨lookup "X", "X"⟩) ⟨TokenType.INT, "1"⟩ _ rfl rfl
  have s4 := NextToken_stateAt lookup ['\n', 'X', '1', '?'] 3 4
    (lineNumberRule (lineNumberRule ⟨TokenType.NEWLINE, "N"⟩ ⟨lookup "X", "X"⟩)
      ⟨TokenType.INT, "1"⟩) ⟨lookup "?", "?"⟩ _ rfl rfl
  rw [lineNumberRule_of_prev_ne _ _ (lineNumberRule_INT_kind _ _)] at s4
  have s5 := NextToken_stateAt lookup ['\n', 'X', '1', '?'] 4 5 ⟨lookup "?", "?"⟩
    ⟨TokenType.EOF, ""⟩ _ rfl rfl
  rw [lineNumberRule_of_ne _ _ (by simp)] at s5
  have h0 : New "X1?" = stateAt ['\n', 'X', '1', '?'] 0 ⟨TokenType.UNSET, ""⟩ := stateAt_New _
  refine ⟨stateAt ['\n', 'X', '1', '?'] 5 ⟨TokenType.EOF, ""⟩, ?_⟩
  simp only [nextTokens, h0, s1, s2, s3, s4, s5]

/-- C9, as stated, fails: the input `X1?` is not captured whole, the identifier
sub-scan stops on the digit: the tokens are `X`, the number `1` and `?`. -/
theorem identifier_permissive_counterexample :
    (nextTokens identLookup 5 (New "X1?")).map Prod.fst =
      some [⟨TokenType.NEWLINE, "N"⟩, ⟨TokenType.IDENT, "X"⟩, ⟨TokenType.INT, "1"⟩,
            ⟨TokenType.IDENT, "?"⟩, ⟨TokenType.EOF, ""⟩] ∧
    (nextTokens identLookup 3 (New "X1?")).map Prod.fst ≠
      some [⟨TokenType.NEWLINE, "N"⟩, ⟨identLookup "X1?", "X1?"⟩, ⟨TokenType.EOF, ""⟩] ∧
    isIdentifier '1' = false := by
  decide

/-- C9, amended: identifier permissiveness stops at digits. A non-empty input
whose characters all satisfy `isIdentifier` and that does not start with `%`
(letters and characters the grammar does not claim, no digit) is captured whole
by the identifier sub-scan: after the NEWLINE of the prefixed newline, the
tokens are one token with the input as text, whose kind is the one the keyword
table gives for it (when that is not INT), and EOF. The input `X1?` is split
at the digit into `X`, the number `1` and `?`, followed by EOF. -/
theorem identifier_permissive (lookup : String → TokenType) :
    (∀ (input : String) (c : Char) (rest : List Char), input.data = c :: rest →
      (∀ x ∈ input.data, isIdentifier x = true) → c ≠ '%' → lookup input ≠ TokenType.INT →
      ∃ l, nextTokens lookup 3 (New input) =
        some ([⟨TokenType.NEWLINE, "N"⟩, ⟨lookup input, input⟩, ⟨TokenType.EOF, ""⟩], l)) ∧
    ∃ l, nextTokens lookup 5 (New "X1?") =
      some ([⟨TokenType.NEWLINE, "N"⟩,
             lineNumberRule ⟨TokenType.NEWLINE, "N"⟩ ⟨lookup "X", "X"⟩,
             lineNumberRule (lineNumberRule ⟨TokenType.NEWLINE, "N"⟩ ⟨lookup "X", "X"⟩)
               ⟨TokenType.INT, "1"⟩,
             ⟨lookup "?", "?"⟩, ⟨TokenType.EOF, ""⟩], l) :=
  ⟨nextTokens_identifier_input lookup, nextTokens_X1 lookup⟩

theorem identifier_permissive_witness :
    "X_?".data = 'X' :: ['_', '?'] ∧ (∀ x ∈ "X_?".data, isIdentifier x = true) ∧
    identLookup "X_?" ≠ TokenType.INT ∧
    ∃ l, nextTokens identLookup 3 (New "X_?") =
      some ([⟨TokenType.NEWLINE, "N"⟩, ⟨identLookup "X_?", "X_?"⟩, ⟨TokenType.EOF, ""⟩], l) :=
  ⟨rfl, by decide, by decide,
    (identifier_permissive identLookup).1 "X_?" 'X' ['_', '?'] rfl (by decide) (by decide)
      (by decide)⟩

/-! ## Line numbers along the stream -/

/-- One call from a state `stateAt`, from the result of the switch and of the
line-number rule. -/
theorem NextToken_stateAt_rule (lookup : String → TokenType) (cs : List Char) (i j : Nat)
    (p tok tok2 : Token) (l2 : Tokenizer)
    (hd : dispatch lookup (skipWhitespace (stateAt cs i p)) = some (tok, l2))
    (hj : l2.readPosition = j) (hr : lineNumberRule p tok = tok2) :
    NextToken lookup (stateAt cs i p) = some (tok2, stateAt cs j tok2) := by
  rw [NextToken_stateAt lookup cs i j p tok l2 hd hj, hr]

theorem lineNumberRule_after_NEWLINE (s t : String) :
    lineNumberRule ⟨TokenType.NEWLINE, s⟩ ⟨TokenType.INT, t⟩ = ⟨TokenType.LINENO, t⟩ := by
  simp [lineNumberRule]

/-- The tokens of the program `10 X=1` / `20 Y=2`, whatever the keyword table. -/
theorem nextTokens_twoLines (lookup : String → TokenType) :
    (nextTokens lookup 11 (New "10 X=1\n20 Y=2")).map Prod.fst =
      some [⟨TokenType.NEWLINE, "N"⟩, ⟨TokenType.LINENO, "10"⟩, ⟨lookup "X", "X"⟩,
            ⟨TokenType.ASSIGN, "="⟩, ⟨TokenType.INT, "1"⟩, ⟨TokenType.NEWLINE, "N"⟩,
            ⟨TokenType.LINENO, "20"⟩, ⟨lookup "Y", "Y"⟩, ⟨TokenType.ASSIGN, "="⟩,
            ⟨TokenType.INT, "2"⟩, ⟨TokenType.EOF, ""⟩] := by
  have s1 := NextToken_stateAt_rule lookup ('\n' :: "10 X=1\n20 Y=2".data) 0 1
    ⟨TokenType.UNSET, ""⟩ ⟨TokenType.NEWLINE, "N"⟩ ⟨TokenType.NEWLINE, "N"⟩ _ rfl rfl
    (lineNumberRule_of_ne _ _ (by simp))
  have s2 := NextToken_stateAt_rule lookup ('\n' :: "10 X=1\n20 Y=2".data) 1 3
    ⟨TokenType.NEWLINE, "N"⟩ ⟨TokenType.INT, "10"⟩ ⟨TokenType.LINENO, "10"⟩ _ rfl rfl
    (lineNumberRule_after_NEWLINE _ _)
  have s3 := NextToken_stateAt_rule lookup ('\n' :: "10 X=1\n20 Y=2".data) 3 5
    ⟨TokenType.LINENO, "10"⟩ ⟨lookup "X", "X"⟩ ⟨lookup "X", "X"⟩ _ rfl rfl
    (lineNumberRule_of_prev_ne _ _ (by simp))
  have s4 := NextToken_stateAt_rule lookup ('\n' :: "10 X=1\n20 Y=2".data) 5 6
    ⟨lookup "X", "X"⟩ ⟨TokenType.ASSIGN, "="⟩ ⟨TokenType.ASSIGN, "="⟩ _ rfl rfl
    (lineNumberRule_of_ne _ _ (by simp))
  have s5 := NextToken_stateAt_rule lookup ('\n' :: "10 X=1\n20 Y=2".data) 6 7
    ⟨TokenType.ASSIGN, "="⟩ ⟨TokenType.INT, "1"⟩ ⟨TokenType.INT, "1"⟩ _ rfl rfl
    (lineNumberRule_of_prev_ne _ _ (by simp))
  have s6 := NextToken_stateAt_rule lookup ('\n' :: "10 X=1\n20 Y=2".data) 7 8
    ⟨TokenType.INT, "1"⟩ ⟨TokenType.NEWLINE, "N"⟩ ⟨TokenType.NEWLINE, "N"⟩ _ rfl rfl
    (lineNumberRule_of_ne _ _ (by simp))
  have s7 := NextToken_stateAt_rule lookup ('\n' :: "10 X=1\n20 Y=2".data) 8 10
    ⟨TokenType.NEWLINE, "N"⟩ ⟨TokenType.INT, "20"⟩ ⟨TokenType.LINENO, "20"⟩ _ rfl rfl
    (lineNumberRule_after_NEWLINE _ _)
  have s8 := NextToken_stateAt_rule lookup ('\n' :: "10 X=1\n20 Y=2".data) 10 12
    ⟨TokenType.LINENO, "20"⟩ ⟨lookup "Y", "Y"⟩ ⟨lookup "Y", "Y"⟩ _ rfl rfl
    (lineNumberRule_of_prev_ne _ _ (by simp))
  have s9 := NextToken_stateAt_rule lookup ('\n' :: "10 X=1\n20 Y=2".data) 12 13
    ⟨lookup "Y", "Y"⟩ ⟨TokenType.ASSIGN, "="⟩ ⟨TokenType.ASSIGN, "="⟩ _ rfl rfl
    (lineNumberRule_of_ne _ _ (by simp))
  have s10 := NextToken_stateAt_rule lookup ('\n' :: "10 X=1\n20 Y=2".data) 13 14
    ⟨TokenType.ASSIGN, "="⟩ ⟨TokenType.INT, "2"⟩ ⟨TokenType.INT, "2"⟩ _ rfl rfl
    (lineNumberRule_of_prev_ne _ _ (by simp))
  have s11 := NextToken_stateAt_rule lookup ('\n' :: "10 X=1\n20 Y=2".data) 14 15
    ⟨TokenType.INT, "2"⟩ ⟨TokenType.EOF, ""⟩ ⟨TokenType.EOF, ""⟩ _ rfl rfl
    (lineNumberRule_of_ne _ _ (by simp))
  simp only [nextTokens, stateAt_New, s1, s2, s3, s4, s5, s6, s7, s8, s9, s10, s11,
    Option.map_some']

/-- The tokens of the line `10 LET X = 5`, whatever the keyword table. -/
theorem nextTokens_let (lookup : String → TokenType) :
    (nextTokens lookup 6 (New "10 LET X = 5")).map Prod.fst =
      some [⟨TokenType.NEWLINE, "N"⟩, ⟨TokenType.LINENO, "10"⟩, ⟨lookup "LET", "LET"⟩,
            lineNumberRule ⟨lookup "LET", "LET"⟩ ⟨lookup "X", "X"⟩,
            ⟨TokenType.ASSIGN, "="⟩, ⟨TokenType.INT, "5"⟩] := by
  have s1 := NextToken_stateAt_rule lookup ('\n' :: "10 LET X = 5".data) 0 1
    ⟨TokenType.UNSET, ""⟩ ⟨TokenType.NEWLINE, "N"⟩ ⟨TokenType.NEWLINE, "N"⟩ _ rfl rfl
    (lineNumberRule_of_ne _ _ (by simp))
  have s2 := NextToken_stateAt_rule lookup ('\n' :: "10 LET X = 5".data) 1 3
    ⟨TokenType.NEWLINE, "N"⟩ ⟨TokenType.INT, "10"⟩ ⟨TokenType.LINENO, "10"⟩ _ rfl rfl
    (lineNumberRule_after_NEWLINE _ _)
  have s3 := NextToken_stateAt_rule lookup ('\n' :: "10 LET X = 5".data) 3 7
    ⟨TokenType.LINENO, "10"⟩ ⟨lookup "LET", "LET"⟩ ⟨lookup "LET", "LET"⟩ _ rfl rfl
    (lineNumberRule_of_prev_ne _ _ (by simp))
  have s4 := NextToken_stateAt_rule lookup ('\n' :: "10 LET X = 5".data) 7 9
    ⟨lookup "LET", "LET"⟩ ⟨lookup "X", "X"⟩ _ _ rfl rfl rfl
  have s5 := NextToken_stateAt_rule lookup ('\n' :: "10 LET X = 5".data) 9 11
    (lineNumberRule ⟨lookup "LET", "LET"⟩ ⟨lookup "X", "X"⟩) ⟨TokenType.ASSIGN, "="⟩
    ⟨TokenType.ASSIGN, "="⟩ _ rfl rfl (lineNumberRule_of_ne _ _ (by simp))
  have s6 := NextToken_stateAt_rule lookup ('\n' :: "10 LET X = 5".data) 11 13
    ⟨TokenType.ASSIGN, "="⟩ ⟨TokenType.INT, "5"⟩ ⟨TokenType.INT, "5"⟩ _ rfl rfl
    (lineNumberRule_of_prev_ne _ _ (by simp))
  simp only [nextTokens, stateAt_New, s1, s2, s3, s4, s5, s6, Option.map_some']

/-- C3: line numbers are decided by the position in the token stream. In the
tokens returned by successive calls on `New input`, no INT immediately follows
a NEWLINE; and when the keyword table never yields LINENO, the first token is
not a LINENO and every LINENO immediately follows a NEWLINE. For the program
`10 X=1` / `20 Y=2` the token after the second NEWLINE is LINENO `20` while `1`
and `2` are INT; for `10 LET X = 5` the `5` after `=` is INT. -/
theorem lineNumber_by_position (lookup : String → TokenType) :
    (∀ (input : String) (n : Nat) (toks : List Token),
      (nextTokens lookup n (New input)).map Prod.fst = some toks →
      (∀ i t t2, toks[i]? = some t → toks[i + 1]? = some t2 →
        t.Kind = TokenType.NEWLINE → t2.Kind ≠ TokenType.INT) ∧
      ((∀ s, lookup s ≠ TokenType.LINENO) →
        (∀ t, toks[0]? = some t → t.Kind ≠ TokenType.LINENO) ∧
        ∀ i t t2, toks[i]? = some t → toks[i + 1]? = some t2 →
          t2.Kind = TokenType.LINENO → t.Kind = TokenType.NEWLINE)) ∧
    (nextTokens lookup 11 (New "10 X=1\n20 Y=2")).map Prod.fst =
      some [⟨TokenType.NEWLINE, "N"⟩, ⟨TokenType.LINENO, "10"⟩, ⟨lookup "X", "X"⟩,
            ⟨TokenType.ASSIGN, "="⟩, ⟨TokenType.INT, "1"⟩, ⟨TokenType.NEWLINE, "N"⟩,
            ⟨TokenType.LINENO, "20"⟩, ⟨lookup "Y", "Y"⟩, ⟨TokenType.ASSIGN, "="⟩,
            ⟨TokenType.INT, "2"⟩, ⟨TokenType.EOF, ""⟩] ∧
    (nextTokens lookup 6 (New "10 LET X = 5")).map Prod.fst =
      some [⟨TokenType.NEWLINE, "N"⟩, ⟨TokenType.LINENO, "10"⟩, ⟨lookup "LET", "LET"⟩,
            lineNumberRule ⟨lookup "LET", "LET"⟩ ⟨lookup "X", "X"⟩,
            ⟨TokenType.ASSIGN, "="⟩, ⟨TokenType.INT, "5"⟩] := by
  refine ⟨?_, nextTokens_twoLines lookup, nextTokens_let lookup⟩
  intro input n toks h
  obtain ⟨⟨toks2, l⟩, hrun, hm⟩ := Option.map_eq_some.1 h
  simp only at hm
  subst hm
  clear h
  have h := hrun
  refine ⟨?_, fun hl => ⟨?_, ?_⟩⟩
  · intro i t t2 h1 h2
    exact (nextTokens_adjacent lookup n _ _ _ h (i + 1) t t2 (by simpa using h1)
      (by simpa using h2)).1
  · intro t h0
    cases n with
    | zero =>
      simp only [nextTokens, Option.some.injEq, Prod.mk.injEq] at h
      obtain ⟨rfl, -⟩ := h
      simp at h0
    | succ n =>
      obtain ⟨tok, l1, rest, hn, -, rfl⟩ := (nextTokens_succ _ _ _ _ _).1 h
      rw [NextToken_New] at hn
      simp only [Option.some.injEq, Prod.mk.injEq] at hn
      simp only [List.getElem?_cons_zero, Option.some.injEq] at h0
      rw [← h0, ← hn.1]
      simp
  · intro i t t2 h1 h2 hk
    rcases (nextTokens_adjacent lookup n _ _ _ h (i + 1) t t2 (by simpa using h1)
      (by simpa using h2)).2 hk with h3 | ⟨s, hs⟩
    · exact h3
    · exact absurd hs (hl s)

theorem lineNumber_by_position_witness :
    (nextTokens identLookup 11 (New "10 X=1\n20 Y=2")).map Prod.fst = some twoLineTokens ∧
    ((∀ i t t2, twoLineTokens[i]? = some t → twoLineTokens[i + 1]? = some t2 →
      t.Kind = TokenType.NEWLINE → t2.Kind ≠ TokenType.INT) ∧
    ((∀ s, identLookup s ≠ TokenType.LINENO) →
      (∀ t, twoLineTokens[0]? = some t → t.Kind ≠ TokenType.LINENO) ∧
      ∀ i t t2, twoLineTokens[i]? = some t → twoLineTokens[i + 1]? = some t2 →
        t2.Kind = TokenType.LINENO → t.Kind = TokenType.NEWLINE)) :=
  ⟨by decide,
    (lineNumber_by_position identLookup).1 "10 X=1\n20 Y=2" 11 twoLineTokens (by decide)⟩

/-! ## The first token and the invariants of the cursor -/

/-- C18: for every input, the empty one included, the first token `NextToken`
returns on `New input` is NEWLINE with text `N`, read from the newline `New`
prepends; the call leaves the cursor on index 1 of the buffer, the first
character of the input itself (the sentinel when the input is empty), so the
first token of the text of the user is the second one returned. -/
theorem first_token_newline (lookup : String → TokenType) (input : String) :
    (New input).ch = '\n' ∧ (New input).position = 0 ∧
    (New input).characters = '\n' :: input.data ∧
    ∃ l, NextToken lookup (New input) = some (⟨TokenType.NEWLINE, "N"⟩, l) ∧
      l.position = 1 ∧ l.readPosition = 2 ∧ l.ch = input.data.headD NUL ∧
      l.characters.drop l.position = input.data ∧
      l.prevToken = ⟨TokenType.NEWLINE, "N"⟩ := by
  refine ⟨by rw [New_eq], by rw [New_eq], by rw [New_eq], _, NextToken_New lookup input,
    rfl, rfl, ?_, rfl, rfl⟩
  show charAt ('\n' :: input.data) 1 = input.data.headD NUL
  rw [charAt_eq_headD]; rfl

/-- C15: the cursor invariant. After `New input`, after every `readChar` and
after every call of `NextToken`, `readPosition = position + 1`; no operation
modifies the buffer, which stays the newline followed by the characters of the
input. -/
theorem cursor_invariant (lookup : String → TokenType) (input : String) :
    ((New input).readPosition = (New input).position + 1 ∧
      (New input).characters = '\n' :: input.data) ∧
    (∀ l, (readChar l).readPosition = (readChar l).position + 1 ∧
      (readChar l).characters = l.characters) ∧
    (∀ l tok l2, NextToken lookup l = some (tok, l2) →
      l2.readPosition = l2.position + 1 ∧ l2.characters = l.characters) ∧
    (∀ n toks l, nextTokens lookup n (New input) = some (toks, l) →
      l.readPosition = l.position + 1 ∧ l.characters = '\n' :: input.data) ∧
    (∀ l, (skipWhitespace l).characters = l.characters ∧
      (readNumber l).2.characters = l.characters ∧
      (readIdentifier l).2.characters = l.characters ∧
      ∀ s l2, readString l = some (s, l2) → l2.characters = l.characters) := by
  refine ⟨⟨by rw [New_eq], by rw [New_eq]⟩, fun l => ⟨by simp, by simp⟩, ?_, ?_, ?_⟩
  · intro l tok l2 h
    have hf := NextToken_frame _ _ _ _ h
    exact ⟨hf.2.2.1, hf.1⟩
  · intro n toks l h
    obtain ⟨hw, hc, -⟩ := nextTokens_reach _ _ _ _ _ h (WellFormed_New input)
    exact ⟨hw.1, by rw [hc, New_eq]⟩
  · intro l
    refine ⟨(skipWhitespace_frame l).1, (readNumber_spec l).2.1, (readIdentifier_spec l).2.1, ?_⟩
    intro s l2 h
    exact (readStringLoop_frame _ _ _ _ _ h).1

/-- C14, as stated, fails: on the input made of the sentinel character alone,
the first call leaves the cursor on index 1 of a buffer of length 2, inside the
buffer, with the sentinel as current character. -/
theorem sentinel_invariant_counterexample :
    (NextToken identLookup (New (String.mk [NUL]))).map Prod.snd =
      some { position := 1, readPosition := 2, ch := NUL, characters := ['\n', NUL],
             prevToken := ⟨TokenType.NEWLINE, "N"⟩ } ∧
    ¬ (['\n', NUL].length ≤ 1) := by
  decide

/-- C14, amended: after `New input` and after every call of `NextToken`, the
current character is the sentinel whenever the cursor is at or past the end of
the buffer, for every input; and for every input that does not hold the
sentinel character, the current character is the sentinel if and only if the
cursor is at or past the end of the buffer. -/
theorem sentinel_invariant (lookup : String → TokenType) (input : String) (n : Nat)
    (toks : List Token) (l : Tokenizer)
    (h : nextTokens lookup n (New input) = some (toks, l)) :
    (l.characters.length ≤ l.position → l.ch = NUL) ∧
    (NUL ∉ input.data → (l.ch = NUL ↔ l.characters.length ≤ l.position)) := by
  obtain ⟨hw, hc, -⟩ := nextTokens_reach _ _ _ _ _ h (WellFormed_New input)
  refine ⟨wellFormed_ch_of_ge l hw, fun hnul => ⟨?_, wellFormed_ch_of_ge l hw⟩⟩
  intro hch
  by_contra hcon
  have hm := charAt_mem_of_lt (Nat.lt_of_not_le hcon)
  rw [← hw.2, hch, hc] at hm
  exact NUL_not_mem_New input hnul hm

theorem sentinel_invariant_witness :
    nextTokens identLookup 3 (New "A 1") =
      some ([⟨TokenType.NEWLINE, "N"⟩, ⟨TokenType.IDENT, "A"⟩, ⟨TokenType.INT, "1"⟩],
        stateAt ['\n', 'A', ' ', '1'] 4 ⟨TokenType.INT, "1"⟩) ∧
    NUL ∉ "A 1".data ∧
    ((stateAt ['\n', 'A', ' ', '1'] 4 ⟨TokenType.INT, "1"⟩).ch = NUL ↔
      (stateAt ['\n', 'A', ' ', '1'] 4 ⟨TokenType.INT, "1"⟩).characters.length ≤
        (stateAt ['\n', 'A', ' ', '1'] 4 ⟨TokenType.INT, "1"⟩).position) :=
  ⟨by decide, by decide,
    (sentinel_invariant identLookup "A 1" 3
      [⟨TokenType.NEWLINE, "N"⟩, ⟨TokenType.IDENT, "A"⟩, ⟨TokenType.INT, "1"⟩]
      (stateAt ['\n', 'A', ' ', '1'] 4 ⟨TokenType.INT, "1"⟩) (by decide)).2 (by decide)⟩

/-! ## Operators and punctuation -/

theorem skipWhitespace_aligned (l : Tokenizer) (h : l.readPosition = l.position + 1) :
    (skipWhitespace l).readPosition = (skipWhitespace l).position + 1 :=
  (skipWhitespace_frame l).2.2.2 h

/-- `NextToken` when the switch returns a token that is not an INT. -/
theorem NextToken_of_dispatch_ne (lookup : String → TokenType) (l : Tokenizer) (tok : Token)
    (l2 : Tokenizer) (h : dispatch lookup (skipWhitespace l) = some (tok, l2))
    (hk : tok.Kind ≠ TokenType.INT) :
    NextToken lookup l = some (tok, { readChar l2 with prevToken := tok }) := by
  rw [NextToken_of_dispatch lookup l tok l2 h, lineNumberRule_of_ne _ _ hk]

/-- C16: in every state (with `readPosition = position + 1`) whose current
character, white space skipped, is one of `= , + - / % * ( )`, `NextToken`
returns ASSIGN, COMMA, PLUS, MINUS, SLASH, MOD, ASTERISK, LBRACKET, RBRACKET
respectively, with that one character as text, and leaves the cursor exactly one
position past it, on the character that follows, whatever it is. -/
theorem single_character_token (lookup : String → TokenType) (l : Tokenizer) (k : TokenType)
    (hal : l.readPosition = l.position + 1)
    (hk : ((skipWhitespace l).ch, k) ∈
      [('=', TokenType.ASSIGN), (',', TokenType.COMMA), ('+', TokenType.PLUS),
       ('-', TokenType.MINUS), ('/', TokenType.SLASH), ('%', TokenType.MOD),
       ('*', TokenType.ASTERISK), ('(', TokenType.LBRACKET), (')', TokenType.RBRACKET)]) :
    ∃ l2, NextToken lookup l = some (⟨k, String.singleton (skipWhitespace l).ch⟩, l2) ∧
      l2.position = (skipWhitespace l).position + 1 ∧
      l2.readPosition = l2.position + 1 ∧
      l2.ch = charAt l.characters ((skipWhitespace l).position + 1) ∧
      l2.characters = l.characters ∧
      l2.prevToken = ⟨k, String.singleton (skipWhitespace l).ch⟩ := by
  have hd : dispatch lookup (skipWhitespace l) =
      some (⟨k, String.singleton (skipWhitespace l).ch⟩, skipWhitespace l) ∧
      k ≠ TokenType.INT := by
    simp only [List.mem_cons, Prod.mk.injEq, List.mem_singleton, List.not_mem_nil, or_false]
      at hk
    rcases hk with ⟨h, rfl⟩ | ⟨h, rfl⟩ | ⟨h, rfl⟩ | ⟨h, rfl⟩ | ⟨h, rfl⟩ | ⟨h, rfl⟩ | ⟨h, rfl⟩ |
      ⟨h, rfl⟩ | ⟨h, rfl⟩ <;> exact ⟨by simp [dispatch, h, newToken], by simp⟩
  have ha := skipWhitespace_aligned l hal
  have hc := (skipWhitespace_frame l).1
  refine ⟨_, NextToken_of_dispatch_ne lookup l _ _ hd.1 hd.2, ?_, ?_, ?_, ?_, rfl⟩
  · simp [ha]
  · simp
  · simp [ha, hc]
  · simp [hc]

theorem single_character_token_witness :
    (stateAt ['\n', ' ', '%', '%'] 1 ⟨TokenType.NEWLINE, "N"⟩).readPosition =
      (stateAt ['\n', ' ', '%', '%'] 1 ⟨TokenType.NEWLINE, "N"⟩).position + 1 ∧
    ∃ l2, NextToken identLookup (stateAt ['\n', ' ', '%', '%'] 1 ⟨TokenType.NEWLINE, "N"⟩) =
        some (⟨TokenType.MOD, "%"⟩, l2) ∧
      l2.position = 2 + 1 ∧ l2.readPosition = l2.position + 1 ∧ l2.ch = '%' ∧
      l2.characters = ['\n', ' ', '%', '%'] ∧ l2.prevToken = ⟨TokenType.MOD, "%"⟩ :=
  ⟨rfl, single_character_token identLookup
    (stateAt ['\n', ' ', '%', '%'] 1 ⟨TokenType.NEWLINE, "N"⟩) TokenType.MOD rfl (by decide)⟩

theorem singleton_append_singleton (a b : Char) :
    String.singleton a ++ String.singleton b = String.mk [a, b] := by
  apply String.ext; simp [String.singleton]

/-- C11: the two-character operators are read greedily. In every state (with
`readPosition = position + 1`) whose current character, white space skipped, is
`<`, `NextToken` returns NOT_EQUALS `<>` when the next character is `>`,
LT_EQUALS `<=` when it is `=`, and LT `<` otherwise; on `>` it returns GT_EQUALS
`>=` when the next character is `=` and GT `>` otherwise; the cursor advances by
two in the two-character cases and by one otherwise. The inputs `<>`, `<=` and
`>=` each yield one operator token between the NEWLINE of the prefixed newline
and EOF. -/
theorem two_character_operators (lookup : String → TokenType) :
    (∀ l : Tokenizer, l.readPosition = l.position + 1 → (skipWhitespace l).ch = '<' →
      (peekChar (skipWhitespace l) = '>' →
        ∃ l2, NextToken lookup l = some (⟨TokenType.NOT_EQUALS, "<>"⟩, l2) ∧
          l2.position = (skipWhitespace l).position + 2) ∧
      (peekChar (skipWhitespace l) = '=' →
        ∃ l2, NextToken lookup l = some (⟨TokenType.LT_EQUALS, "<="⟩, l2) ∧
          l2.position = (skipWhitespace l).position + 2) ∧
      (peekChar (skipWhitespace l) ≠ '>' → peekChar (skipWhitespace l) ≠ '=' →
        ∃ l2, NextToken lookup l = some (⟨TokenType.LT, "<"⟩, l2) ∧
          l2.position = (skipWhitespace l).position + 1)) ∧
    (∀ l : Tokenizer, l.readPosition = l.position + 1 → (skipWhitespace l).ch = '>' →
      (peekChar (skipWhitespace l) = '=' →
        ∃ l2, NextToken lookup l = some (⟨TokenType.GT_EQUALS, ">="⟩, l2) ∧
          l2.position = (skipWhitespace l).position + 2) ∧
      (peekChar (skipWhitespace l) ≠ '=' →
        ∃ l2, NextToken lookup l = some (⟨TokenType.GT, ">"⟩, l2) ∧
          l2.position = (skipWhitespace l).position + 1)) ∧
    (nextTokens lookup 3 (New "<>")).map Prod.fst =
      some [⟨TokenType.NEWLINE, "N"⟩, ⟨TokenType.NOT_EQUALS, "<>"⟩, ⟨TokenType.EOF, ""⟩] ∧
    (nextTokens lookup 3 (New "<=")).map Prod.fst =
      some [⟨TokenType.NEWLINE, "N"⟩, ⟨TokenType.LT_EQUALS, "<="⟩, ⟨TokenType.EOF, ""⟩] ∧
    (nextTokens lookup 3 (New ">=")).map Prod.fst =
      some [⟨TokenType.NEWLINE, "N"⟩, ⟨TokenType.GT_EQUALS, ">="⟩, ⟨TokenType.EOF, ""⟩] ∧
    (nextTokens lookup 3 (New "<")).map Prod.fst =
      some [⟨TokenType.NEWLINE, "N"⟩, ⟨TokenType.LT, "<"⟩, ⟨TokenType.EOF, ""⟩] := by
  refine ⟨?_, ?_, rfl, rfl, rfl, rfl⟩
  · intro l hal hc
    have ha := skipWhitespace_aligned l hal
    refine ⟨fun hp => ?_, fun hp => ?_, fun hp1 hp2 => ?_⟩
    · have hd : dispatch lookup (skipWhitespace l) =
          some (⟨TokenType.NOT_EQUALS, "<>"⟩, readChar (skipWhitespace l)) := by
        have hr : (readChar (skipWhitespace l)).ch = '>' := by
          rw [readChar_ch, ← peekChar_eq]; exact hp
        simp only [dispatch, hc, hp, hr]
        rfl
      exact ⟨_, NextToken_of_dispatch_ne lookup l _ _ hd (by simp), by simp [ha]⟩
    · have hd : dispatch lookup (skipWhitespace l) =
          some (⟨TokenType.LT_EQUALS, "<="⟩, readChar (skipWhitespace l)) := by
        have hr : (readChar (skipWhitespace l)).ch = '=' := by
          rw [readChar_ch, ← peekChar_eq]; exact hp
        simp only [dispatch, hc, hp, hr]
        rfl
      exact ⟨_, NextToken_of_dispatch_ne lookup l _ _ hd (by simp), by simp [ha]⟩
    · have hd : dispatch lookup (skipWhitespace l) =
          some (⟨TokenType.LT, "<"⟩, skipWhitespace l) := by
        simp only [dispatch, hc, if_neg hp1, if_neg hp2]
        rfl
      exact ⟨_, NextToken_of_dispatch_ne lookup l _ _ hd (by simp), by simp [ha]⟩
  · intro l hal hc
    have ha := skipWhitespace_aligned l hal
    refine ⟨fun hp => ?_, fun hp => ?_⟩
    · have hd : dispatch lookup (skipWhitespace l) =
          some (⟨TokenType.GT_EQUALS, ">="⟩, readChar (skipWhitespace l)) := by
        have hr : (readChar (skipWhitespace l)).ch = '=' := by
          rw [readChar_ch, ← peekChar_eq]; exact hp
        simp only [dispatch, hc, hp, hr]
        rfl
      exact ⟨_, NextToken_of_dispatch_ne lookup l _ _ hd (by simp), by simp [ha]⟩
    · have hd : dispatch lookup (skipWhitespace l) =
          some (⟨TokenType.GT, ">"⟩, skipWhitespace l) := by
        simp only [dispatch, hc, if_neg hp]
        rfl
      exact ⟨_, NextToken_of_dispatch_ne lookup l _ _ hd (by simp), by simp [ha]⟩

theorem two_character_operators_witness :
    (stateAt ['\n', ' ', '<', '>', '1'] 1 ⟨TokenType.NEWLINE, "N"⟩).readPosition =
      (stateAt ['\n', ' ', '<', '>', '1'] 1 ⟨TokenType.NEWLINE, "N"⟩).position + 1 ∧
    (skipWhitespace (stateAt ['\n', ' ', '<', '>', '1'] 1 ⟨TokenType.NEWLINE, "N"⟩)).ch = '<' ∧
    peekChar (skipWhitespace (stateAt ['\n', ' ', '<', '>', '1'] 1 ⟨TokenType.NEWLINE, "N"⟩)) =
      '>' ∧
    ∃ l2, NextToken identLookup (stateAt ['\n', ' ', '<', '>', '1'] 1 ⟨TokenType.NEWLINE, "N"⟩) =
        some (⟨TokenType.NOT_EQUALS, "<>"⟩, l2) ∧
      l2.position = 2 + 2 :=
  ⟨rfl, by decide, by decide,
    ((two_character_operators identLookup).1
      (stateAt ['\n', ' ', '<', '>', '1'] 1 ⟨TokenType.NEWLINE, "N"⟩) rfl (by decide)).1
      (by decide)⟩

/-! ## Lexemes of numbers and of the catch-all branch -/

theorem drop_length_takeWhile (p : Char → Bool) (xs : List Char) :
    xs.drop (xs.takeWhile p).length = xs.dropWhile p := by
  induction xs with
  | nil => rfl
  | cons x xs ih =>
    by_cases hx : p x = true
    · rw [List.takeWhile_cons_of_pos hx, List.dropWhile_cons_of_pos hx]
      simpa using ih
    · rw [List.takeWhile_cons_of_neg hx, List.dropWhile_cons_of_neg hx]
      rfl

theorem drop_add_run (p : Char → Bool) (cs : List Char) (i : Nat) :
    cs.drop (i + ((cs.drop i).takeWhile p).length) = (cs.drop i).dropWhile p := by
  rw [← List.drop_drop, drop_length_takeWhile]

theorem drop_eq_run_append (p : Char → Bool) (cs : List Char) (i : Nat) :
    cs.drop i = (cs.drop i).takeWhile p ++ cs.drop (i + ((cs.drop i).takeWhile p).length) := by
  rw [drop_add_run, List.takeWhile_append_dropWhile]

/-- The character that follows a maximal run does not satisfy the predicate. -/
theorem charAt_after_run (p : Char → Bool) (hp : p NUL = false) (cs : List Char) (i : Nat) :
    p (charAt cs (i + ((cs.drop i).takeWhile p).length)) = false := by
  rw [charAt_eq_headD, drop_add_run]
  cases h : (cs.drop i).dropWhile p with
  | nil => exact hp
  | cons c r =>
    exact dropWhile_head p (cs.drop i) c (by rw [h]; rfl)

/-- In a well-formed state on a character of the buffer, the characters from
the cursor on are the current one and those from `readPosition` on. -/
theorem drop_position (l : Tokenizer) (hw : WellFormed l) (hc : l.ch ≠ NUL) :
    l.characters.drop l.position = l.ch :: l.characters.drop l.readPosition := by
  have hlt : l.position < l.characters.length := by
    by_contra hcon
    exact hc (wellFormed_ch_of_ge l hw (Nat.le_of_not_lt hcon))
  rw [drop_eq_charAt_cons hlt, ← hw.2, hw.1]

theorem isDigit_ne_NUL {c : Char} (h : isDigit c = true) : c ≠ NUL := by
  intro hc; rw [hc] at h; revert h; decide

/-- The number sub-scan from a well-formed state on a digit. -/
theorem NextToken_number (lookup : String → TokenType) (l : Tokenizer) (hw : WellFormed l)
    (hd : isDigit (skipWhitespace l).ch = true) :
    ∃ tok l2, NextToken lookup l = some (tok, l2) ∧
      (tok.Kind = TokenType.INT ∨ tok.Kind = TokenType.LINENO) ∧
      tok.Literal = String.mk
        (((skipWhitespace l).characters.drop (skipWhitespace l).position).takeWhile isDigit) ∧
      l2.position = (skipWhitespace l).position + tok.Literal.length ∧
      l2.ch = charAt l.characters l2.position ∧
      isDigit l2.ch = false ∧
      l.characters.drop (skipWhitespace l).position =
        tok.Literal.data ++ l.characters.drop l2.position := by
  have hs := skipWhitespace_wellFormed l hw
  have hc := (skipWhitespace_frame l).1
  have hdp := drop_position _ hs (isDigit_ne_NUL hd)
  have hrun : ((skipWhitespace l).characters.drop (skipWhitespace l).position).takeWhile isDigit =
      (skipWhitespace l).ch :: runFrom isDigit (skipWhitespace l) := by
    rw [hdp, List.takeWhile_cons_of_pos hd]; rfl
  have hsp := readNumber_spec (skipWhitespace l)
  have hpos : (readNumber (skipWhitespace l)).2.readPosition =
      (skipWhitespace l).position +
        ((skipWhitespace l).ch :: runFrom isDigit (skipWhitespace l)).length := by
    rw [hsp.2.2.2.1, hs.1]; simp; omega
  refine ⟨_, _, NextToken_digit lookup l hd, ?_, ?_, ?_, ?_, ?_, ?_⟩
  · by_cases hn : l.prevToken.Kind = TokenType.NEWLINE <;> simp [hn]
  · simp only [hrun]
  · simpa [String.length] using hpos
  · simp [hsp.2.1, hc]
  · simp only [readChar_ch, hsp.2.1, hsp.2.2.2.1]
    exact charAt_after_run isDigit isDigit_NUL _ _
  · simp only [readChar_position, hsp.2.2.2.1]
    rw [← hc, hdp]
    simp only [List.cons_append, List.cons.injEq, true_and]
    exact drop_eq_run_append isDigit _ _

/-- The tokens of `123abc`, whatever the keyword table. -/
theorem nextTokens_123abc (lookup : String → TokenType) :
    (nextTokens lookup 4 (New "123abc")).map Prod.fst =
      some [⟨TokenType.NEWLINE, "N"⟩, ⟨TokenType.LINENO, "123"⟩, ⟨lookup "abc", "abc"⟩,
            ⟨TokenType.EOF, ""⟩] := by
  have s1 := NextToken_stateAt_rule lookup ('\n' :: "123abc".data) 0 1
    ⟨TokenType.UNSET, ""⟩ ⟨TokenType.NEWLINE, "N"⟩ ⟨TokenType.NEWLINE, "N"⟩ _ rfl rfl
    (lineNumberRule_of_ne _ _ (by simp))
  have s2 := NextToken_stateAt_rule lookup ('\n' :: "123abc".data) 1 4
    ⟨TokenType.NEWLINE, "N"⟩ ⟨TokenType.INT, "123"⟩ ⟨TokenType.LINENO, "123"⟩ _ rfl rfl
    (lineNumberRule_after_NEWLINE _ _)
  have s3 := NextToken_stateAt_rule lookup ('\n' :: "123abc".data) 4 7
    ⟨TokenType.LINENO, "123"⟩ ⟨lookup "abc", "abc"⟩ ⟨lookup "abc", "abc"⟩ _ rfl rfl
    (lineNumberRule_of_prev_ne _ _ (by simp))
  have s4 := NextToken_stateAt_rule lookup ('\n' :: "123abc".data) 7 8
    ⟨lookup "abc", "abc"⟩ ⟨TokenType.EOF, ""⟩ ⟨TokenType.EOF, ""⟩ _ rfl rfl
    (lineNumberRule_of_ne _ _ (by simp))
  simp only [nextTokens, stateAt_New, s1, s2, s3, s4, Option.map_some']

/-- The tokens of `-007.5`, whatever the keyword table: the sign and the point
are tokens of their own and the leading zeros are kept. -/
theorem nextTokens_007 (lookup : String → TokenType) :
    (nextTokens lookup 5 (New "-007.5")).map Prod.fst =
      some [⟨TokenType.NEWLINE, "N"⟩, ⟨TokenType.MINUS, "-"⟩, ⟨TokenType.INT, "007"⟩,
            ⟨lookup ".", "."⟩, lineNumberRule ⟨lookup ".", "."⟩ ⟨TokenType.INT, "5"⟩] := by
  have s1 := NextToken_stateAt_rule lookup ('\n' :: "-007.5".data) 0 1
    ⟨TokenType.UNSET, ""⟩ ⟨TokenType.NEWLINE, "N"⟩ ⟨TokenType.NEWLINE, "N"⟩ _ rfl rfl
    (lineNumberRule_of_ne _ _ (by simp))
  have s2 := NextToken_stateAt_rule lookup ('\n' :: "-007.5".data) 1 2
    ⟨TokenType.NEWLINE, "N"⟩ ⟨TokenType.MINUS, "-"⟩ ⟨TokenType.MINUS, "-"⟩ _ rfl rfl
    (lineNumberRule_of_ne _ _ (by simp))
  have s3 := NextToken_stateAt_rule lookup ('\n' :: "-007.5".data) 2 5
    ⟨TokenType.MINUS, "-"⟩ ⟨TokenType.INT, "007"⟩ ⟨TokenType.INT, "007"⟩ _ rfl rfl
    (lineNumberRule_of_prev_ne _ _ (by simp))
  have s4 := NextToken_stateAt_rule lookup ('\n' :: "-007.5".data) 5 6
    ⟨TokenType.INT, "007"⟩ ⟨lookup ".", "."⟩ ⟨lookup ".", "."⟩ _ rfl rfl
    (lineNumberRule_of_prev_ne _ _ (by simp))
  have s5 := NextToken_stateAt_rule lookup ('\n' :: "-007.5".data) 6 7
    ⟨lookup ".", "."⟩ ⟨TokenType.INT, "5"⟩ _ _ rfl rfl rfl
  simp only [nextTokens, stateAt_New, s1, s2, s3, s4, s5, Option.map_some']

/-- C13: the number sub-scan. In every well-formed state whose current
character, white space skipped, is a decimal digit, the text of the token
returned is the maximal run of digits that starts at the cursor, verbatim, and
the cursor ends on the first character after that run, which is not a digit.
The input `123abc` gives the digits `123` and then the identifier `abc`; in
`-007.5` the sign and the point are not part of the number and the leading
zeros are kept. -/
theorem number_subscan (lookup : String → TokenType) :
    (∀ l : Tokenizer, WellFormed l → isDigit (skipWhitespace l).ch = true →
      ∃ tok l2, NextToken lookup l = some (tok, l2) ∧
        (tok.Kind = TokenType.INT ∨ tok.Kind = TokenType.LINENO) ∧
        tok.Literal = String.mk
          (((skipWhitespace l).characters.drop (skipWhitespace l).position).takeWhile isDigit) ∧
        l2.position = (skipWhitespace l).position + tok.Literal.length ∧
        l2.ch = charAt l.characters l2.position ∧
        isDigit l2.ch = false ∧
        l.characters.drop (skipWhitespace l).position =
          tok.Literal.data ++ l.characters.drop l2.position) ∧
    (nextTokens lookup 4 (New "123abc")).map Prod.fst =
      some [⟨TokenType.NEWLINE, "N"⟩, ⟨TokenType.LINENO, "123"⟩, ⟨lookup "abc", "abc"⟩,
            ⟨TokenType.EOF, ""⟩] ∧
    (nextTokens lookup 5 (New "-007.5")).map Prod.fst =
      some [⟨TokenType.NEWLINE, "N"⟩, ⟨TokenType.MINUS, "-"⟩, ⟨TokenType.INT, "007"⟩,
            ⟨lookup ".", "."⟩, lineNumberRule ⟨lookup ".", "."⟩ ⟨TokenType.INT, "5"⟩] :=
  ⟨NextToken_number lookup, nextTokens_123abc lookup, nextTokens_007 lookup⟩

theorem number_subscan_witness :
    WellFormed digitState ∧ isDigit (skipWhitespace digitState).ch = true ∧
    ∃ tok l2, NextToken identLookup digitState = some (tok, l2) ∧
      (tok.Kind = TokenType.INT ∨ tok.Kind = TokenType.LINENO) ∧
      tok.Literal = String.mk
        (((skipWhitespace digitState).characters.drop
          (skipWhitespace digitState).position).takeWhile isDigit) ∧
      l2.position = (skipWhitespace digitState).position + tok.Literal.length ∧
      l2.ch = charAt digitState.characters l2.position ∧
      isDigit l2.ch = false ∧
      digitState.characters.drop (skipWhitespace digitState).position =
        tok.Literal.data ++ digitState.characters.drop l2.position :=
  ⟨⟨rfl, rfl⟩, by decide, (number_subscan identLookup).1 digitState ⟨rfl, rfl⟩ (by decide)⟩

theorem isDispatched_NUL : isDispatched NUL = true := by decide

/-- The catch-all branch from a state with `readPosition = position + 1`. -/
theorem NextToken_catch_all (lookup : String → TokenType) (l : Tokenizer)
    (hal : l.readPosition = l.position + 1)
    (hd : isDispatched (skipWhitespace l).ch = false)
    (hg : isDigit (skipWhitespace l).ch = false) :
    ∃ tok l2, NextToken lookup l = some (tok, l2) ∧
      tok.Literal = String.mk ((skipWhitespace l).ch ::
        ((skipWhitespace l).characters.drop (skipWhitespace l).readPosition).takeWhile
          isIdentifier) ∧
      tok = lineNumberRule l.prevToken ⟨lookup tok.Literal, tok.Literal⟩ ∧
      (lookup tok.Literal ≠ TokenType.INT → tok.Kind = lookup tok.Literal) ∧
      tok.Literal ≠ "" ∧
      l2.position = (skipWhitespace l).position + tok.Literal.length ∧
      isIdentifier l2.ch = false := by
  have ha := skipWhitespace_aligned l hal
  have hsp := readIdentifier_spec (skipWhitespace l)
  refine ⟨_, _, NextToken_identifier lookup l hd hg, lineNumberRule_literal _ _, ?_, ?_, ?_, ?_, ?_⟩
  · rw [lineNumberRule_literal]
  · intro hk
    rw [lineNumberRule_literal] at hk
    rw [lineNumberRule_of_ne _ _ hk]
  · rw [lineNumberRule_literal]
    intro h
    have := congrArg String.data h
    simp at this
  · rw [lineNumberRule_literal]
    simp only [readChar_position, hsp.2.2.2.1, ha, String.length, runFrom, List.length_cons]
    omega
  · simp only [readChar_ch, hsp.2.1, hsp.2.2.2.1]
    exact charAt_after_run isIdentifier isIdentifier_NUL _ _

/-- C20: the catch-all branch takes its first character unconditionally. In
every state (with `readPosition = position + 1`) whose current character, white
space skipped, is not a digit and not one of the characters the switch
dispatches, such as `:`, `;`, `!`, a bracket or a brace, `NextToken` returns a
token whose text is that character followed by the maximal run of characters
satisfying `isIdentifier`, and whose kind is what the keyword table gives for
the text (the line-number rule turning an INT given after a NEWLINE into
LINENO); the text is not empty and the cursor advances by its length. -/
theorem catch_all_branch (lookup : String → TokenType) :
    (∀ l : Tokenizer, l.readPosition = l.position + 1 →
      isDispatched (skipWhitespace l).ch = false → isDigit (skipWhitespace l).ch = false →
      ∃ tok l2, NextToken lookup l = some (tok, l2) ∧
        tok.Literal = String.mk ((skipWhitespace l).ch ::
          ((skipWhitespace l).characters.drop (skipWhitespace l).readPosition).takeWhile
            isIdentifier) ∧
        tok = lineNumberRule l.prevToken ⟨lookup tok.Literal, tok.Literal⟩ ∧
        (lookup tok.Literal ≠ TokenType.INT → tok.Kind = lookup tok.Literal) ∧
        tok.Literal ≠ "" ∧
        l2.position = (skipWhitespace l).position + tok.Literal.length ∧
        isIdentifier l2.ch = false) ∧
    (∀ c ∈ [':', ';', '!', '[', ']', '\x7b', '\x7d'],
      isDispatched c = false ∧ isDigit c = false ∧ isWhitespace c = false ∧
        isIdentifier c = false) :=
  ⟨NextToken_catch_all lookup, by decide⟩

theorem catch_all_branch_witness :
    colonState.readPosition = colonState.position + 1 ∧
    isDispatched (skipWhitespace colonState).ch = false ∧
    isDigit (skipWhitespace colonState).ch = false ∧
    ∃ tok l2, NextToken identLookup colonState = some (tok, l2) ∧
      tok.Literal = String.mk ((skipWhitespace colonState).ch ::
        ((skipWhitespace colonState).characters.drop
          (skipWhitespace colonState).readPosition).takeWhile isIdentifier) ∧
      tok = lineNumberRule colonState.prevToken ⟨identLookup tok.Literal, tok.Literal⟩ ∧
      (identLookup tok.Literal ≠ TokenType.INT → tok.Kind = identLookup tok.Literal) ∧
      tok.Literal ≠ "" ∧
      l2.position = (skipWhitespace colonState).position + tok.Literal.length ∧
      isIdentifier l2.ch = false :=
  ⟨rfl, by decide, by decide,
    (catch_all_branch identLookup).1 colonState rfl (by decide) (by decide)⟩

/-! ## Escapes that are not recognised -/

/-- `NextToken` on a terminated string literal: the text is the reference
decoding of the body and the cursor ends one past the closing quote. -/
theorem NextToken_literal (lookup : String → TokenType) (l : Tokenizer)
    (pieces : List Piece) (rest : List Char)
    (hq : (skipWhitespace l).ch = '"')
    (hok : ∀ p ∈ pieces, p.ok = true)
    (hbuf : (skipWhitespace l).characters.drop (skipWhitespace l).readPosition =
      bodySource pieces ++ '"' :: rest) :
    ∃ l2, NextToken lookup l = some (⟨TokenType.STRING, String.mk (bodyValue pieces)⟩, l2) ∧
      l2.position = (skipWhitespace l).readPosition + (bodySource pieces).length + 1 ∧
      l2.ch = rest.headD NUL := by
  obtain ⟨l3, h3, hr⟩ := readStringLoop_pieces pieces hok rest (skipWhitespace l) ""
    (pieces.length + 1) hbuf (Nat.lt_succ_self _)
  have he : "" ++ String.mk (bodyValue pieces) = String.mk (bodyValue pieces) := by
    apply String.ext; simp
  rw [he] at h3
  have hd : dispatch lookup (skipWhitespace l) =
      some (⟨TokenType.STRING, String.mk (bodyValue pieces)⟩, l3) := by
    rw [dispatch_quote lookup _ hq, readString, readStringLoop_adequate _ _ _ _ h3]
  have hfr := readStringLoop_frame _ _ _ _ _ h3
  refine ⟨_, NextToken_of_dispatch_ne lookup l _ _ hd (by simp), by simp [hr], ?_⟩
  simp only [readChar_ch]
  rw [charAt_eq_headD, hfr.1, hr, Nat.add_assoc, ← List.drop_drop, hbuf]
  simp

theorem bodySource_append (a b : List Piece) : bodySource (a ++ b) = bodySource a ++ bodySource b := by
  simp [bodySource]

theorem bodyValue_append (a b : List Piece) : bodyValue (a ++ b) = bodyValue a ++ bodyValue b := by
  simp [bodyValue]

/-- C12: escapes that are not recognised pass through. For every character `c`
other than `n`, `r`, `t`, the quote and the backslash, in a terminated string
literal whose body holds a backslash followed by `c` (between the pieces `pre`
and `post`), the text of the STRING token holds the single character `c` at that
place, without the backslash, between the decodings of what precedes and of what
follows; the scan goes on to the closing quote. -/
theorem unrecognised_escape (lookup : String → TokenType) (l : Tokenizer)
    (pre post : List Piece) (c : Char) (rest : List Char)
    (hc : c ∉ ['n', 'r', 't', '"', '\\'])
    (hq : (skipWhitespace l).ch = '"')
    (hpre : ∀ p ∈ pre, p.ok = true) (hpost : ∀ p ∈ post, p.ok = true)
    (hbuf : (skipWhitespace l).characters.drop (skipWhitespace l).readPosition =
      bodySource pre ++ '\\' :: c :: (bodySource post ++ '"' :: rest)) :
    ∃ l2, NextToken lookup l =
        some (⟨TokenType.STRING, String.mk (bodyValue pre ++ c :: bodyValue post)⟩, l2) ∧
      l2.position = (skipWhitespace l).readPosition +
        ((bodySource pre).length + 2 + (bodySource post).length) + 1 ∧
      l2.ch = rest.headD NUL := by
  simp only [List.mem_cons, List.mem_singleton, List.not_mem_nil, or_false, not_or] at hc
  have hv : decodeEscape c = c := by
    simp [decodeEscape, hc.1, hc.2.1, hc.2.2.1]
  have hok : ∀ p ∈ pre ++ Piece.escape c :: post, p.ok = true := by
    intro p hp
    rcases List.mem_append.1 hp with h | h
    · exact hpre p h
    · rcases List.mem_cons.1 h with h | h
      · rw [h]; rfl
      · exact hpost p h
  have hsrc : bodySource (pre ++ Piece.escape c :: post) ++ '"' :: rest =
      bodySource pre ++ '\\' :: c :: (bodySource post ++ '"' :: rest) := by
    simp [bodySource, Piece.source]
  have hval : bodyValue (pre ++ Piece.escape c :: post) = bodyValue pre ++ c :: bodyValue post := by
    simp [bodyValue, Piece.value, hv]
  have hlen : (bodySource (pre ++ Piece.escape c :: post)).length =
      (bodySource pre).length + 2 + (bodySource post).length := by
    simp [bodySource, Piece.source]; omega
  obtain ⟨l2, h1, h2, h3⟩ := NextToken_literal lookup l (pre ++ Piece.escape c :: post) rest hq hok
    (by rw [hsrc]; exact hbuf)
  rw [hval] at h1
  rw [hlen] at h2
  exact ⟨l2, h1, h2, h3⟩

theorem unrecognised_escape_witness :
    'q' ∉ ['n', 'r', 't', '"', '\\'] ∧ (skipWhitespace escapeState).ch = '"' ∧
    (skipWhitespace escapeState).characters.drop (skipWhitespace escapeState).readPosition =
      bodySource [Piece.plain 'a'] ++ '\\' :: 'q' :: (bodySource [Piece.plain 'b'] ++ ['"']) ∧
    ∃ l2, NextToken identLookup escapeState = some (⟨TokenType.STRING, "aqb"⟩, l2) ∧
      l2.position = 2 + (1 + 2 + 1) + 1 ∧ l2.ch = NUL :=
  ⟨by decide, by decide, by decide,
    unrecognised_escape identLookup escapeState [Piece.plain 'a'] [Piece.plain 'b'] 'q' []
      (by decide) (by decide) (by decide) (by decide) (by decide)⟩

/-! ## States with the same view -/

theorem sameView_peek {l l2 : Tokenizer} (h : SameView l l2) : peekChar l = peekChar l2 := by
  rw [peekChar_eq, peekChar_eq, charAt_eq_headD, charAt_eq_headD, h.2.2]

theorem sameView_fuel {l l2 : Tokenizer} (h : SameView l l2) :
    l.characters.length - l.readPosition = l2.characters.length - l2.readPosition := by
  have := congrArg List.length h.2.2
  simpa using this

theorem sameView_readChar {l l2 : Tokenizer} (h : SameView l l2) :
    SameView (readChar l) (readChar l2) := by
  refine ⟨?_, ?_, ?_⟩
  · rw [readChar_ch, readChar_ch, ← peekChar_eq, ← peekChar_eq, (sameView_peek h)]
  · simp [h.2.1]
  · simp only [readChar_characters, readChar_readPosition]
    rw [← List.drop_drop, ← List.drop_drop, h.2.2]

theorem sameView_skipLoop {l l2 : Tokenizer} (h : SameView l l2) (n : Nat) :
    SameView (skipWhitespaceLoop n l) (skipWhitespaceLoop n l2) := by
  induction n generalizing l l2 with
  | zero => exact h
  | succ n ih =>
    simp only [skipWhitespaceLoop, ← h.1]
    split
    · exact ih (sameView_readChar h)
    · exact h

theorem sameView_skip {l l2 : Tokenizer} (h : SameView l l2) :
    SameView (skipWhitespace l) (skipWhitespace l2) := by
  unfold skipWhitespace
  rw [← (sameView_fuel h)]
  exact sameView_skipLoop h _

theorem sameView_scan {l l2 : Tokenizer} (h : SameView l l2) (p : Char → Bool) (n : Nat)
    (s : String) :
    (scanLoop p n l s).2 = (scanLoop p n l2 s).2 ∧
      SameView (scanLoop p n l s).1 (scanLoop p n l2 s).1 := by
  induction n generalizing l l2 s with
  | zero => exact ⟨rfl, h⟩
  | succ n ih =>
    simp only [scanLoop, ← (sameView_peek h), ← h.1]
    split
    · exact ih (sameView_readChar h) _
    · exact ⟨rfl, h⟩

theorem sameView_number {l l2 : Tokenizer} (h : SameView l l2) :
    (readNumber l).1 = (readNumber l2).1 ∧ SameView (readNumber l).2 (readNumber l2).2 := by
  simp only [readNumber, readNumberLoop_eq, ← (sameView_fuel h)]
  have := sameView_scan h isDigit (l.characters.length - l.readPosition) ""
  exact ⟨by rw [this.1, this.2.1], this.2⟩

theorem sameView_identifier {l l2 : Tokenizer} (h : SameView l l2) :
    (readIdentifier l).1 = (readIdentifier l2).1 ∧
      SameView (readIdentifier l).2 (readIdentifier l2).2 := by
  simp only [readIdentifier, readIdentifierLoop_eq, ← (sameView_fuel h)]
  have := sameView_scan h isIdentifier (l.characters.length - l.readPosition) ""
  exact ⟨by rw [this.1, this.2.1], this.2⟩

theorem sameView_unescape {l l2 : Tokenizer} (h : SameView l l2) :
    SameView (unescape l) (unescape l2) := by
  rw [unescape_eq, unescape_eq]
  exact ⟨by simp [h.1], h.2.1, h.2.2⟩

/-- Two results that are both absent, or hold the same value and states with
the same view. -/
theorem sameView_string {l l2 : Tokenizer} (h : SameView l l2) (n : Nat) (out : String) :
    (readStringLoop n l out = none ∧ readStringLoop n l2 out = none) ∨
    ∃ s a b, readStringLoop n l out = some (s, a) ∧ readStringLoop n l2 out = some (s, b) ∧
      SameView a b := by
  induction n generalizing l l2 out with
  | zero => left; exact ⟨rfl, rfl⟩
  | succ n ih =>
    have hr := sameView_readChar h
    simp only [readStringLoop, ← hr.1]
    by_cases hq : (readChar l).ch = '"'
    · right
      rw [if_pos hq, if_pos hq]
      exact ⟨_, _, _, rfl, rfl, hr⟩
    · rw [if_neg hq, if_neg hq]
      by_cases hb : (readChar l).ch = '\\'
      · rw [if_pos hb, if_pos hb]
        have h2 := sameView_unescape (sameView_readChar hr)
        rw [← h2.1]
        exact ih h2 _
      · rw [if_neg hb, if_neg hb, ← hr.1]
        exact ih hr _

theorem sameView_single (lookup : String → TokenType) {l l2 : Tokenizer} (h : SameView l l2)
    (k : TokenType) (c : Char)
    (h1 : dispatch lookup l = some (⟨k, String.singleton c⟩, l))
    (h2 : dispatch lookup l2 = some (⟨k, String.singleton c⟩, l2)) :
    (dispatch lookup l = none ∧ dispatch lookup l2 = none) ∨
    ∃ tok a b, dispatch lookup l = some (tok, a) ∧ dispatch lookup l2 = some (tok, b) ∧
      SameView a b :=
  Or.inr ⟨_, _, _, h1, h2, h⟩

/-- The switch cannot tell apart two states with the same view. -/
theorem sameView_dispatch (lookup : String → TokenType) {l l2 : Tokenizer} (h : SameView l l2) :
    (dispatch lookup l = none ∧ dispatch lookup l2 = none) ∨
    ∃ tok a b, dispatch lookup l = some (tok, a) ∧ dispatch lookup l2 = some (tok, b) ∧
      SameView a b := by
  have hch := h.1
  have hpk := sameView_peek h
  have hrc := sameView_readChar h
  by_cases hd : isDispatched l.ch = false
  · right
    rw [dispatch_default lookup l hd, dispatch_default lookup l2 (by rw [← hch]; exact hd), ← hch]
    by_cases hg : isDigit l.ch = true
    · rw [if_pos hg, if_pos hg, (sameView_number h).1]
      exact ⟨_, _, _, rfl, rfl, (sameView_number h).2⟩
    · rw [if_neg hg, if_neg hg, (sameView_identifier h).1]
      exact ⟨_, _, _, rfl, rfl, (sameView_identifier h).2⟩
  · rw [Bool.not_eq_false] at hd
    simp only [isDispatched, Bool.or_eq_true, beq_iff_eq] at hd
    rcases hd with ((((((((((((hc | hc) | hc) | hc) | hc) | hc) | hc) | hc) | hc) | hc) | hc) |
      hc) | hc) | hc
    · exact sameView_single lookup h TokenType.ASSIGN '='
        (by simp [dispatch, hc, newToken]) (by simp [dispatch, ← hch, hc, newToken])
    · exact sameView_single lookup h TokenType.COMMA ','
        (by simp [dispatch, hc, newToken]) (by simp [dispatch, ← hch, hc, newToken])
    · exact sameView_single lookup h TokenType.PLUS '+'
        (by simp [dispatch, hc, newToken]) (by simp [dispatch, ← hch, hc, newToken])
    · exact sameView_single lookup h TokenType.MINUS '-'
        (by simp [dispatch, hc, newToken]) (by simp [dispatch, ← hch, hc, newToken])
    · exact sameView_single lookup h TokenType.SLASH '/'
        (by simp [dispatch, hc, newToken]) (by simp [dispatch, ← hch, hc, newToken])
    · exact sameView_single lookup h TokenType.MOD '%'
        (by simp [dispatch, hc, newToken]) (by simp [dispatch, ← hch, hc, newToken])
    · exact sameView_single lookup h TokenType.ASTERISK '*'
        (by simp [dispatch, hc, newToken]) (by simp [dispatch, ← hch, hc, newToken])
    · exact sameView_single lookup h TokenType.LBRACKET '('
        (by simp [dispatch, hc, newToken]) (by simp [dispatch, ← hch, hc, newToken])
    · exact sameView_single lookup h TokenType.RBRACKET ')'
        (by simp [dispatch, hc, newToken]) (by simp [dispatch, ← hch, hc, newToken])
    · have hc2 : l2.ch = '<' := by rw [← hch]; exact hc
      by_cases p1 : peekChar l = '>'
      · have q1 : peekChar l2 = '>' := by rw [← hpk]; exact p1
        right
        refine ⟨⟨TokenType.NOT_EQUALS, String.singleton '<' ++ String.singleton (readChar l).ch⟩,
          readChar l, readChar l2, by simp [dispatch, hc, p1], ?_, hrc⟩
        rw [hrc.1]; simp [dispatch, hc2, q1]
      · have q1 : ¬ peekChar l2 = '>' := by rw [← hpk]; exact p1
        by_cases p2 : peekChar l = '='
        · have q2 : peekChar l2 = '=' := by rw [← hpk]; exact p2
          right
          refine ⟨⟨TokenType.LT_EQUALS, String.singleton '<' ++ String.singleton (readChar l).ch⟩,
            readChar l, readChar l2, by simp [dispatch, hc, p1, p2], ?_, hrc⟩
          rw [hrc.1]; simp [dispatch, hc2, q1, q2]
        · have q2 : ¬ peekChar l2 = '=' := by rw [← hpk]; exact p2
          exact sameView_single lookup h TokenType.LT '<'
            (by simp [dispatch, hc, p1, p2, newToken]) (by simp [dispatch, hc2, q1, q2, newToken])
    · have hc2 : l2.ch = '>' := by rw [← hch]; exact hc
      by_cases p2 : peekChar l = '='
      · have q2 : peekChar l2 = '=' := by rw [← hpk]; exact p2
        right
        refine ⟨⟨TokenType.GT_EQUALS, String.singleton '>' ++ String.singleton (readChar l).ch⟩,
          readChar l, readChar l2, by simp [dispatch, hc, p2], ?_, hrc⟩
        rw [hrc.1]; simp [dispatch, hc2, q2]
      · have q2 : ¬ peekChar l2 = '=' := by rw [← hpk]; exact p2
        exact sameView_single lookup h TokenType.GT '>'
          (by simp [dispatch, hc, p2, newToken]) (by simp [dispatch, hc2, q2, newToken])
    · have hc2 : l2.ch = '"' := by rw [← hch]; exact hc
      rw [dispatch_quote lookup l hc, dispatch_quote lookup l2 hc2, readString, readString,
        ← sameView_fuel h]
      rcases sameView_string h (l.characters.length - l.readPosition) "" with ⟨n1, n2⟩ |
        ⟨s, a, b, e1, e2, hab⟩
      · left; rw [n1, n2]; exact ⟨rfl, rfl⟩
      · right; rw [e1, e2]; exact ⟨_, _, _, rfl, rfl, hab⟩
    · exact sameView_single lookup h TokenType.NEWLINE 'N'
        (by simp [dispatch, hc, newToken]) (by simp [dispatch, ← hch, hc, newToken])
    · right
      exact ⟨⟨TokenType.EOF, ""⟩, l, l2, by simp [dispatch, hc, NUL_eq],
        by simp [dispatch, ← hch, hc, NUL_eq], h⟩

/-- `NextToken` cannot tell apart two states that have the same view once the
white space is skipped. -/
theorem sameView_NextToken (lookup : String → TokenType) {l l2 : Tokenizer}
    (h : SameView (skipWhitespace l) (skipWhitespace l2)) :
    (NextToken lookup l = none ∧ NextToken lookup l2 = none) ∨
    ∃ tok a b, NextToken lookup l = some (tok, a) ∧ NextToken lookup l2 = some (tok, b) ∧
      SameView a b := by
  have hp : l.prevToken = l2.prevToken := by
    rw [← (skipWhitespace_frame l).2.1, ← (skipWhitespace_frame l2).2.1]; exact h.2.1
  rcases sameView_dispatch lookup h with ⟨n1, n2⟩ | ⟨tok, a, b, e1, e2, hab⟩
  · left
    exact ⟨(NextToken_none_iff lookup l).2 n1, (NextToken_none_iff lookup l2).2 n2⟩
  · right
    have hr := sameView_readChar hab
    refine ⟨lineNumberRule l.prevToken tok,
      { readChar a with prevToken := lineNumberRule l.prevToken tok },
      { readChar b with prevToken := lineNumberRule l.prevToken tok },
      NextToken_of_dispatch lookup l _ _ e1, ?_, ⟨hr.1, rfl, hr.2.2⟩⟩
    rw [NextToken_of_dispatch lookup l2 _ _ e2, hp]

theorem sameView_nextTokens (lookup : String → TokenType) (n : Nat) {l l2 : Tokenizer}
    (h : SameView (skipWhitespace l) (skipWhitespace l2)) :
    (nextTokens lookup n l).map Prod.fst = (nextTokens lookup n l2).map Prod.fst := by
  induction n generalizing l l2 with
  | zero => rfl
  | succ n ih =>
    rcases sameView_NextToken lookup h with ⟨n1, n2⟩ | ⟨tok, a, b, e1, e2, hab⟩
    · simp only [nextTokens, n1, n2]
    · have := ih (sameView_skip hab)
      simp only [nextTokens, e1, e2]
      cases ha : nextTokens lookup n a with
      | none =>
        rw [ha] at this
        cases hb : nextTokens lookup n b with
        | none => rfl
        | some r => rw [hb] at this; cases this
      | some ra =>
        rw [ha] at this
        cases hb : nextTokens lookup n b with
        | none => rw [hb] at this; cases this
        | some rb =>
          rw [hb] at this
          simp only [Option.map_some', Option.some.injEq] at this ⊢
          rw [this]

/-! ## White space and newlines -/

theorem skipWhitespaceLoop_succ (n : Nat) (l : Tokenizer) (h : isWhitespace l.ch = true) :
    skipWhitespaceLoop (n + 1) l = skipWhitespaceLoop n (readChar l) := by
  rw [skipWhitespaceLoop, if_pos h]

theorem skipWhitespace_step (l : Tokenizer) (h : isWhitespace l.ch = true) :
    skipWhitespace l = skipWhitespace (readChar l) := by
  unfold skipWhitespace
  rw [skipWhitespaceLoop_succ _ l h, readChar_characters, readChar_readPosition]
  by_cases hlt : l.readPosition < l.characters.length
  · have : l.characters.length - l.readPosition = l.characters.length - (l.readPosition + 1) + 1 := by
      omega
    rw [this]
  · have h0 : l.characters.length - l.readPosition = 0 := by omega
    have h1 : l.characters.length - (l.readPosition + 1) + 1 = 1 := by omega
    have hn : isWhitespace (readChar l).ch = false := by
      rw [readChar_ch, charAt_of_ge (Nat.le_of_not_lt hlt)]; exact isWhitespace_NUL
    rw [h0, h1]
    simp only [skipWhitespaceLoop, hn]
    rfl

theorem wellFormed_sameView (l l2 : Tokenizer) (hw : WellFormed l) (hw2 : WellFormed l2)
    (hp : l.prevToken = l2.prevToken)
    (hd : l.characters.drop l.position = l2.characters.drop l2.position) : SameView l l2 := by
  refine ⟨?_, hp, ?_⟩
  · rw [hw.2, hw2.2, charAt_eq_headD, charAt_eq_headD, hd]
  · rw [hw.1, hw2.1, ← List.drop_drop, ← List.drop_drop, hd]

theorem wellFormed_ch_of_drop (l : Tokenizer) (hw : WellFormed l) (c : Char) (r : List Char)
    (h : l.characters.drop l.position = c :: r) :
    l.ch = c ∧ l.characters.drop l.readPosition = r := by
  obtain ⟨-, hc, hd⟩ := drop_cons_inv h
  exact ⟨by rw [hw.2, hc], by rw [hw.1, hd]⟩

/-- Leading white space does not change what the scan sees next. -/
theorem skipWhitespace_leading (w : List Char) (hws : ∀ c ∈ w, isWhitespace c = true)
    (l l2 : Tokenizer) (hw : WellFormed l) (hw2 : WellFormed l2)
    (hp : l.prevToken = l2.prevToken)
    (hd : l.characters.drop l.position = w ++ l2.characters.drop l2.position) :
    SameView (skipWhitespace l) (skipWhitespace l2) := by
  induction w generalizing l with
  | nil => exact sameView_skip (wellFormed_sameView l l2 hw hw2 hp (by simpa using hd))
  | cons c w ih =>
    obtain ⟨hc, hr⟩ := wellFormed_ch_of_drop l hw c _ (by simpa using hd)
    rw [skipWhitespace_step l (by rw [hc]; exact hws c (List.mem_cons_self _ _))]
    exact ih (fun x hx => hws x (List.mem_cons_of_mem _ hx)) (readChar l) (readChar_wellFormed l)
      (by simpa using hp) (by simpa using hr)

theorem nextTokens_leading_blanks (lookup : String → TokenType) (w s : String) (n : Nat)
    (hws : ∀ c ∈ w.data, isWhitespace c = true) :
    (nextTokens lookup n (New (w ++ s))).map Prod.fst =
      (nextTokens lookup n (New s)).map Prod.fst := by
  cases n with
  | zero => rfl
  | succ n =>
    have h := @sameView_nextTokens lookup n
      (stateAt ('\n' :: (w ++ s).data) 1 ⟨TokenType.NEWLINE, "N"⟩)
      (stateAt ('\n' :: s.data) 1 ⟨TokenType.NEWLINE, "N"⟩)
      (skipWhitespace_leading w.data hws _ _ ⟨rfl, rfl⟩ ⟨rfl, rfl⟩ rfl
        (by simp [stateAt, String.data_append]))
    simp only [nextTokens, NextToken_New]
    change (match nextTokens lookup n (stateAt ('\n' :: (w ++ s).data) 1 ⟨TokenType.NEWLINE, "N"⟩) with
      | none => none
      | some (toks, l) => some ((⟨TokenType.NEWLINE, "N"⟩ : Token) :: toks, l)).map Prod.fst =
      (match nextTokens lookup n (stateAt ('\n' :: s.data) 1 ⟨TokenType.NEWLINE, "N"⟩) with
      | none => none
      | some (toks, l) => some ((⟨TokenType.NEWLINE, "N"⟩ : Token) :: toks, l)).map Prod.fst
    cases ha : nextTokens lookup n (stateAt ('\n' :: (w ++ s).data) 1 ⟨TokenType.NEWLINE, "N"⟩) with
    | none =>
      rw [ha] at h
      cases hb : nextTokens lookup n (stateAt ('\n' :: s.data) 1 ⟨TokenType.NEWLINE, "N"⟩) with
      | none => rfl
      | some r => rw [hb] at h; cases h
    | some ra =>
      rw [ha] at h
      cases hb : nextTokens lookup n (stateAt ('\n' :: s.data) 1 ⟨TokenType.NEWLINE, "N"⟩) with
      | none => rw [hb] at h; cases h
      | some rb =>
        rw [hb] at h
        simp only [Option.map_some', Option.some.injEq] at h ⊢
        rw [h]

theorem NextToken_newline_skip (lookup : String → TokenType) (l : Tokenizer)
    (h : (skipWhitespace l).ch = '\n') :
    NextToken lookup l = some (⟨TokenType.NEWLINE, "N"⟩,
      { readChar (skipWhitespace l) with prevToken := ⟨TokenType.NEWLINE, "N"⟩ }) := by
  have hd : dispatch lookup (skipWhitespace l) =
      some (⟨TokenType.NEWLINE, "N"⟩, skipWhitespace l) := by
    simp [dispatch, h, newToken]; rfl
  exact NextToken_of_dispatch_ne lookup l _ _ hd (by simp)

theorem nextTokens_newlines (lookup : String → TokenType) (k : Nat) (l : Tokenizer)
    (rest : List Char) (hw : WellFormed l)
    (h : l.characters.drop l.position = List.replicate k '\n' ++ rest) :
    ∃ l2, nextTokens lookup k l = some (List.replicate k ⟨TokenType.NEWLINE, "N"⟩, l2) ∧
      l2.position = l.position + k := by
  induction k generalizing l with
  | zero => exact ⟨l, rfl, rfl⟩
  | succ k ih =>
    obtain ⟨hc, hr⟩ := wellFormed_ch_of_drop l hw '\n' (List.replicate k '\n' ++ rest)
      (by rw [h]; rfl)
    have h1 := NextToken_newline lookup l hc
    obtain ⟨l2, h2, h3⟩ := ih { readChar l with prevToken := ⟨TokenType.NEWLINE, "N"⟩ }
      (readChar_wellFormed l) (by simpa using hr)
    refine ⟨l2, (nextTokens_succ _ _ _ _ _).2 ⟨_, _, _, h1, h2, rfl⟩, ?_⟩
    rw [h3]
    have := hw.1
    simp; omega

/-- C17: white space is insignificant but the newline is not. For every input
`s` and every string `w` made of spaces, tabs and carriage returns only,
`New (w ++ s)` and `New s` yield the same tokens, call by call, whatever the
number of calls (and the same calls fail to return). In every state (with
`readPosition = position + 1`) whose current character, white space skipped, is
a newline, `NextToken` returns NEWLINE with the text `N` and leaves the cursor
one position past that newline; so `k` consecutive newlines under the cursor
yield `k` NEWLINE tokens and move the cursor by `k`. -/
theorem whitespace_insignificant (lookup : String → TokenType) :
    (∀ (w s : String) (n : Nat), (∀ c ∈ w.data, isWhitespace c = true) →
      (nextTokens lookup n (New (w ++ s))).map Prod.fst =
        (nextTokens lookup n (New s)).map Prod.fst) ∧
    (∀ l : Tokenizer, l.readPosition = l.position + 1 → (skipWhitespace l).ch = '\n' →
      ∃ l2, NextToken lookup l = some (⟨TokenType.NEWLINE, "N"⟩, l2) ∧
        l2.position = (skipWhitespace l).position + 1) ∧
    (∀ (l : Tokenizer) (k : Nat) (rest : List Char), WellFormed l →
      l.characters.drop l.position = List.replicate k '\n' ++ rest →
      ∃ l2, nextTokens lookup k l = some (List.replicate k ⟨TokenType.NEWLINE, "N"⟩, l2) ∧
        l2.position = l.position + k) := by
  refine ⟨nextTokens_leading_blanks lookup, ?_, ?_⟩
  · intro l hal h
    refine ⟨_, NextToken_newline_skip lookup l h, ?_⟩
    simp [skipWhitespace_aligned l hal]
  · intro l k rest hw h
    exact nextTokens_newlines lookup k l rest hw h

theorem whitespace_insignificant_witness :
    (∀ c ∈ " \t\r ".data, isWhitespace c = true) ∧
    (nextTokens identLookup 4 (New (" \t\r " ++ "A\n\n1"))).map Prod.fst =
      (nextTokens identLookup 4 (New "A\n\n1")).map Prod.fst ∧
    (nextTokens identLookup 5 (New "A\n\n1")).map Prod.fst =
      some [⟨TokenType.NEWLINE, "N"⟩, ⟨TokenType.IDENT, "A"⟩, ⟨TokenType.NEWLINE, "N"⟩,
            ⟨TokenType.NEWLINE, "N"⟩, ⟨TokenType.LINENO, "1"⟩] :=
  ⟨by decide, (whitespace_insignificant identLookup).1 " \t\r " "A\n\n1" 4 (by decide),
    by decide⟩

/-! ## Lexemes are lossless -/

theorem lexeme_single (lookup : String → TokenType) (l : Tokenizer) (k : TokenType)
    (hk : k ≠ TokenType.EOF) (hws : isWhitespace l.ch = false)
    (h : dispatch lookup l = some (⟨k, String.singleton l.ch⟩, l)) :
    ∃ tok l2, dispatch lookup l = some (tok, l2) ∧
      l.ch :: l.characters.drop l.readPosition =
        tok.Literal.data ++ l.characters.drop l2.readPosition ∧
      tok.Literal.data ≠ [] ∧ (∀ c ∈ tok.Literal.data, isWhitespace c = false) ∧
      (tok.Kind = TokenType.EOF → ∃ s, lookup s = TokenType.EOF) := by
  refine ⟨_, _, h, by simp [String.singleton], by simp [String.singleton], ?_,
    fun he => absurd he hk⟩
  intro c hc
  simp [String.singleton] at hc
  rw [hc]; exact hws

theorem lexeme_double (lookup : String → TokenType) (l : Tokenizer) (k : TokenType)
    (hk : k ≠ TokenType.EOF) (hws : isWhitespace l.ch = false)
    (hp : isWhitespace (peekChar l) = false) (hn : peekChar l ≠ NUL)
    (h : dispatch lookup l =
      some (⟨k, String.singleton l.ch ++ String.singleton (readChar l).ch⟩, readChar l)) :
    ∃ tok l2, dispatch lookup l = some (tok, l2) ∧
      l.ch :: l.characters.drop l.readPosition =
        tok.Literal.data ++ l.characters.drop l2.readPosition ∧
      tok.Literal.data ≠ [] ∧ (∀ c ∈ tok.Literal.data, isWhitespace c = false) ∧
      (tok.Kind = TokenType.EOF → ∃ s, lookup s = TokenType.EOF) := by
  have hlt : l.readPosition < l.characters.length := by
    by_contra hcon
    exact hn (by rw [peekChar_eq, charAt_of_ge (Nat.le_of_not_lt hcon)])
  refine ⟨_, _, h, ?_, by simp [String.singleton], ?_, fun he => absurd he hk⟩
  · simp only [String.data_append, String.singleton, readChar_ch, readChar_readPosition]
    rw [drop_eq_charAt_cons hlt]; rfl
  · intro c hc
    simp only [String.data_append, String.singleton, readChar_ch, ← peekChar_eq] at hc
    simp at hc
    rcases hc with rfl | rfl
    · exact hws
    · exact hp

/-- The text of the token the switch returns is what it consumes: the current
character and the characters of the buffer up to where the scan stops. -/
theorem dispatch_lexeme (lookup : String → TokenType) (l : Tokenizer)
    (h1 : l.ch ≠ NUL) (h2 : l.ch ≠ '"') (h3 : l.ch ≠ '\n') (hws : isWhitespace l.ch = false) :
    ∃ tok l2, dispatch lookup l = some (tok, l2) ∧
      l.ch :: l.characters.drop l.readPosition =
        tok.Literal.data ++ l.characters.drop l2.readPosition ∧
      tok.Literal.data ≠ [] ∧ (∀ c ∈ tok.Literal.data, isWhitespace c = false) ∧
      (tok.Kind = TokenType.EOF → ∃ s, lookup s = TokenType.EOF) := by
  by_cases hd : isDispatched l.ch = false
  · by_cases hg : isDigit l.ch = true
    · have hsp := readNumber_spec l
      refine ⟨_, _, dispatch_digit lookup l hg, ?_, by simp, ?_, fun he => by simp at he⟩
      · rw [hsp.2.2.2.1]
        exact congrArg (l.ch :: ·) (drop_eq_run_append isDigit _ _)
      · intro c hc
        simp only [List.mem_cons] at hc
        rcases hc with rfl | hc
        · exact hws
        · exact isWhitespace_of_isDigit (List.mem_takeWhile_imp hc)
    · have hsp := readIdentifier_spec l
      have hdd : dispatch lookup l =
          some (⟨lookup (String.mk (l.ch :: runFrom isIdentifier l)),
                 String.mk (l.ch :: runFrom isIdentifier l)⟩, (readIdentifier l).2) := by
        rw [dispatch_default lookup l hd, if_neg hg, hsp.1]
      refine ⟨_, _, hdd, ?_, by simp, ?_, fun he => ⟨_, he⟩⟩
      · rw [hsp.2.2.2.1]
        exact congrArg (l.ch :: ·) (drop_eq_run_append isIdentifier _ _)
      · intro c hc
        simp only [List.mem_cons] at hc
        rcases hc with rfl | hc
        · exact hws
        · exact isIdentifier_not_whitespace (List.mem_takeWhile_imp hc)
  · rw [Bool.not_eq_false] at hd
    simp only [isDispatched, Bool.or_eq_true, beq_iff_eq] at hd
    rcases hd with ((((((((((((hc | hc) | hc) | hc) | hc) | hc) | hc) | hc) | hc) | hc) | hc) |
      hc) | hc) | hc
    · exact lexeme_single lookup l TokenType.ASSIGN (by simp) hws (by simp [dispatch, hc, newToken])
    · exact lexeme_single lookup l TokenType.COMMA (by simp) hws (by simp [dispatch, hc, newToken])
    · exact lexeme_single lookup l TokenType.PLUS (by simp) hws (by simp [dispatch, hc, newToken])
    · exact lexeme_single lookup l TokenType.MINUS (by simp) hws (by simp [dispatch, hc, newToken])
    · exact lexeme_single lookup l TokenType.SLASH (by simp) hws (by simp [dispatch, hc, newToken])
    · exact lexeme_single lookup l TokenType.MOD (by simp) hws (by simp [dispatch, hc, newToken])
    · exact lexeme_single lookup l TokenType.ASTERISK (by simp) hws
        (by simp [dispatch, hc, newToken])
    · exact lexeme_single lookup l TokenType.LBRACKET (by simp) hws
        (by simp [dispatch, hc, newToken])
    · exact lexeme_single lookup l TokenType.RBRACKET (by simp) hws
        (by simp [dispatch, hc, newToken])
    · by_cases p1 : peekChar l = '>'
      · exact lexeme_double lookup l TokenType.NOT_EQUALS (by simp) hws (by rw [p1]; decide)
          (by rw [p1]; decide) (by simp [dispatch, hc, p1])
      · by_cases p2 : peekChar l = '='
        · exact lexeme_double lookup l TokenType.LT_EQUALS (by simp) hws (by rw [p2]; decide)
            (by rw [p2]; decide) (by simp [dispatch, hc, p1, p2])
        · exact lexeme_single lookup l TokenType.LT (by simp) hws
            (by simp [dispatch, hc, p1, p2, newToken])
    · by_cases p2 : peekChar l = '='
      · exact lexeme_double lookup l TokenType.GT_EQUALS (by simp) hws (by rw [p2]; decide)
          (by rw [p2]; decide) (by simp [dispatch, hc, p2])
      · exact lexeme_single lookup l TokenType.GT (by simp) hws
          (by simp [dispatch, hc, p2, newToken])
    · exact absurd hc h2
    · exact absurd hc h3
    · exact absurd hc h1

/-- One call from a well-formed state on a character that is neither the
sentinel, a quote nor a newline: the text of the token is what the call
consumes between the white space and the new position of the cursor. -/
theorem NextToken_lexeme (lookup : String → TokenType) (l : Tokenizer) (hw : WellFormed l)
    (h1 : (skipWhitespace l).ch ≠ NUL) (h2 : (skipWhitespace l).ch ≠ '"')
    (h3 : (skipWhitespace l).ch ≠ '\n') :
    ∃ tok l2, NextToken lookup l = some (tok, l2) ∧
      l.characters.drop (skipWhitespace l).position =
        tok.Literal.data ++ l.characters.drop l2.position ∧
      tok.Literal.data ≠ [] ∧ (∀ c ∈ tok.Literal.data, isWhitespace c = false) ∧
      (tok.Kind = TokenType.EOF → ∃ s, lookup s = TokenType.EOF) := by
  have hs := skipWhitespace_wellFormed l hw
  have hc := (skipWhitespace_frame l).1
  obtain ⟨tok, l2, hd, he, hne, hnw, hk⟩ :=
    dispatch_lexeme lookup (skipWhitespace l) h1 h2 h3 (skipWhitespace_ch l)
  refine ⟨_, _, NextToken_of_dispatch lookup l tok l2 hd, ?_, ?_, ?_, ?_⟩
  · rw [lineNumberRule_literal]
    simp only [readChar_position]
    rw [← hc, drop_position _ hs h1, he]
  · rw [lineNumberRule_literal]; exact hne
  · rw [lineNumberRule_literal]; exact hnw
  · intro hkk
    rw [lineNumberRule_kind_EOF _ _ hkk] at hkk
    exact hk hkk

theorem isWhitespace_ne_NUL {c : Char} (h : isWhitespace c = true) : c ≠ NUL := by
  intro hc; rw [hc] at h; revert h; decide

/-- Skipping white space removes white space only. -/
theorem skipWhitespaceLoop_filter (n : Nat) (l : Tokenizer) (hw : WellFormed l) :
    (l.characters.drop l.position).filter (fun c => !isWhitespace c) =
      (l.characters.drop (skipWhitespaceLoop n l).position).filter (fun c => !isWhitespace c) ∧
    l.position ≤ (skipWhitespaceLoop n l).position := by
  induction n generalizing l with
  | zero => exact ⟨rfl, Nat.le_refl _⟩
  | succ n ih =>
    simp only [skipWhitespaceLoop]
    split
    · rename_i hws
      have hdp := drop_position l hw (isWhitespace_ne_NUL hws)
      obtain ⟨i1, i2⟩ := ih (readChar l) (readChar_wellFormed l)
      simp only [readChar_characters, readChar_position] at i1 i2
      refine ⟨?_, ?_⟩
      · rw [hdp, List.filter_cons_of_neg (by simp [hws]), i1]
      · have := hw.1; omega
    · exact ⟨rfl, Nat.le_refl _⟩

theorem skipWhitespace_filter (l : Tokenizer) (hw : WellFormed l) :
    (l.characters.drop l.position).filter (fun c => !isWhitespace c) =
      (l.characters.drop (skipWhitespace l).position).filter (fun c => !isWhitespace c) ∧
    l.position ≤ (skipWhitespace l).position :=
  skipWhitespaceLoop_filter _ l hw

theorem NextToken_EOF_skip (lookup : String → TokenType) (l : Tokenizer)
    (h : (skipWhitespace l).ch = NUL) :
    ∃ l2, NextToken lookup l = some (⟨TokenType.EOF, ""⟩, l2) := by
  have hd : dispatch lookup (skipWhitespace l) = some (⟨TokenType.EOF, ""⟩, skipWhitespace l) := by
    simp [dispatch, h, NUL_eq]
  exact ⟨_, NextToken_of_dispatch_ne lookup l _ _ hd (by simp)⟩

theorem mem_drop_of_le {cs : List Char} {i j : Nat} (h : i ≤ j) {c : Char}
    (hc : c ∈ cs.drop j) : c ∈ cs.drop i := by
  obtain ⟨d, rfl⟩ : ∃ d, j = i + d := ⟨j - i, by omega⟩
  rw [← List.drop_drop] at hc
  exact List.mem_of_mem_drop hc

/-- From a well-formed state whose remaining characters hold no quote, no
newline and no sentinel, the calls before the first EOF return tokens whose
texts, put end to end, are the remaining characters without the white space. -/
theorem nextTokens_lossless (lookup : String → TokenType)
    (hlk : ∀ s, lookup s ≠ TokenType.EOF) (m : Nat) :
    ∀ l : Tokenizer, WellFormed l → l.characters.length - l.position ≤ m →
      (∀ c ∈ l.characters.drop l.position, c ≠ '"' ∧ c ≠ '\n' ∧ c ≠ NUL) →
      ∃ toks l2, nextTokens lookup toks.length l = some (toks, l2) ∧
        (∀ t ∈ toks, t.Kind ≠ TokenType.EOF) ∧
        toks.flatMap (fun t => t.Literal.data) =
          (l.characters.drop l.position).filter (fun c => !isWhitespace c) ∧
        ∃ l3, NextToken lookup l2 = some (⟨TokenType.EOF, ""⟩, l3) := by
  induction m with
  | zero =>
    intro l hw hm hin
    have hs := skipWhitespace_wellFormed l hw
    obtain ⟨hf, hle⟩ := skipWhitespace_filter l hw
    have hc := (skipWhitespace_frame l).1
    have hge : (skipWhitespace l).characters.length ≤ (skipWhitespace l).position := by
      rw [hc]; omega
    refine ⟨[], l, rfl, by simp, ?_, NextToken_EOF_skip lookup l (wellFormed_ch_of_ge _ hs hge)⟩
    rw [hf, List.drop_eq_nil_of_le (by rw [← hc]; exact hge)]
    rfl
  | succ m ih =>
    intro l hw hm hin
    have hs := skipWhitespace_wellFormed l hw
    obtain ⟨hf, hle⟩ := skipWhitespace_filter l hw
    have hc := (skipWhitespace_frame l).1
    by_cases hge : (skipWhitespace l).characters.length ≤ (skipWhitespace l).position
    · refine ⟨[], l, rfl, by simp, ?_, NextToken_EOF_skip lookup l (wellFormed_ch_of_ge _ hs hge)⟩
      rw [hf, List.drop_eq_nil_of_le (by rw [← hc]; exact hge)]
      rfl
    · have hlt : (skipWhitespace l).position < l.characters.length := by
        rw [← hc]; exact Nat.lt_of_not_le hge
      have hmem : (skipWhitespace l).ch ∈ l.characters.drop l.position := by
        rw [hs.2, hc]
        refine mem_drop_of_le hle ?_
        rw [drop_eq_charAt_cons hlt]
        exact List.mem_cons_self _ _
      obtain ⟨q1, q2, q3⟩ := hin _ hmem
      obtain ⟨tok, l2, h1, h2, h3, h4, h5⟩ := NextToken_lexeme lookup l hw q3 q1 q2
      have hf2 := NextToken_frame _ _ _ _ h1
      have hw2 := NextToken_wellFormed _ _ _ _ h1
      have hlen := congrArg List.length h2
      simp only [List.length_drop, List.length_append] at hlen
      have hpos : 0 < tok.Literal.data.length := List.length_pos.2 h3
      obtain ⟨toks, l3, i1, i2, i3, i4⟩ := ih l2 hw2 (by rw [hf2.1]; omega) (by
        intro c hcm
        rw [hf2.1] at hcm
        exact hin c (mem_drop_of_le hle (by rw [h2]; exact List.mem_append_right _ hcm)))
      refine ⟨tok :: toks, l3, (nextTokens_succ _ _ _ _ _).2 ⟨tok, l2, toks, h1, i1, rfl⟩, ?_, ?_,
        i4⟩
      · intro t ht
        rcases List.mem_cons.1 ht with rfl | ht
        · intro hk
          obtain ⟨s, hs2⟩ := h5 hk
          exact hlk s hs2
        · exact i2 t ht
      · rw [List.flatMap_cons, i3, hf, h2, List.filter_append, hf2.1]
        congr 1
        symm
        apply List.filter_eq_self.2
        intro c hcm
        simp [h4 c hcm]

/-- On an input whose runes hold no quote, no newline and no sentinel (the
keyword table never yielding EOF), the tokens returned after the NEWLINE of the
prefixed newline and before the first EOF have texts whose runes, put end to
end, are the runes of the input without the spaces, tabs and carriage returns. -/
theorem nextTokens_lossless_runes (lookup : String → TokenType) (hlk : ∀ s, lookup s ≠ TokenType.EOF)
    (input : String) (hin : ∀ c ∈ input.data, c ≠ '"' ∧ c ≠ '\n' ∧ c ≠ NUL) :
    ∃ toks l, nextTokens lookup (toks.length + 2) (New input) =
        some (⟨TokenType.NEWLINE, "N"⟩ :: (toks ++ [⟨TokenType.EOF, ""⟩]), l) ∧
      (∀ t ∈ toks, t.Kind ≠ TokenType.EOF) ∧
      toks.flatMap (fun t => t.Literal.data) =
        input.data.filter (fun c => !isWhitespace c) := by
  obtain ⟨toks, l2, h1, h2, h3, l3, h4⟩ := nextTokens_lossless lookup hlk _
    (stateAt ('\n' :: input.data) 1 ⟨TokenType.NEWLINE, "N"⟩) ⟨rfl, rfl⟩ (Nat.le_refl _)
    (by simpa [stateAt] using hin)
  have h5 : nextTokens lookup 1 l2 = some ([⟨TokenType.EOF, ""⟩], l3) := by
    simp [nextTokens, h4]
  have h6 := (nextTokens_add lookup toks.length 1 _ l3 (toks ++ [⟨TokenType.EOF, ""⟩])).2
    ⟨toks, l2, _, h1, h5, rfl⟩
  refine ⟨toks, l3, (nextTokens_succ _ _ _ _ _).2 ⟨_, _, _, NextToken_New lookup input, h6, rfl⟩,
    h2, ?_⟩
  rw [h3]
  simp [stateAt]

/-! ## Inputs as bytes -/

theorem runesOf_newline (s : List Nat) : runesOf (0x0A :: s) = '\n' :: runesOf s := by
  simp only [runesOf, List.length_cons, runesLoop, decodeRune]
  simp

/-- Starting on the bytes of an input is starting on the runes read in them. -/
theorem NewBytes_eq (s : List Nat) : NewBytes s = New (String.mk (runesOf s)) := by
  simp only [NewBytes, New, runesOf_newline]

theorem char_toNat_valid (c : Char) :
    c.toNat < 0xD800 ∨ (0xDFFF < c.toNat ∧ c.toNat < 0x110000) := by
  have h := c.valid
  simp only [UInt32.isValidChar, Nat.isValidChar] at h
  exact h

theorem encodeRune_length_pos (c : Char) : 0 < (encodeRune c).length := by
  unfold encodeRune
  split
  · simp
  · split
    · simp
    · split <;> simp

/-- Reading a rune in the bytes of a character gives the character back and
takes its bytes. -/
theorem decodeRune_encodeRune (c : Char) (rest : List Nat) :
    decodeRune (encodeRune c ++ rest) = (c, (encodeRune c).length) := by
  have hv := char_toNat_valid c
  have hc : Char.ofNat c.toNat = c := Char.ofNat_toNat c
  unfold encodeRune
  by_cases h1 : c.toNat < 0x80
  · rw [if_pos h1]
    simp only [List.singleton_append, decodeRune, if_pos h1, hc, List.length_singleton]
  · rw [if_neg h1]
    by_cases h2 : c.toNat < 0x800
    · rw [if_pos h2]
      have e : (0xC0 + c.toNat / 64) % 32 * 64 + (0x80 + c.toNat % 64) % 64 = c.toNat := by omega
      have a1 : ¬ (0xC0 + c.toNat / 64 < 0x80) := by omega
      have a2 : ¬ (0xC0 + c.toNat / 64 < 0xC2 ∨ 0xF4 < 0xC0 + c.toNat / 64) := by omega
      have a3 : acceptLo (0xC0 + c.toNat / 64) = 0x80 := by
        unfold acceptLo; rw [if_neg (by omega), if_neg (by omega)]
      have a4 : acceptHi (0xC0 + c.toNat / 64) = 0xBF := by
        unfold acceptHi; rw [if_neg (by omega), if_neg (by omega)]
      have a5 : ¬ (0x80 + c.toNat % 64 < 0x80 ∨ 0xBF < 0x80 + c.toNat % 64) := by omega
      have a6 : 0xC0 + c.toNat / 64 < 0xE0 := by omega
      simp only [List.cons_append, List.nil_append, decodeRune, if_neg a1, if_neg a2, a3, a4,
        if_neg a5, if_pos a6, e, hc, List.length_cons, List.length_nil]
    · rw [if_neg h2]
      by_cases h3 : c.toNat < 0x10000
      · rw [if_pos h3]
        have e : (0xE0 + c.toNat / 4096) % 16 * 4096 + (0x80 + c.toNat / 64 % 64) % 64 * 64 +
            (0x80 + c.toNat % 64) % 64 = c.toNat := by omega
        have a1 : ¬ (0xE0 + c.toNat / 4096 < 0x80) := by omega
        have a2 : ¬ (0xE0 + c.toNat / 4096 < 0xC2 ∨ 0xF4 < 0xE0 + c.toNat / 4096) := by omega
        have a3 : ¬ (0x80 + c.toNat / 64 % 64 < acceptLo (0xE0 + c.toNat / 4096) ∨
            acceptHi (0xE0 + c.toNat / 4096) < 0x80 + c.toNat / 64 % 64) := by
          unfold acceptLo acceptHi
          split_ifs <;> omega
        have a5 : ¬ (0x80 + c.toNat % 64 < 0x80 ∨ 0xBF < 0x80 + c.toNat % 64) := by omega
        have a6 : ¬ (0xE0 + c.toNat / 4096 < 0xE0) := by omega
        have a7 : 0xE0 + c.toNat / 4096 < 0xF0 := by omega
        simp only [List.cons_append, List.nil_append, decodeRune, if_neg a1, if_neg a2,
          if_neg a3, if_neg a5, if_neg a6, if_pos a7, e, hc, List.length_cons, List.length_nil]
      · rw [if_neg h3]
        have e : (0xF0 + c.toNat / 262144) % 8 * 262144 + (0x80 + c.toNat / 4096 % 64) % 64 * 4096 +
            (0x80 + c.toNat / 64 % 64) % 64 * 64 + (0x80 + c.toNat % 64) % 64 = c.toNat := by omega
        have a1 : ¬ (0xF0 + c.toNat / 262144 < 0x80) := by omega
        have a2 : ¬ (0xF0 + c.toNat / 262144 < 0xC2 ∨ 0xF4 < 0xF0 + c.toNat / 262144) := by omega
        have a3 : ¬ (0x80 + c.toNat / 4096 % 64 < acceptLo (0xF0 + c.toNat / 262144) ∨
            acceptHi (0xF0 + c.toNat / 262144) < 0x80 + c.toNat / 4096 % 64) := by
          unfold acceptLo acceptHi
          split_ifs <;> omega
        have a4 : ¬ (0x80 + c.toNat / 64 % 64 < 0x80 ∨ 0xBF < 0x80 + c.toNat / 64 % 64) := by omega
        have a5 : ¬ (0x80 + c.toNat % 64 < 0x80 ∨ 0xBF < 0x80 + c.toNat % 64) := by omega
        have a6 : ¬ (0xF0 + c.toNat / 262144 < 0xE0) := by omega
        have a7 : ¬ (0xF0 + c.toNat / 262144 < 0xF0) := by omega
        simp only [List.cons_append, List.nil_append, decodeRune, if_neg a1, if_neg a2,
          if_neg a3, if_neg a4, if_neg a5, if_neg a6, if_neg a7, e, hc, List.length_cons,
          List.length_nil]

theorem runesLoop_encodeRunes (cs : List Char) :
    ∀ n, (encodeRunes cs).length ≤ n → runesLoop n (encodeRunes cs) = cs := by
  induction cs with
  | nil => intro n _; cases n <;> rfl
  | cons c cs ih =>
    intro n hn
    have hcons : encodeRunes (c :: cs) = encodeRune c ++ encodeRunes cs := by
      simp [encodeRunes]
    rw [hcons] at hn ⊢
    have hpos := encodeRune_length_pos c
    have hd := decodeRune_encodeRune c (encodeRunes cs)
    rw [List.length_append] at hn
    obtain ⟨m, rfl⟩ : ∃ m, n = m + 1 := ⟨n - 1, by omega⟩
    cases hb : encodeRune c ++ encodeRunes cs with
    | nil =>
      have := congrArg List.length hb
      rw [List.length_append, List.length_nil] at this
      omega
    | cons b s =>
      rw [runesLoop, ← hb, hd]
      simp only [List.drop_left]
      rw [ih m (by omega)]

/-- The runes read in the bytes of a string are the characters of the string. -/
theorem runesOf_bytesOf (s : String) : runesOf (bytesOf s) = s.data :=
  runesLoop_encodeRunes s.data _ (Nat.le_refl _)

/-- The valid inputs are the encodings of strings. -/
theorem validUTF8_iff (input : List Nat) :
    validUTF8 input = true ↔ ∃ s : String, input = bytesOf s := by
  constructor
  · intro h
    exact ⟨String.mk (runesOf input), (eq_of_beq h).symm⟩
  · rintro ⟨s, rfl⟩
    unfold validUTF8
    rw [runesOf_bytesOf]
    exact beq_self_eq_true (bytesOf s)

/-- On the bytes of a string the tokenizer starts as it does on the string. -/
theorem NewBytes_bytesOf (s : String) : NewBytes (bytesOf s) = New s := by
  rw [NewBytes_eq, runesOf_bytesOf]

theorem mem_encodeRunes {cs : List Char} {c : Char} (hc : c ∈ cs) {b : Nat}
    (hb : b ∈ encodeRune c) : b ∈ encodeRunes cs :=
  List.mem_flatMap.2 ⟨c, hc, hb⟩

theorem char_eq_of_toNat {c : Char} {n : Nat} (h : c.toNat = n) : c = Char.ofNat n := by
  rw [← h, Char.ofNat_toNat]

theorem removeBlanks_encodeRune_blank {c : Char} (h : isWhitespace c = true) :
    removeBlanks (encodeRune c) = [] := by
  simp only [isWhitespace, Bool.or_eq_true, beq_iff_eq] at h
  rcases h with (rfl | rfl) | rfl <;> decide

theorem removeBlanks_encodeRune {c : Char} (h : isWhitespace c = false) :
    removeBlanks (encodeRune c) = encodeRune c := by
  simp only [isWhitespace, Bool.or_eq_false_iff, beq_eq_false_iff_ne, ne_eq] at h
  obtain ⟨⟨h1, h2⟩, h3⟩ := h
  have e1 : c.toNat ≠ 0x20 := fun e => h1 (char_eq_of_toNat e)
  have e2 : c.toNat ≠ 0x09 := fun e => h2 (char_eq_of_toNat e)
  have e3 : c.toNat ≠ 0x0D := fun e => h3 (char_eq_of_toNat e)
  unfold removeBlanks
  apply List.filter_eq_self.2
  intro b hb
  simp only [Bool.and_eq_true, bne_iff_ne, ne_eq]
  unfold encodeRune at hb
  split at hb
  · simp only [List.mem_singleton] at hb
    subst hb; exact ⟨⟨e1, e2⟩, e3⟩
  · split at hb
    · simp only [List.mem_cons, List.mem_singleton, List.not_mem_nil, or_false] at hb
      rcases hb with rfl | rfl <;> omega
    · split at hb
      · simp only [List.mem_cons, List.mem_singleton, List.not_mem_nil, or_false] at hb
        rcases hb with rfl | rfl | rfl <;> omega
      · simp only [List.mem_cons, List.mem_singleton, List.not_mem_nil, or_false] at hb
        rcases hb with rfl | rfl | rfl | rfl <;> omega

theorem removeBlanks_append (a b : List Nat) :
    removeBlanks (a ++ b) = removeBlanks a ++ removeBlanks b := by
  simp [removeBlanks]

/-- Removing the blank runes before encoding is removing the blank bytes after. -/
theorem encodeRunes_filter (cs : List Char) :
    encodeRunes (cs.filter (fun c => !isWhitespace c)) = removeBlanks (encodeRunes cs) := by
  induction cs with
  | nil => rfl
  | cons c cs ih =>
    have hcons : encodeRunes (c :: cs) = encodeRune c ++ encodeRunes cs := by
      simp [encodeRunes]
    rw [hcons, removeBlanks_append, ← ih]
    cases hw : isWhitespace c with
    | true =>
      rw [List.filter_cons_of_neg (by simp [hw]), removeBlanks_encodeRune_blank hw]
      rfl
    | false =>
      rw [List.filter_cons_of_pos (by simp [hw]), removeBlanks_encodeRune hw]
      simp [encodeRunes]

theorem flatMap_bytesOf (toks : List Token) :
    toks.flatMap (fun t => bytesOf t.Literal) =
      encodeRunes (toks.flatMap (fun t => t.Literal.data)) := by
  induction toks with
  | nil => rfl
  | cons t toks ih => simp [bytesOf, encodeRunes, List.flatMap_append] at ih ⊢; exact ih

/-- In valid UTF-8 a rune is ASCII only where its byte is in the bytes. -/
theorem runes_free_of_bytes (input : List Nat) (hv : validUTF8 input = true)
    (hq : 0x22 ∉ input) (hn : 0x0A ∉ input) (h0 : 0 ∉ input) :
    ∀ c ∈ runesOf input, c ≠ '"' ∧ c ≠ '\n' ∧ c ≠ NUL := by
  have he : encodeRunes (runesOf input) = input := eq_of_beq hv
  intro c hc
  refine ⟨?_, ?_, ?_⟩
  · rintro rfl
    exact hq (by rw [← he]; exact mem_encodeRunes hc (by decide))
  · rintro rfl
    exact hn (by rw [← he]; exact mem_encodeRunes hc (by decide))
  · rintro rfl
    exact h0 (by rw [← he]; exact mem_encodeRunes hc (by decide))

/-- C19, as stated, fails: on the input made of the bytes FF and 41, which
holds no quote, no newline and no sentinel, the only token between the NEWLINE
of the prefixed newline and EOF has the runes U+FFFD and `A` as text, whose
bytes EF BF BD 41 are not the input: `[]rune` turned the invalid byte FF into
U+FFFD. -/
theorem lexemes_lossless_counterexample :
    0x22 ∉ [0xFF, 0x41] ∧ 0x0A ∉ [0xFF, 0x41] ∧ 0 ∉ [0xFF, 0x41] ∧
    (∀ c ∈ runesOf [0xFF, 0x41], c ≠ '"' ∧ c ≠ '\n' ∧ c ≠ NUL) ∧
    (nextTokens identLookup 3 (NewBytes [0xFF, 0x41])).map Prod.fst =
      some [⟨TokenType.NEWLINE, "N"⟩, ⟨TokenType.IDENT, String.mk [RuneError, 'A']⟩,
            ⟨TokenType.EOF, ""⟩] ∧
    [(⟨TokenType.IDENT, String.mk [RuneError, 'A']⟩ : Token)].flatMap
        (fun t => bytesOf t.Literal) = [0xEF, 0xBF, 0xBD, 0x41] ∧
    removeBlanks [0xFF, 0x41] = [0xFF, 0x41] ∧
    [(⟨TokenType.IDENT, String.mk [RuneError, 'A']⟩ : Token)].flatMap
        (fun t => bytesOf t.Literal) ≠ removeBlanks [0xFF, 0x41] := by
  decide

/-- C19, amended: lexemes are lossless outside strings and newlines on valid
UTF-8. For every input that is valid UTF-8 and holds no quote, no newline and
no sentinel (the keyword table never yielding EOF), the tokens returned after
the NEWLINE of the prefixed newline and before the first EOF have texts whose
bytes, put end to end, are the input without its spaces, tabs and carriage
returns. -/
theorem lexemes_lossless (lookup : String → TokenType) (hlk : ∀ s, lookup s ≠ TokenType.EOF)
    (input : List Nat) (hv : validUTF8 input = true)
    (hq : 0x22 ∉ input) (hn : 0x0A ∉ input) (h0 : 0 ∉ input) :
    ∃ toks l, nextTokens lookup (toks.length + 2) (NewBytes input) =
        some (⟨TokenType.NEWLINE, "N"⟩ :: (toks ++ [⟨TokenType.EOF, ""⟩]), l) ∧
      (∀ t ∈ toks, t.Kind ≠ TokenType.EOF) ∧
      toks.flatMap (fun t => bytesOf t.Literal) = removeBlanks input := by
  have he : encodeRunes (runesOf input) = input := eq_of_beq hv
  obtain ⟨toks, l, h1, h2, h3⟩ := nextTokens_lossless_runes lookup hlk (String.mk (runesOf input))
    (runes_free_of_bytes input hv hq hn h0)
  refine ⟨toks, l, by rw [NewBytes_eq]; exact h1, h2, ?_⟩
  rw [flatMap_bytesOf, h3, encodeRunes_filter, he]

theorem lexemes_lossless_witness :
    (∀ s, identLookup s ≠ TokenType.EOF) ∧
    validUTF8 (bytesOf "1 é<=\tY%2\r") = true ∧
    0x22 ∉ bytesOf "1 é<=\tY%2\r" ∧ 0x0A ∉ bytesOf "1 é<=\tY%2\r" ∧
    0 ∉ bytesOf "1 é<=\tY%2\r" ∧
    (nextTokens identLookup 7 (NewBytes (bytesOf "1 é<=\tY%2\r"))).map Prod.fst =
      some [⟨TokenType.NEWLINE, "N"⟩, ⟨TokenType.LINENO, "1"⟩, ⟨TokenType.IDENT, "é"⟩,
            ⟨TokenType.LT_EQUALS, "<="⟩, ⟨TokenType.IDENT, "Y%"⟩, ⟨TokenType.INT, "2"⟩,
            ⟨TokenType.EOF, ""⟩] ∧
    ∃ toks l, nextTokens identLookup (toks.length + 2) (NewBytes (bytesOf "1 é<=\tY%2\r")) =
        some (⟨TokenType.NEWLINE, "N"⟩ :: (toks ++ [⟨TokenType.EOF, ""⟩]), l) ∧
      (∀ t ∈ toks, t.Kind ≠ TokenType.EOF) ∧
      toks.flatMap (fun t => bytesOf t.Literal) = bytesOf "1é<=Y%2" :=
  ⟨fun _ => by simp [identLookup], by decide, by decide, by decide, by decide, by decide,
    lexemes_lossless identLookup (fun _ => by simp [identLookup]) (bytesOf "1 é<=\tY%2\r")
      (by decide) (by decide) (by decide) (by decide)⟩
end Gobasic
